import Mathlib

/-!
# Maze distance field and mouse kinematics of the `mms` simulator

A shallow embedding of `src/sim/Maze.cpp` and `src/sim/Mouse.cpp`.

* `QVector<QVector<Tile>>` is a list of columns, each a list of tiles; a `Tile*`
  into it is the pair of indices `(x, y)` it points at.
* C++ `int` values are `Int` where they are read from a tile and `Nat` where they are
  container sizes; no value in the embedded code can leave the 32-bit range unless
  the grid has more than `2^31` tiles.
* An access outside a container (a failed `at`/`operator[]` check) and an exhausted
  iteration budget are explicit faults.
* `double` and the unit wrappers around it (`Speed`, `AngularVelocity`, `Angle`,
  `Duration`, `Distance`) are rationals. In `Mouse::setWheelSpeedsForMovement`, whose
  assertions compare rounded results, every operation stores its result rounded to a
  `double` (`roundDouble`); elsewhere results are kept exact. NaN has no rational: a
  division by zero ahead of an assertion is a fault, and `Mouse::update`, which has no
  assertion, returns an `UpdateOutcome`.
-/

namespace mms

/-! ## Maze: data model -/

/-- The four wall directions of a tile. -/
inductive Direction where
  | NORTH
  | EAST
  | SOUTH
  | WEST
  deriving DecidableEq, Repr

/-- Modelled from the spec: the constant `DIRECTIONS()` is declared outside `src/`; the
spec lists the directions as NORTH/EAST/SOUTH/WEST, which is the iteration order used. -/
def DIRECTIONS : List Direction :=
  [Direction.NORTH, Direction.EAST, Direction.SOUTH, Direction.WEST]

/-- Modelled from the spec: the class `Tile` is declared outside `src/`; the spec gives a
tile a position, four wall flags and a BFS distance with sentinel `-1`. -/
structure Tile where
  x : Int
  y : Int
  wallNorth : Bool
  wallEast : Bool
  wallSouth : Bool
  wallWest : Bool
  distance : Int
  deriving DecidableEq, Repr

/-- The accessor `Tile::isWall(direction)`. -/
def Tile.isWall (t : Tile) : Direction → Bool
  | Direction.NORTH => t.wallNorth
  | Direction.EAST => t.wallEast
  | Direction.SOUTH => t.wallSouth
  | Direction.WEST => t.wallWest

/-- The mutator `Tile::setDistance(distance)`. -/
def Tile.setDistance (t : Tile) (d : Int) : Tile :=
  { t with distance := d }

/-- The container `QVector<QVector<Tile>>`, indexed `[x][y]`. -/
abbrev MazeGrid := List (List Tile)

/-- A `Tile*` into a `MazeGrid`: the indices `(x, y)` of the tile pointed at. -/
abbrev TilePtr := Nat × Nat

/-- The ways a run of the embedded code can stop without a result. -/
inductive Fault where
  | outOfBounds
  | outOfFuel
  deriving DecidableEq, Repr

deriving instance DecidableEq for Except

/-- Dereferencing a `Tile*`: the tile stored at `[p.1][p.2]`, if there is one. -/
def tileAt (maze : MazeGrid) (p : TilePtr) : Option Tile :=
  match maze[p.1]? with
  | none => none
  | some column => column[p.2]?

/-- The effect of `ptr->setDistance(d)` on the grid the pointer points into. -/
def setDistanceAt (maze : MazeGrid) (p : TilePtr) (d : Int) : MazeGrid :=
  List.modify (List.modify (fun t => t.setDistance d) p.2) p.1 maze

/-- The expression `&maze[x][y]` for `int` indices: a fault outside the grid. -/
def tilePtr (maze : MazeGrid) (x y : Int) : Except Fault TilePtr :=
  if 0 ≤ x ∧ 0 ≤ y ∧ (tileAt maze (x.toNat, y.toNat)).isSome then
    Except.ok (x.toNat, y.toNat)
  else
    Except.error Fault.outOfBounds

/-- `Maze::getWidth`. -/
def getWidth (maze : MazeGrid) : Nat :=
  maze.length

/-- `Maze::getHeight`. -/
def getHeight (maze : MazeGrid) : Nat :=
  match maze with
  | [] => 0
  | column :: _ => column.length

/-- `Maze::withinMaze`. -/
def withinMaze (maze : MazeGrid) (x y : Int) : Bool :=
  decide (0 ≤ x) && decide (x < getWidth maze) && decide (0 ≤ y) && decide (y < getHeight maze)

/-- `Maze::getTile`: `ASSERT_TR(withinMaze(x, y))` followed by `m_maze.at(x).at(y)`. -/
def getTile (maze : MazeGrid) (x y : Int) : Except Fault Tile :=
  if withinMaze maze x y then
    match tileAt maze (x.toNat, y.toNat) with
    | some t => Except.ok t
    | none => Except.error Fault.outOfBounds
  else
    Except.error Fault.outOfBounds

/-- `Maze::getOptimalStartingDirection`. -/
def getOptimalStartingDirection (maze : MazeGrid) : Except Fault Direction :=
  if getHeight maze = 0 then
    Except.ok Direction.NORTH
  else
    match getTile maze 0 0 with
    | Except.error e => Except.error e
    | Except.ok t =>
      if t.isWall Direction.NORTH && !t.isWall Direction.EAST then
        Except.ok Direction.EAST
      else
        Except.ok Direction.NORTH

/-! ## Maze: the distance field -/

/-- The lambda `getNeighbor` of `Maze::setTileDistances`: `Except.ok none` is `nullptr`. -/
def getNeighbor (maze : MazeGrid) (width height : Nat) (x y : Int) :
    Direction → Except Fault (Option TilePtr)
  | Direction.NORTH =>
    if y < (height : Int) - 1 then (tilePtr maze x (y + 1)).map some else Except.ok none
  | Direction.EAST =>
    if x < (width : Int) - 1 then (tilePtr maze (x + 1) y).map some else Except.ok none
  | Direction.SOUTH =>
    if 0 < y then (tilePtr maze x (y - 1)).map some else Except.ok none
  | Direction.WEST =>
    if 0 < x then (tilePtr maze (x - 1) y).map some else Except.ok none

/-- The indices pushed onto `centerTiles`, in push order. -/
def centerIndices (width height : Nat) : List TilePtr :=
  [((width - 1) / 2, (height - 1) / 2)] ++
    (if width % 2 = 0 then
      [(width / 2, (height - 1) / 2)] ++
        (if height % 2 = 0 then
          [((width - 1) / 2, height / 2), (width / 2, height / 2)]
        else [])
    else if height % 2 = 0 then
      [((width - 1) / 2, height / 2)]
    else [])

/-- Taking the addresses `&maze[i][j]` of a list of index pairs, left to right. -/
def takePtrs (maze : MazeGrid) : List TilePtr → Except Fault (List TilePtr)
  | [] => Except.ok []
  | c :: cs =>
    match tilePtr maze (c.1 : Int) (c.2 : Int) with
    | Except.error e => Except.error e
    | Except.ok p =>
      match takePtrs maze cs with
      | Except.error e => Except.error e
      | Except.ok ps => Except.ok (p :: ps)

/-- The loop `for (Tile* tile : centerTiles)` of `Maze::setTileDistances`, on the grid. -/
def seedCenters (maze : MazeGrid) (centers : List TilePtr) : MazeGrid :=
  centers.foldl (fun m c => setDistanceAt m c 0) maze

/-- One pass of the body of `for (Direction direction : DIRECTIONS())` for the dequeued
`tile`, on the state made of the grid and the queue `discovered`. -/
def visitDirection (width height : Nat) (tile : TilePtr) (st : MazeGrid × List TilePtr)
    (direction : Direction) : Except Fault (MazeGrid × List TilePtr) :=
  match tileAt st.1 tile with
  | none => Except.error Fault.outOfBounds
  | some t =>
    if t.isWall direction then Except.ok st
    else
      match getNeighbor st.1 width height t.x t.y direction with
      | Except.error e => Except.error e
      | Except.ok none => Except.ok st
      | Except.ok (some neighbor) =>
        match tileAt st.1 neighbor with
        | none => Except.error Fault.outOfBounds
        | some n =>
          if n.distance = -1 then
            Except.ok (setDistanceAt st.1 neighbor (t.distance + 1), st.2 ++ [neighbor])
          else Except.ok st

/-- The loop `for (Direction direction : DIRECTIONS())` for the dequeued `tile`. -/
def visitDirections (width height : Nat) (tile : TilePtr) :
    List Direction → MazeGrid × List TilePtr → Except Fault (MazeGrid × List TilePtr)
  | [], st => Except.ok st
  | d :: ds, st =>
    match visitDirection width height tile st d with
    | Except.error e => Except.error e
    | Except.ok st' => visitDirections width height tile ds st'

/-- The loop `while (!discovered.empty())`, allowed at most `fuel` dequeues. -/
def bfsLoop (width height : Nat) : Nat → MazeGrid → List TilePtr → Except Fault MazeGrid
  | _, maze, [] => Except.ok maze
  | 0, _, _ :: _ => Except.error Fault.outOfFuel
  | fuel + 1, maze, tile :: discovered =>
    match visitDirections width height tile DIRECTIONS (maze, discovered) with
    | Except.error e => Except.error e
    | Except.ok st => bfsLoop width height fuel st.1 st.2

/-- `Maze::setTileDistances`, with a budget of `width * height` dequeues for the BFS. -/
def setTileDistances (maze : MazeGrid) : Except Fault MazeGrid :=
  match maze with
  | [] => Except.error Fault.outOfBounds
  | column :: _ =>
    let width := maze.length
    let height := column.length
    match takePtrs maze (centerIndices width height) with
    | Except.error e => Except.error e
    | Except.ok centerTiles =>
      bfsLoop width height (width * height) (seedCenters maze centerTiles) centerTiles

/-- Modelled from the spec: the types `BasicTile`/`BasicMaze` are declared outside `src/`;
a basic tile answers `value(direction)` with the wall flag of that direction. -/
abbrev BasicTile := Direction → Bool

/-- The wall description `QVector<QVector<BasicTile>>`. -/
abbrev BasicMaze := List (List BasicTile)

/-- Modelled from the spec: the constructor `Tile::Tile()` is outside `src/`; a tile that
has not been reached has the sentinel distance `-1`. The tile built in the inner loop body
of `Maze::initializeFromBasicMaze` (`setPos`, then `setWall` for every direction). -/
def freshTile (x y : Nat) (b : BasicTile) : Tile :=
  { x := x, y := y,
    wallNorth := b Direction.NORTH, wallEast := b Direction.EAST,
    wallSouth := b Direction.SOUTH, wallWest := b Direction.WEST,
    distance := -1 }

/-- The column built by the inner loop of `Maze::initializeFromBasicMaze` from row `y` on. -/
def buildColumn (x : Nat) : Nat → List BasicTile → List Tile
  | _, [] => []
  | y, b :: bs => freshTile x y b :: buildColumn x (y + 1) bs

/-- The grid built by the outer loop of `Maze::initializeFromBasicMaze` from column `x` on. -/
def buildColumns : Nat → BasicMaze → MazeGrid
  | _, [] => []
  | x, c :: cs => buildColumn x 0 c :: buildColumns (x + 1) cs

/-- `Maze::initializeFromBasicMaze` (polygon initialisation left out). -/
def initializeFromBasicMaze (basicMaze : BasicMaze) : Except Fault MazeGrid :=
  setTileDistances (buildColumns 0 basicMaze)


/-! ## Maze: vocabulary of the statements -/

/-- The grid has at least one column and its first column at least one tile. -/
def NonEmpty (maze : MazeGrid) : Prop :=
  1 ≤ getWidth maze ∧ 1 ≤ getHeight maze

/-- Every column has the height of the first one. -/
def Rectangular (maze : MazeGrid) : Prop :=
  ∀ column ∈ maze, column.length = getHeight maze

/-- The tile stored at `[i][j]` records the position `(i, j)`, as `setPos` leaves it. -/
def Positioned (maze : MazeGrid) : Prop :=
  ∀ i < getWidth maze, ∀ j < getHeight maze,
    ∀ t ∈ tileAt maze (i, j), t.x = (i : Int) ∧ t.y = (j : Int)

/-- Every tile carries the sentinel distance `-1`. -/
def Fresh (maze : MazeGrid) : Prop :=
  ∀ column ∈ maze, ∀ t ∈ column, t.distance = -1

/-- Adjacent tiles agree on the wall between them. -/
def SymmetricWalls (maze : MazeGrid) : Prop :=
  ∀ i < getWidth maze, ∀ j < getHeight maze,
    (∀ a ∈ tileAt maze (i, j), ∀ b ∈ tileAt maze (i, j + 1), a.wallNorth = b.wallSouth) ∧
    (∀ a ∈ tileAt maze (i, j), ∀ b ∈ tileAt maze (i + 1, j), a.wallEast = b.wallWest)

instance (maze : MazeGrid) : Decidable (NonEmpty maze) := by
  unfold NonEmpty; infer_instance

instance (maze : MazeGrid) : Decidable (Rectangular maze) := by
  unfold Rectangular; infer_instance

instance (maze : MazeGrid) : Decidable (Positioned maze) := by
  unfold Positioned; infer_instance

instance (maze : MazeGrid) : Decidable (Fresh maze) := by
  unfold Fresh; infer_instance

instance (maze : MazeGrid) : Decidable (SymmetricWalls maze) := by
  unfold SymmetricWalls; infer_instance

/-- The position next to `p` in a direction (north is `y + 1`, east is `x + 1`). -/
def neighborIn (p : TilePtr) : Direction → Option TilePtr
  | Direction.NORTH => some (p.1, p.2 + 1)
  | Direction.EAST => some (p.1 + 1, p.2)
  | Direction.SOUTH => if 0 < p.2 then some (p.1, p.2 - 1) else none
  | Direction.WEST => if 0 < p.1 then some (p.1 - 1, p.2) else none

/-- One hop: `q` is a tile of the grid next to the tile `p`, across a direction in which
`p` has no wall. -/
def OpenStep (maze : MazeGrid) (p q : TilePtr) : Prop :=
  ∃ d t, tileAt maze p = some t ∧ t.isWall d = false ∧ neighborIn p d = some q ∧
    (tileAt maze q).isSome = true

/-- A path of `n` hops through open walls from tile `p` to tile `q`. -/
inductive OpenPath (maze : MazeGrid) : TilePtr → TilePtr → Nat → Prop where
  | here (p : TilePtr) (h : (tileAt maze p).isSome = true) : OpenPath maze p p 0
  | hop {p q r : TilePtr} {n : Nat} (s : OpenStep maze p q) (rest : OpenPath maze q r n) :
      OpenPath maze p r (n + 1)

/-- The tile at `c` is one of the center tiles that `Maze::setTileDistances` seeds. -/
def IsCenter (maze : MazeGrid) (c : TilePtr) : Prop :=
  c ∈ centerIndices (getWidth maze) (getHeight maze)

/-- Some center tile can be reached from `p` through open walls. -/
def CenterReachable (maze : MazeGrid) (p : TilePtr) : Prop :=
  ∃ c n, IsCenter maze c ∧ OpenPath maze p c n

/-- The number `d` is the length of a shortest open path from `p` to a center tile. -/
def ShortestToCenter (maze : MazeGrid) (p : TilePtr) (d : Nat) : Prop :=
  (∃ c, IsCenter maze c ∧ OpenPath maze p c d) ∧
    ∀ c n, IsCenter maze c → OpenPath maze p c n → d ≤ n

/-- The height of a wall description: the length of its first column. -/
def basicHeight (basicMaze : BasicMaze) : Nat :=
  match basicMaze with
  | [] => 0
  | column :: _ => column.length

/-- The midpoint indices of a dimension: `(dim - 1) / 2` and, for an even `dim`, `dim / 2`. -/
def midpoints (dim : Nat) : Finset Nat :=
  if dim % 2 = 0 then {(dim - 1) / 2, dim / 2} else {(dim - 1) / 2}

/-- The positions of the grid whose tile has distance `0`. -/
def zeroTiles (maze : MazeGrid) : Finset TilePtr :=
  (Finset.range (getWidth maze) ×ˢ Finset.range (getHeight maze)).filter
    (fun p => ∃ t ∈ tileAt maze p, t.distance = 0)

/-- A basic tile with the given wall flags. -/
def basicTile (north east south west : Bool) : BasicTile
  | Direction.NORTH => north
  | Direction.EAST => east
  | Direction.SOUTH => south
  | Direction.WEST => west

/-- A 3 by 3 wall description with closed border whose corner tile `(0, 0)` is walled in. -/
def sampleBasicMaze : BasicMaze :=
  [[basicTile true true true true, basicTile false false true true,
      basicTile true false false true],
   [basicTile false false true true, basicTile false false false false,
      basicTile true false false false],
   [basicTile false true true false, basicTile false true false false,
      basicTile true true false false]]

/-- The grid of fresh tiles that `Maze::initializeFromBasicMaze` builds from
`sampleBasicMaze` before it computes the distances. -/
def sampleGrid : MazeGrid :=
  buildColumns 0 sampleBasicMaze

/-! ## Maze: vocabulary of the loop invariant -/

/-- The index pair lies inside a `w` by `h` grid. -/
def InGrid (w h : Nat) (p : TilePtr) : Prop :=
  p.1 < w ∧ p.2 < h

instance (w h : Nat) (p : TilePtr) : Decidable (InGrid w h p) := by
  unfold InGrid; infer_instance

/-- The distance stored at `p`, read as `-1` where the grid has no tile. -/
def distAt (maze : MazeGrid) (p : TilePtr) : Int :=
  match tileAt maze p with
  | some t => t.distance
  | none => -1

/-- The grid `m` is `m0` up to the distances of its tiles. -/
def Frame (m0 m : MazeGrid) : Prop :=
  m.map (List.map (fun t => t.setDistance 0)) = m0.map (List.map (fun t => t.setDistance 0))

/-- A `w` by `h` grid whose tiles record their own positions. -/
structure Layout (w h : Nat) (m : MazeGrid) : Prop where
  some_iff : ∀ p, (tileAt m p).isSome = true ↔ InGrid w h p
  pos : ∀ p t, tileAt m p = some t → t.x = (p.1 : Int) ∧ t.y = (p.2 : Int)

/-- The tiles of a `w` by `h` grid that still carry the sentinel distance. -/
def unreached (w h : Nat) (m : MazeGrid) : Finset TilePtr :=
  (Finset.range w ×ˢ Finset.range h).filter (fun p => distAt m p = -1)

/-- The invariant of the BFS of `Maze::setTileDistances`: `m0` is the grid the BFS was
started on, `centers` the seeded tiles, `pending` the dequeued tile (if any) followed by
the queue, `m` the current grid. -/
structure BfsInv (m0 : MazeGrid) (w h : Nat) (centers pending : List TilePtr)
    (m : MazeGrid) : Prop where
  frame : Frame m0 m
  inGrid : ∀ p ∈ pending, InGrid w h p
  found : ∀ p ∈ pending, distAt m p ≠ -1
  sorted : pending.Pairwise (fun a b => distAt m a ≤ distAt m b)
  near : ∀ p, InGrid w h p → distAt m p ≠ -1 → ∀ a ∈ pending.head?, distAt m p ≤ distAt m a + 1
  closed : ∀ p, InGrid w h p → distAt m p ≠ -1 → p ∉ pending →
    ∀ n, OpenStep m0 p n → distAt m n ≠ -1 ∧ distAt m n ≤ distAt m p + 1
  nonneg : ∀ p, InGrid w h p → distAt m p ≠ -1 → 0 ≤ distAt m p
  zero : ∀ p, InGrid w h p → distAt m p = 0 → p ∈ centers
  pred : ∀ p, InGrid w h p → 0 < distAt m p →
    ∃ n, OpenStep m0 n p ∧ distAt m n = distAt m p - 1
  seeded : ∀ c ∈ centers, distAt m c = 0

/-- The directions in `ds` have been handled for the dequeued tile `p`: each open
neighbour across one of them has a distance, at most one more than that of `p`. -/
def Handled (m0 : MazeGrid) (m : MazeGrid) (p : TilePtr) (ds : List Direction) : Prop :=
  ∀ d ∈ ds, ∀ t n, tileAt m0 p = some t → t.isWall d = false → neighborIn p d = some n →
    (tileAt m0 n).isSome = true → distAt m n ≠ -1 ∧ distAt m n ≤ distAt m p + 1


/-! ## Mouse: data model -/

/-- The ways a run of the mouse code can stop without a result: a failed `ASSERT_*`, and
a `double` division by zero, whose result has no rational counterpart. -/
inductive MouseFault where
  | assertion
  | divisionByZero
  deriving DecidableEq, Repr

/-- The container `QMap<QString, V>` as a list of entries. The model keeps entries in
insertion order where Qt keeps them in key order; keys are unique in both (`QMap.WF`). -/
abbrev QMap (V : Type) := List (String × V)

/-- The keys of a `QMap` are pairwise distinct. -/
def QMap.WF {V : Type} (m : QMap V) : Prop :=
  (m.map Prod.fst).Nodup

instance {V : Type} (m : QMap V) : Decidable (QMap.WF m) := by
  unfold QMap.WF; infer_instance

/-- The lookup `QMap::value(key)`, with `none` for an absent key. -/
def QMap.value? {V : Type} : QMap V → String → Option V
  | [], _ => none
  | (k, v) :: rest, key => if k = key then some v else QMap.value? rest key

/-- The test `QMap::contains(key)`. -/
def QMap.contains {V : Type} (m : QMap V) (key : String) : Bool :=
  (QMap.value? m key).isSome

/-- The update `QMap::insert(key, value)`: replaces the value of a present key. -/
def QMap.insert {V : Type} : QMap V → String → V → QMap V
  | [], key, value => [(key, value)]
  | (k, v) :: rest, key, value =>
    if k = key then (k, value) :: rest else (k, v) :: QMap.insert rest key value

/-- The in-place update `map[key].f()` of the value of a present key. -/
def QMap.modify {V : Type} (f : V → V) : QMap V → String → QMap V
  | [], _ => []
  | (k, v) :: rest, key =>
    if k = key then (k, f v) :: rest else (k, v) :: QMap.modify f rest key

/-- Modelled from the spec: the class `Polygon` is declared outside `src/`; a polygon is
the list of its vertices, each a Cartesian coordinate. -/
abbrev Polygon := List (ℚ × ℚ)

/-- The record `WheelEffect`: a wheel's contributions to the body's motion. -/
structure WheelEffect where
  forwardEffect : ℚ
  sidewaysEffect : ℚ
  turnEffect : ℚ
  deriving DecidableEq

/-- Modelled from the spec: the class `Wheel` is declared outside `src/`; the spec gives a
wheel a maximum angular speed, a current (commanded) angular speed and an encoder state,
and lets it report its maximum effect; its polygon at the initial pose is the one
`getInitialPolygon` returns. -/
structure Wheel where
  maximumSpeed : ℚ
  maximumEffect : WheelEffect
  currentAngularSpeed : ℚ
  encoderState : ℚ
  initialPolygon : Polygon := []
  deriving DecidableEq

/-- Modelled from the spec: the class `Sensor` is declared outside `src/`; the spec gives a
sensor an initial position and direction, and the code reads its polygon and its view
polygon at the initial pose. -/
structure Sensor where
  initialPosition : ℚ × ℚ
  initialDirection : ℚ
  initialPolygon : Polygon
  initialViewPolygon : Polygon
  deriving DecidableEq

/-- Modelled from the spec: `Wheel::setSpeed` is outside `src/`; it records the commanded
target angular speed. -/
def Wheel.setSpeed (wheel : Wheel) (speed : ℚ) : Wheel :=
  { wheel with currentAngularSpeed := speed }

/-- Modelled from the spec: the table `DIRECTION_TO_ANGLE()` is outside `src/`; the spec
numbers the quadrants of a heading EAST, NORTH, WEST, SOUTH, so the headings are 0, 90,
180 and 270 degrees. Angles are rational numbers of degrees. -/
def DIRECTION_TO_ANGLE : Direction → ℚ
  | Direction.EAST => 0
  | Direction.NORTH => 90
  | Direction.WEST => 180
  | Direction.SOUTH => 270

/-- The members of `Mouse` that the embedded functions read or write. -/
structure Mouse where
  crashed : Bool
  initialTranslation : ℚ × ℚ
  currentTranslation : ℚ × ℚ
  startedDirection : Direction
  startingDirection : Direction
  initialRotation : ℚ
  currentRotation : ℚ
  currentGyro : ℚ
  wheels : QMap Wheel
  wheelSpeedAdjustmentFactors : QMap (ℚ × ℚ)
  initialBodyPolygon : Polygon := []
  sensors : QMap Sensor := []
  initialCollisionPolygon : Polygon := []
  initialCenterOfMassPolygon : Polygon := []
  mouseFile : String := ""
  deriving DecidableEq

/-! ## Mouse: construction, crash handling and reset -/

/-- The constructor `Mouse::Mouse(maze)`; `wallLength` and `wallWidth` are the parameters
`P()->wallLength()` and `P()->wallWidth()`. -/
def Mouse.new (maze : MazeGrid) (wallLength wallWidth : ℚ) : Except Fault Mouse :=
  let halfOfTileDistance := (wallLength + wallWidth) / 2
  match getOptimalStartingDirection maze with
  | Except.error e => Except.error e
  | Except.ok optimalStartingDirection =>
    Except.ok
      { crashed := false
        initialTranslation := (halfOfTileDistance, halfOfTileDistance)
        currentTranslation := (halfOfTileDistance, halfOfTileDistance)
        startedDirection := optimalStartingDirection
        startingDirection := optimalStartingDirection
        initialRotation := DIRECTION_TO_ANGLE optimalStartingDirection
        currentRotation := DIRECTION_TO_ANGLE optimalStartingDirection
        currentGyro := 0
        wheels := []
        wheelSpeedAdjustmentFactors := [] }

/-- `Mouse::didCrash`. -/
def Mouse.didCrash (mouse : Mouse) : Bool :=
  mouse.crashed

/-- `Mouse::setCrashed`. -/
def Mouse.setCrashed (mouse : Mouse) : Mouse :=
  { mouse with crashed := true }

/-- `Mouse::teleport`. -/
def Mouse.teleport (mouse : Mouse) (translation : ℚ × ℚ) (rotation : ℚ) : Mouse :=
  { mouse with currentTranslation := translation, currentRotation := rotation }

/-- `Mouse::getInitialTranslation`. -/
def Mouse.getInitialTranslation (mouse : Mouse) : ℚ × ℚ :=
  mouse.initialTranslation

/-- `Mouse::getCurrentTranslation`. -/
def Mouse.getCurrentTranslation (mouse : Mouse) : ℚ × ℚ :=
  mouse.currentTranslation

/-- `Mouse::getCurrentRotation`. -/
def Mouse.getCurrentRotation (mouse : Mouse) : ℚ :=
  mouse.currentRotation

/-- `Mouse::reset`. -/
def Mouse.reset (mouse : Mouse) : Mouse :=
  let teleported :=
    mouse.teleport mouse.getInitialTranslation (DIRECTION_TO_ANGLE mouse.startingDirection)
  { teleported with startedDirection := teleported.startingDirection, crashed := false }

/-- `Mouse::setStartingDirection`. -/
def Mouse.setStartingDirection (mouse : Mouse) (direction : Direction) : Mouse :=
  { mouse with startingDirection := direction }

/-! ## Mouse: the per-tick update -/

/-- The loop over `m_wheels` in `Mouse::update`: `wheelUpdate` is `Wheel::update`, which is
outside `src/` (it returns the wheel's effect and the wheel with its encoder advanced);
`cosine` and `sine` are `getCurrentRotation().getCos()` and `.getSin()`. The result is the
three sums and the updated wheels. -/
def updateWheels (wheelUpdate : Wheel → ℚ → WheelEffect × Wheel) (elapsed cosine sine : ℚ) :
    QMap Wheel → ℚ × ℚ × ℚ → (ℚ × ℚ × ℚ) × QMap Wheel
  | [], sums => (sums, [])
  | (name, wheel) :: rest, (sumDx, sumDy, sumDr) =>
    let updated := wheelUpdate wheel elapsed
    let effect := updated.1
    let sumDx1 := sumDx + effect.forwardEffect * cosine
    let sumDy1 := sumDy + effect.forwardEffect * sine
    let sumDx2 := sumDx1 + effect.sidewaysEffect * sine
    let sumDy2 := sumDy1 + effect.sidewaysEffect * cosine * -1
    let sumDr1 := sumDr + effect.turnEffect
    let out := updateWheels wheelUpdate elapsed cosine sine rest (sumDx2, sumDy2, sumDr1)
    (out.1, (name, updated.2) :: out.2)

/-- What `Mouse::update` leaves behind; the function has no assertion and always returns.
For a mouse without wheels the three averages are `0.0 / 0`, a NaN, for which there is no
rational number: `poseNaN mouse` is the state whose gyro, rotation and translation hold
NaN and whose other members are those of `mouse`. -/
inductive UpdateOutcome where
  | updated (mouse : Mouse)
  | poseNaN (mouse : Mouse)

/-- `Mouse::didCrash` on the state an update leaves. -/
def UpdateOutcome.didCrash : UpdateOutcome → Bool
  | UpdateOutcome.updated mouse => mouse.didCrash
  | UpdateOutcome.poseNaN mouse => mouse.didCrash

/-- `Mouse::update` (the mutex is not modelled: the embedding is sequential). `cos` and
`sin` are the functions behind `Angle::getCos` and `Angle::getSin`. The sums are divided
by the wheel count without a check; with a count of zero the quotients are NaN. -/
def Mouse.update (wheelUpdate : Wheel → ℚ → WheelEffect × Wheel) (cos sin : ℚ → ℚ)
    (mouse : Mouse) (elapsed : ℚ) : UpdateOutcome :=
  if mouse.crashed then
    UpdateOutcome.updated mouse
  else
    let out := updateWheels wheelUpdate elapsed (cos mouse.getCurrentRotation)
      (sin mouse.getCurrentRotation) mouse.wheels (0, 0, 0)
    let sumDx := out.1.1
    let sumDy := out.1.2.1
    let sumDr := out.1.2.2
    if mouse.wheels.length = 0 then
      UpdateOutcome.poseNaN { mouse with wheels := out.2 }
    else
      let aveDx := sumDx / (mouse.wheels.length : ℚ)
      let aveDy := sumDy / (mouse.wheels.length : ℚ)
      let aveDr := sumDr / (mouse.wheels.length : ℚ)
      UpdateOutcome.updated
        { mouse with
          wheels := out.2
          currentGyro := aveDr
          currentRotation := mouse.currentRotation + aveDr * elapsed
          currentTranslation :=
            (mouse.currentTranslation.1 + aveDx * elapsed,
              mouse.currentTranslation.2 + aveDy * elapsed) }

/-! ## Mouse: rounding of `double` results -/

/-- The integer nearest to `x`, the even one of the two when `x` lies half way between
two integers. -/
def roundHalfEven (x : ℚ) : ℤ :=
  if x - ⌊x⌋ < 1 / 2 then ⌊x⌋
  else if 1 / 2 < x - ⌊x⌋ then ⌊x⌋ + 1
  else if ⌊x⌋ % 2 = 0 then ⌊x⌋ else ⌊x⌋ + 1

/-- The binary exponent of the last of the 53 significant bits of a positive `x`:
`2 ^ 52 ≤ x / 2 ^ ulpExponent x < 2 ^ 53`. -/
def ulpExponent (x : ℚ) : ℤ :=
  Int.log 2 x - 52

/-- The number with 53 significant bits nearest to `x ≥ 0`. -/
def roundPositive (x : ℚ) : ℚ :=
  roundHalfEven (x / 2 ^ ulpExponent x) * 2 ^ ulpExponent x

/-- The `double` that an arithmetic operation with the exact result `q` stores: the
nearest number with 53 significant bits, the one with an even last bit on a tie (IEEE 754
binary64, round to nearest; the bounds of the exponent are left out). -/
@[irreducible]
def roundDouble (q : ℚ) : ℚ :=
  if q < 0 then -roundPositive (-q) else roundPositive q

/-! ## Mouse: commands -/

/-- The exact quotient of a `double` division; by zero there is none (the `double` is a
NaN or an infinity). -/
def divide (a b : ℚ) : Except MouseFault ℚ :=
  if b = 0 then Except.error MouseFault.divisionByZero else Except.ok (a / b)

/-- The loop of `Mouse::setWheelSpeeds` over the entries of `wheelSpeeds`, on the wheel
map `m_wheels` (the mutex is not modelled). -/
def applyWheelSpeeds : QMap Wheel → QMap ℚ → Except MouseFault (QMap Wheel)
  | wheels, [] => Except.ok wheels
  | wheels, (name, speed) :: rest =>
    if QMap.contains wheels name then
      applyWheelSpeeds (QMap.modify (fun wheel => wheel.setSpeed speed) wheels name) rest
    else
      Except.error MouseFault.assertion

/-- `Mouse::setWheelSpeeds`. -/
def Mouse.setWheelSpeeds (mouse : Mouse) (wheelSpeeds : QMap ℚ) : Except MouseFault Mouse :=
  match applyWheelSpeeds mouse.wheels wheelSpeeds with
  | Except.error e => Except.error e
  | Except.ok wheels => Except.ok { mouse with wheels := wheels }

/-- The first part of `Mouse::setWheelSpeedsForMovement`: the normalized factors, after
the two `ASSERT_LE` on the sum of their magnitudes. Every sum and quotient is a `double`,
stored rounded. -/
def normalizeFactors (forwardFactor turnFactor : ℚ) : Except MouseFault (ℚ × ℚ) :=
  let factorMagnitude := roundDouble (|forwardFactor| + |turnFactor|)
  match divide forwardFactor factorMagnitude with
  | Except.error e => Except.error e
  | Except.ok forwardQuotient =>
    match divide turnFactor factorMagnitude with
    | Except.error e => Except.error e
    | Except.ok turnQuotient =>
      let normalizedForwardFactor := roundDouble forwardQuotient
      let normalizedTurnFactor := roundDouble turnQuotient
      let normalizedFactorMagnitude :=
        roundDouble (|normalizedForwardFactor| + |normalizedTurnFactor|)
      if ¬ (0 ≤ normalizedFactorMagnitude) then Except.error MouseFault.assertion
      else if ¬ (normalizedFactorMagnitude ≤ 1) then Except.error MouseFault.assertion
      else Except.ok (normalizedForwardFactor, normalizedTurnFactor)

/-- The speed the loop of `Mouse::setWheelSpeedsForMovement` computes for one wheel,
`maxSpeed * fraction * (nf * forwardAdj + nt * turnAdj)`, each product and the sum stored
rounded. -/
def wheelTarget (maximumSpeed fractionOfMaxSpeed normalizedForwardFactor
    normalizedTurnFactor : ℚ) (factors : ℚ × ℚ) : ℚ :=
  roundDouble (roundDouble (maximumSpeed * fractionOfMaxSpeed) *
    roundDouble (roundDouble (normalizedForwardFactor * factors.1) +
      roundDouble (normalizedTurnFactor * factors.2)))

/-- The loop of `Mouse::setWheelSpeedsForMovement` that fills the map `wheelSpeeds`. -/
def movementSpeeds (adjustmentFactors : QMap (ℚ × ℚ))
    (fractionOfMaxSpeed normalizedForwardFactor normalizedTurnFactor : ℚ) :
    QMap Wheel → QMap ℚ → Except MouseFault (QMap ℚ)
  | [], wheelSpeeds => Except.ok wheelSpeeds
  | (name, wheel) :: rest, wheelSpeeds =>
    match QMap.value? adjustmentFactors name with
    | none => Except.error MouseFault.assertion
    | some factors =>
      movementSpeeds adjustmentFactors fractionOfMaxSpeed normalizedForwardFactor
        normalizedTurnFactor rest
        (QMap.insert wheelSpeeds name
          (wheelTarget wheel.maximumSpeed fractionOfMaxSpeed normalizedForwardFactor
            normalizedTurnFactor factors))

/-- The map `wheelSpeeds` that `Mouse::setWheelSpeedsForMovement` passes to
`setWheelSpeeds`: the target angular speed it computes for every wheel. -/
def movementTargets (mouse : Mouse) (fractionOfMaxSpeed forwardFactor turnFactor : ℚ) :
    Except MouseFault (QMap ℚ) :=
  match normalizeFactors forwardFactor turnFactor with
  | Except.error e => Except.error e
  | Except.ok normalized =>
    movementSpeeds mouse.wheelSpeedAdjustmentFactors fractionOfMaxSpeed normalized.1
      normalized.2 mouse.wheels []

/-- `Mouse::setWheelSpeedsForMovement`. -/
def Mouse.setWheelSpeedsForMovement (mouse : Mouse)
    (fractionOfMaxSpeed forwardFactor turnFactor : ℚ) : Except MouseFault Mouse :=
  match movementTargets mouse fractionOfMaxSpeed forwardFactor turnFactor with
  | Except.error e => Except.error e
  | Except.ok wheelSpeeds => mouse.setWheelSpeeds wheelSpeeds

/-- `Mouse::setWheelSpeedsForMoveForward`. -/
def Mouse.setWheelSpeedsForMoveForward (mouse : Mouse) (fractionOfMaxSpeed : ℚ) :
    Except MouseFault Mouse :=
  mouse.setWheelSpeedsForMovement fractionOfMaxSpeed 1 0

/-- `Mouse::setWheelSpeedsForCurveLeft`; `getCurveTurnFactors` is the method of the
`CurveTurnFactorCalculator`, which is outside `src/`. -/
def Mouse.setWheelSpeedsForCurveLeft (getCurveTurnFactors : ℚ → ℚ × ℚ) (mouse : Mouse)
    (fractionOfMaxSpeed radius : ℚ) : Except MouseFault Mouse :=
  let curveTurnFactors := getCurveTurnFactors radius
  mouse.setWheelSpeedsForMovement fractionOfMaxSpeed curveTurnFactors.1 curveTurnFactors.2

/-- `Mouse::setWheelSpeedsForCurveRight`. -/
def Mouse.setWheelSpeedsForCurveRight (getCurveTurnFactors : ℚ → ℚ × ℚ) (mouse : Mouse)
    (fractionOfMaxSpeed radius : ℚ) : Except MouseFault Mouse :=
  let curveTurnFactors := getCurveTurnFactors radius
  mouse.setWheelSpeedsForMovement fractionOfMaxSpeed curveTurnFactors.1
    (-1 * curveTurnFactors.2)

/-! ## Mouse: the speed adjustment factors -/

/-- The first loop of `Mouse::getWheelSpeedAdjustmentFactors`: the map
`ratesOfChangePairs`. -/
def ratesOfChange : QMap Wheel → QMap (ℚ × ℚ) → QMap (ℚ × ℚ)
  | [], ratesOfChangePairs => ratesOfChangePairs
  | (name, wheel) :: rest, ratesOfChangePairs =>
    let effect := wheel.maximumEffect
    ratesOfChange rest
      (QMap.insert ratesOfChangePairs name (effect.forwardEffect, effect.turnEffect))

/-- The second loop of `Mouse::getWheelSpeedAdjustmentFactors`: the largest magnitudes. -/
def largestMagnitudes : QMap (ℚ × ℚ) → ℚ × ℚ → ℚ × ℚ
  | [], maxima => maxima
  | (_, pair) :: rest, (maxForward, maxRadial) =>
    let forwardMagnitude := |pair.1|
    let radialMagnitude := |pair.2|
    largestMagnitudes rest
      (if maxForward < forwardMagnitude then forwardMagnitude else maxForward,
        if maxRadial < radialMagnitude then radialMagnitude else maxRadial)

/-- The third loop of `Mouse::getWheelSpeedAdjustmentFactors`: the division by the
largest magnitudes, with the four `ASSERT_LE`. The quotients are kept exact: a magnitude
is at most the largest one, so the stored `double` lies in `[-1, 1]` like the exact
quotient and the assertions decide alike. -/
def normalizeContributions (maxForward maxRadial : ℚ) :
    QMap (ℚ × ℚ) → QMap (ℚ × ℚ) → Except MouseFault (QMap (ℚ × ℚ))
  | [], adjustmentFactors => Except.ok adjustmentFactors
  | (name, pair) :: rest, adjustmentFactors =>
    match divide pair.1 maxForward with
    | Except.error e => Except.error e
    | Except.ok normalizedForwardContribution =>
      match divide pair.2 maxRadial with
      | Except.error e => Except.error e
      | Except.ok normalizedRadialContribution =>
        if ¬ (-1 ≤ normalizedForwardContribution) then Except.error MouseFault.assertion
        else if ¬ (-1 ≤ normalizedRadialContribution) then Except.error MouseFault.assertion
        else if ¬ (normalizedForwardContribution ≤ 1) then Except.error MouseFault.assertion
        else if ¬ (normalizedRadialContribution ≤ 1) then Except.error MouseFault.assertion
        else
          normalizeContributions maxForward maxRadial rest
            (QMap.insert adjustmentFactors name
              (normalizedForwardContribution, normalizedRadialContribution))

/-- Modelled from the spec: the unit classes `Speed` and `AngularVelocity` are outside
`src/`; a default-constructed quantity is zero, the neutral start of the search for the
maximum magnitude. `Mouse::getWheelSpeedAdjustmentFactors`. -/
def getWheelSpeedAdjustmentFactors (wheels : QMap Wheel) :
    Except MouseFault (QMap (ℚ × ℚ)) :=
  let ratesOfChangePairs := ratesOfChange wheels []
  let maxima := largestMagnitudes ratesOfChangePairs (0, 0)
  normalizeContributions maxima.1 maxima.2 ratesOfChangePairs []


/-! ## Mouse: vocabulary of the statements -/

/-- The cached adjustment factors are the ones `Mouse::reload` computes from the wheels;
this also holds right after construction, when both maps are empty. -/
def Mouse.CacheValid (mouse : Mouse) : Prop :=
  getWheelSpeedAdjustmentFactors mouse.wheels = Except.ok mouse.wheelSpeedAdjustmentFactors

/-- The three movement commands, with their arguments. -/
inductive Command where
  | moveForward (fractionOfMaxSpeed : ℚ)
  | curveLeft (fractionOfMaxSpeed radius : ℚ)
  | curveRight (fractionOfMaxSpeed radius : ℚ)

/-- The fraction of the maximum speed a command is given. -/
def Command.fraction : Command → ℚ
  | Command.moveForward fractionOfMaxSpeed => fractionOfMaxSpeed
  | Command.curveLeft fractionOfMaxSpeed _ => fractionOfMaxSpeed
  | Command.curveRight fractionOfMaxSpeed _ => fractionOfMaxSpeed

/-- The pair `(forwardFactor, turnFactor)` a command passes to
`Mouse::setWheelSpeedsForMovement`. -/
def Command.factors (getCurveTurnFactors : ℚ → ℚ × ℚ) : Command → ℚ × ℚ
  | Command.moveForward _ => (1, 0)
  | Command.curveLeft _ radius =>
    ((getCurveTurnFactors radius).1, (getCurveTurnFactors radius).2)
  | Command.curveRight _ radius =>
    ((getCurveTurnFactors radius).1, -1 * (getCurveTurnFactors radius).2)

/-- Running a command: the call of the corresponding member function. -/
def Command.run (getCurveTurnFactors : ℚ → ℚ × ℚ) (mouse : Mouse) :
    Command → Except MouseFault Mouse
  | Command.moveForward fractionOfMaxSpeed =>
    mouse.setWheelSpeedsForMoveForward fractionOfMaxSpeed
  | Command.curveLeft fractionOfMaxSpeed radius =>
    mouse.setWheelSpeedsForCurveLeft getCurveTurnFactors fractionOfMaxSpeed radius
  | Command.curveRight fractionOfMaxSpeed radius =>
    mouse.setWheelSpeedsForCurveRight getCurveTurnFactors fractionOfMaxSpeed radius

/-- The target angular speeds a command computes for the wheels. -/
def Command.targets (getCurveTurnFactors : ℚ → ℚ × ℚ) (mouse : Mouse) (command : Command) :
    Except MouseFault (QMap ℚ) :=
  movementTargets mouse command.fraction (command.factors getCurveTurnFactors).1
    (command.factors getCurveTurnFactors).2

/-- The number `m` is the largest absolute value among `values`. -/
def LargestMagnitude (values : List ℚ) (m : ℚ) : Prop :=
  (∃ v ∈ values, |v| = m) ∧ ∀ v ∈ values, |v| ≤ m

/-- A wheel of the sample mouse, on the left: turning it forward turns the body right. -/
def sampleLeftWheel : Wheel :=
  { maximumSpeed := 10
    maximumEffect := { forwardEffect := 2, sidewaysEffect := 0, turnEffect := -3 }
    currentAngularSpeed := 0
    encoderState := 0 }

/-- A wheel of the sample mouse, on the right. -/
def sampleRightWheel : Wheel :=
  { maximumSpeed := 10
    maximumEffect := { forwardEffect := 2, sidewaysEffect := 0, turnEffect := 3 }
    currentAngularSpeed := 0
    encoderState := 0 }

/-- A two-wheel differential-drive mouse as `Mouse::Mouse` and `Mouse::reload` leave it
on `sampleGrid` with a wall length of 2 and a wall width of 0. -/
def sampleMouse : Mouse :=
  { crashed := false
    initialTranslation := (1, 1)
    currentTranslation := (1, 1)
    startedDirection := Direction.NORTH
    startingDirection := Direction.NORTH
    initialRotation := 90
    currentRotation := 90
    currentGyro := 0
    wheels := [("L", sampleLeftWheel), ("R", sampleRightWheel)]
    wheelSpeedAdjustmentFactors := [("L", (1, -1)), ("R", (1, 1))] }

/-- The sample mouse as `Mouse::Mouse` leaves it, before any wheel is loaded. -/
def sampleNewMouse : Mouse :=
  { sampleMouse with wheels := [], wheelSpeedAdjustmentFactors := [] }

/-- The mean of a list of rationals. -/
def average (values : List ℚ) : ℚ :=
  values.sum / (values.length : ℚ)

/-- A stand-in for `Wheel::update`: the wheel contributes its maximum effect scaled by
the fraction of its maximum speed it is commanded, and its encoder advances. -/
def sampleWheelUpdate (wheel : Wheel) (elapsed : ℚ) : WheelEffect × Wheel :=
  ({ forwardEffect := wheel.maximumEffect.forwardEffect * wheel.currentAngularSpeed / 10
     sidewaysEffect := wheel.maximumEffect.sidewaysEffect * wheel.currentAngularSpeed / 10
     turnEffect := wheel.maximumEffect.turnEffect * wheel.currentAngularSpeed / 10 },
   { wheel with encoderState := wheel.encoderState + wheel.currentAngularSpeed * elapsed })

/-- A stand-in for the cosine of an angle in degrees, exact at the four headings. -/
def sampleCos (angle : ℚ) : ℚ :=
  if angle = 0 then 1 else if angle = 180 then -1 else 0

/-- A stand-in for the sine of an angle in degrees, exact at the four headings. -/
def sampleSin (angle : ℚ) : ℚ :=
  if angle = 90 then 1 else if angle = 270 then -1 else 0

/-- A stand-in for `CurveTurnFactorCalculator::getCurveTurnFactors`. -/
def sampleCurveTurnFactors (radius : ℚ) : ℚ × ℚ :=
  (radius, 1)

/-! ## Maze: the maximum distance and the dequeue record -/

/-- The loop `for (int y = 0; y < getHeight(); y += 1)` of `Maze::getMaximumDistance` in
column `x`, over the rows still to visit. -/
def maximumDistanceColumn (maze : MazeGrid) (x : Nat) : List Nat → Int → Except Fault Int
  | [], max => Except.ok max
  | y :: ys, max =>
    match getTile maze (x : Int) (y : Int) with
    | Except.error e => Except.error e
    | Except.ok t =>
      if max < t.distance then
        match getTile maze (x : Int) (y : Int) with
        | Except.error e => Except.error e
        | Except.ok t' => maximumDistanceColumn maze x ys t'.distance
      else
        maximumDistanceColumn maze x ys max

/-- The loop `for (int x = 0; x < getWidth(); x += 1)` of `Maze::getMaximumDistance`, over
the columns still to visit. -/
def maximumDistanceColumns (maze : MazeGrid) : List Nat → Int → Except Fault Int
  | [], max => Except.ok max
  | x :: xs, max =>
    match maximumDistanceColumn maze x (List.range (getHeight maze)) max with
    | Except.error e => Except.error e
    | Except.ok max' => maximumDistanceColumns maze xs max'

/-- `Maze::getMaximumDistance`. -/
def getMaximumDistance (maze : MazeGrid) : Except Fault Int :=
  maximumDistanceColumns maze (List.range (getWidth maze)) 0

/-- The loop `while (!discovered.empty())` of `Maze::setTileDistances` as `bfsLoop` runs
it, together with a record of the tiles `discovered.dequeue()` returned, in order. -/
def bfsTrace (width height : Nat) :
    Nat → MazeGrid → List TilePtr → List TilePtr → Except Fault (MazeGrid × List TilePtr)
  | _, maze, [], dequeued => Except.ok (maze, dequeued)
  | 0, _, _ :: _, _ => Except.error Fault.outOfFuel
  | fuel + 1, maze, tile :: discovered, dequeued =>
    match visitDirections width height tile DIRECTIONS (maze, discovered) with
    | Except.error e => Except.error e
    | Except.ok st => bfsTrace width height fuel st.1 st.2 (dequeued ++ [tile])

/-- `Maze::setTileDistances` as `setTileDistances` runs it, together with the record of
the dequeued tiles. -/
def setTileDistancesTrace (maze : MazeGrid) : Except Fault (MazeGrid × List TilePtr) :=
  match maze with
  | [] => Except.error Fault.outOfBounds
  | column :: _ =>
    let width := maze.length
    let height := column.length
    match takePtrs maze (centerIndices width height) with
    | Except.error e => Except.error e
    | Except.ok centerTiles =>
      bfsTrace width height (width * height) (seedCenters maze centerTiles) centerTiles []

/-- The walls of tile `(x, y)` of a `width` by `height` maze without interior walls: only
the border is closed. -/
def openBasicTile (width height x y : Nat) : BasicTile :=
  basicTile (decide (y + 1 = height)) (decide (x + 1 = width)) (decide (y = 0))
    (decide (x = 0))

/-- The wall description of the `width` by `height` maze without interior walls. -/
def openBasicMaze (width height : Nat) : BasicMaze :=
  (List.range width).map (fun x =>
    (List.range height).map (fun y => openBasicTile width height x y))

/-- The distances stored at the given positions, `none` where the grid has no tile. -/
def distancesAt (maze : MazeGrid) (positions : List TilePtr) : List (Option Int) :=
  positions.map (fun p => (tileAt maze p).map (fun t => t.distance))

/-- A center tile reaches `p` by hops that each leave a tile across one of its open
sides: the direction in which the BFS of `Maze::setTileDistances` explores. -/
def ReachedFromCenter (maze : MazeGrid) (p : TilePtr) : Prop :=
  ∃ c n, IsCenter maze c ∧ OpenPath maze c p n

/-! ## Mouse: loading, stopping and the derived reads -/

/-- Modelled from the spec: the class `MouseParser` is declared outside `src/`. The object
built from a mouse file tells whether its construction succeeded, and each of its three
parses returns its result together with whether it succeeded; a parse that fails clears
the flag `success` it is handed and a parse that succeeds leaves the flag alone. -/
structure MouseParser where
  constructed : Bool
  getBody : ℚ × ℚ → ℚ → Polygon × Bool
  getWheels : ℚ × ℚ → ℚ → QMap Wheel × Bool
  getSensors : ℚ × ℚ → ℚ → MazeGrid → QMap Sensor × Bool

/-- `Mouse::reload`: the returned flag and the mouse after the call. `parse` builds the
`MouseParser` of a file; `convexHull` and `createCirclePolygon` are the functions of
`GeometryUtilities`, which is outside `src/`; `maze` is `*m_maze`. The curve turn factor
calculator is not a member of the model (its method is a parameter of the curve
commands) and the triangulations, which only fill caches, are left out. -/
def Mouse.reload (parse : String → MouseParser) (convexHull : List Polygon → Polygon)
    (createCirclePolygon : ℚ × ℚ → ℚ → Nat → Polygon) (maze : MazeGrid) (mouse : Mouse)
    (mouseFile : String) : Except MouseFault (Bool × Mouse) :=
  let parser := parse mouseFile
  let success := parser.constructed
  if !success then
    Except.ok (false, mouse)
  else
    let body := parser.getBody mouse.initialTranslation mouse.initialRotation
    let success := success && body.2
    let wheels := parser.getWheels mouse.initialTranslation mouse.initialRotation
    let success := success && wheels.2
    let sensors := parser.getSensors mouse.initialTranslation mouse.initialRotation maze
    let success := success && sensors.2
    match getWheelSpeedAdjustmentFactors wheels.1 with
    | Except.error e => Except.error e
    | Except.ok factors =>
      let polygons :=
        [body.1] ++ wheels.1.map (fun e => e.2.initialPolygon) ++
          sensors.1.map (fun e => e.2.initialPolygon)
      Except.ok
        (success,
          { mouse with
            initialBodyPolygon := body.1
            wheels := wheels.1
            sensors := sensors.1
            wheelSpeedAdjustmentFactors := factors
            initialCollisionPolygon := convexHull polygons
            initialCenterOfMassPolygon :=
              createCirclePolygon mouse.initialTranslation (1 / 200) 8
            mouseFile := mouseFile })

/-- The loop of `Mouse::stopAllWheels` that fills the map `wheelSpeeds` with zeros. -/
def stopSpeeds : QMap Wheel → QMap ℚ → QMap ℚ
  | [], wheelSpeeds => wheelSpeeds
  | (name, _) :: rest, wheelSpeeds => stopSpeeds rest (QMap.insert wheelSpeeds name 0)

/-- `Mouse::stopAllWheels`. -/
def Mouse.stopAllWheels (mouse : Mouse) : Except MouseFault Mouse :=
  mouse.setWheelSpeeds (stopSpeeds mouse.wheels [])

/-- `Mouse::resetWheelRelativeEncoder`; `resetRelativeEncoder` is the method of `Wheel`,
which is outside `src/`. -/
def Mouse.resetWheelRelativeEncoder (resetRelativeEncoder : Wheel → Wheel) (mouse : Mouse)
    (name : String) : Except MouseFault Mouse :=
  if QMap.contains mouse.wheels name then
    Except.ok { mouse with wheels := QMap.modify resetRelativeEncoder mouse.wheels name }
  else
    Except.error MouseFault.assertion

/-- Modelled from the spec: `Angle::getRadiansZeroTo2pi` is outside `src/`; it reduces an
angle to the range from zero up to, not including, a full turn. In degrees. -/
def zeroTo360 (angle : ℚ) : ℚ :=
  angle - 360 * (⌊angle / 360⌋ : ℚ)

/-- `Mouse::getCurrentDiscretizedRotation`; the `default` branch, `ASSERT_NEVER_RUNS()`,
is a fault. -/
def Mouse.getCurrentDiscretizedRotation (mouse : Mouse) : Except MouseFault Direction :=
  let dir : Int := ⌊zeroTo360 (mouse.getCurrentRotation + 45) / zeroTo360 90⌋
  if dir = 0 then Except.ok Direction.EAST
  else if dir = 1 then Except.ok Direction.NORTH
  else if dir = 2 then Except.ok Direction.WEST
  else if dir = 3 then Except.ok Direction.SOUTH
  else Except.error MouseFault.assertion

/-- Modelled from the spec: `Polygon::translate` is outside `src/`; it moves every vertex
by the given vector. -/
def Polygon.translate (polygon : Polygon) (translation : ℚ × ℚ) : Polygon :=
  polygon.map (fun v => (v.1 + translation.1, v.2 + translation.2))

/-- Modelled from the spec: `Polygon::rotateAroundPoint` is outside `src/`; it turns every
vertex about the given point by the given angle, `cos` and `sin` being the functions
behind `Angle::getCos` and `Angle::getSin`. -/
def Polygon.rotateAroundPoint (cos sin : ℚ → ℚ) (polygon : Polygon) (angle : ℚ)
    (point : ℚ × ℚ) : Polygon :=
  polygon.map (fun v =>
    (point.1 + (v.1 - point.1) * cos angle - (v.2 - point.2) * sin angle,
      point.2 + (v.1 - point.1) * sin angle + (v.2 - point.2) * cos angle))

/-- `Mouse::getCurrentPolygon`. -/
def Mouse.getCurrentPolygon (cos sin : ℚ → ℚ) (mouse : Mouse) (initialPolygon : Polygon)
    (currentTranslation : ℚ × ℚ) (currentRotation : ℚ) : Polygon :=
  Polygon.rotateAroundPoint cos sin
    (Polygon.translate initialPolygon
      (currentTranslation.1 - mouse.getInitialTranslation.1,
        currentTranslation.2 - mouse.getInitialTranslation.2))
    (currentRotation - mouse.initialRotation) currentTranslation

/-- `Mouse::getCurrentBodyPolygon`. -/
def Mouse.getCurrentBodyPolygon (cos sin : ℚ → ℚ) (mouse : Mouse)
    (currentTranslation : ℚ × ℚ) (currentRotation : ℚ) : Polygon :=
  mouse.getCurrentPolygon cos sin mouse.initialBodyPolygon currentTranslation
    currentRotation

/-! ## Mouse: further samples -/

/-- The sample mouse with a square body around its initial translation. -/
def sampleBodiedMouse : Mouse :=
  { sampleMouse with initialBodyPolygon := [(0, 0), (2, 0), (2, 2), (0, 2)] }

/-- A stand-in for a `MouseParser` whose wheel parse fails and returns no wheel, while
the body and sensor parses succeed. -/
def sampleFailingParser (_mouseFile : String) : MouseParser :=
  { constructed := true
    getBody := fun _ _ => ([(0, 0), (2, 0), (2, 2), (0, 2)], true)
    getWheels := fun _ _ => ([], false)
    getSensors := fun _ _ _ => ([], true) }

/-- A stand-in for `GeometryUtilities::convexHull`: all the vertices it is given. -/
def sampleConvexHull (polygons : List Polygon) : Polygon :=
  polygons.flatten

/-- A stand-in for `GeometryUtilities::createCirclePolygon`: the center alone. -/
def sampleCirclePolygon (center : ℚ × ℚ) (_radius : ℚ) (_numSides : Nat) : Polygon :=
  [center]

/-- A one-wheel set whose wheel drives straight ahead: its maximum forward effect is not
zero and its maximum turn effect is zero. -/
def sampleForwardOnlyWheels : QMap Wheel :=
  [("W",
    { maximumSpeed := 10
      maximumEffect := { forwardEffect := 2, sidewaysEffect := 0, turnEffect := 0 }
      currentAngularSpeed := 0
      encoderState := 0 })]

/-! ## Maze: rotation of a wall description -/

/-- The tile that the loop body of `Maze::rotateCounterClockwise` builds from the source
tile with its four `tile.insert(direction, source.value(...))`. -/
def rotateTile (source : BasicTile) : BasicTile
  | Direction.NORTH => source Direction.EAST
  | Direction.EAST => source Direction.SOUTH
  | Direction.SOUTH => source Direction.WEST
  | Direction.WEST => source Direction.NORTH

/-- The inner loop of `Maze::rotateCounterClockwise` over one column, with the loop
variable `y` still to take the values `remaining - 1` down to `0`; `column.at(y)` outside
the column is a fault. -/
def rotateColumn (column : List BasicTile) : Nat → BasicMaze → Except Fault BasicMaze
  | 0, rotated => Except.ok rotated
  | y + 1, rotated =>
    match column[y]? with
    | none => Except.error Fault.outOfBounds
    | some source =>
      let rotatedTileX := column.length - 1 - y
      let tile := rotateTile source
      if rotated.length ≤ rotatedTileX then
        rotateColumn column y (rotated ++ [[tile]])
      else
        rotateColumn column y
          (rotated.modify (fun rotatedColumn => rotatedColumn ++ [tile]) rotatedTileX)

/-- The outer loop of `Maze::rotateCounterClockwise` over the columns that are left. -/
def rotateColumns : BasicMaze → BasicMaze → Except Fault BasicMaze
  | [], rotated => Except.ok rotated
  | column :: rest, rotated =>
    match rotateColumn column column.length rotated with
    | Except.error e => Except.error e
    | Except.ok rotated' => rotateColumns rest rotated'

/-- `Maze::rotateCounterClockwise`. -/
def rotateCounterClockwise (basicMaze : BasicMaze) : Except Fault BasicMaze :=
  rotateColumns basicMaze []

/-- The tile of a wall description at `[p.1][p.2]`, if there is one. -/
def basicTileAt (basicMaze : BasicMaze) (p : Nat × Nat) : Option BasicTile :=
  match basicMaze[p.1]? with
  | none => none
  | some column => column[p.2]?

/-- The wall description with `width` columns of `height` tiles whose tile at `[x][y]` is
`tileOf x y`. -/
def basicMazeOf (width height : Nat) (tileOf : Nat → Nat → BasicTile) : BasicMaze :=
  (List.range width).map (fun x => (List.range height).map (fun y => tileOf x y))

/-- A 2 by 3 wall description with closed border and one interior wall, between the
tiles `(0, 0)` and `(1, 0)`. -/
def sampleTallBasicMaze : BasicMaze :=
  [[basicTile false true true true, basicTile false false false true,
      basicTile true false false true],
   [basicTile false true true true, basicTile false true false false,
      basicTile true true false false]]

/-! ## Maze: reading and writing tiles -/

theorem tileAt_setDistanceAt (m : MazeGrid) (n p : TilePtr) (d : Int) :
    tileAt (setDistanceAt m n d) p =
      if p = n then (tileAt m p).map (fun t => t.setDistance d) else tileAt m p := by
  obtain ⟨n1, n2⟩ := n
  obtain ⟨p1, p2⟩ := p
  simp only [tileAt, setDistanceAt, List.getElem?_modify, Prod.mk.injEq]
  cases hcol : m[p1]? with
  | none => simp
  | some col =>
    by_cases h1 : n1 = p1
    · subst h1
      simp only [Option.map_eq_map, Option.map_some', if_true, List.getElem?_modify, true_and]
      by_cases h2 : n2 = p2
      · subst h2; simp
      · have h2' : ¬ p2 = n2 := fun h => h2 h.symm
        simp [h2, h2']
    · have h1' : ¬ p1 = n1 := fun h => h1 h.symm
      simp [h1, h1']

theorem distAt_setDistanceAt (m : MazeGrid) (n p : TilePtr) (d : Int)
    (hn : (tileAt m n).isSome = true) :
    distAt (setDistanceAt m n d) p = if p = n then d else distAt m p := by
  unfold distAt
  rw [tileAt_setDistanceAt]
  by_cases h : p = n
  · subst h
    obtain ⟨t, ht⟩ := Option.isSome_iff_exists.mp hn
    simp [ht, Tile.setDistance]
  · simp [h]

theorem distAt_setDistanceAt_ne (m : MazeGrid) (n p : TilePtr) (d : Int) (h : p ≠ n) :
    distAt (setDistanceAt m n d) p = distAt m p := by
  unfold distAt
  rw [tileAt_setDistanceAt, if_neg h]

theorem tileAt_map (f : Tile → Tile) (m : MazeGrid) (p : TilePtr) :
    tileAt (m.map (List.map f)) p = (tileAt m p).map f := by
  simp only [tileAt, List.getElem?_map]
  cases m[p.1]? with
  | none => rfl
  | some col => simp

theorem map_modify_absorb {α β : Type} (f : α → β) (g : α → α) (hfg : ∀ a, f (g a) = f a)
    (n : Nat) (l : List α) : (List.modify g n l).map f = l.map f := by
  apply List.ext_getElem?
  intro i
  simp only [List.getElem?_map, List.getElem?_modify]
  cases l[i]? with
  | none => rfl
  | some a =>
    by_cases h : n = i
    · simp [h, hfg]
    · simp [h]

theorem Frame.refl (m : MazeGrid) : Frame m m := rfl

theorem Frame.at {m0 m : MazeGrid} (hf : Frame m0 m) (p : TilePtr) :
    (tileAt m p).map (fun t => t.setDistance 0) =
      (tileAt m0 p).map (fun t => t.setDistance 0) := by
  rw [← tileAt_map, ← tileAt_map, hf]

theorem Frame.setDistanceAt {m0 m : MazeGrid} (hf : Frame m0 m) (n : TilePtr) (d : Int) :
    Frame m0 (setDistanceAt m n d) := by
  unfold Frame at hf ⊢
  rw [← hf]
  unfold mms.setDistanceAt
  apply map_modify_absorb
  intro col
  apply map_modify_absorb
  intro t
  rfl

theorem Frame.getWidth {m0 m : MazeGrid} (hf : Frame m0 m) : getWidth m = getWidth m0 := by
  have := congrArg List.length hf
  simpa [mms.getWidth] using this

theorem Frame.getHeight {m0 m : MazeGrid} (hf : Frame m0 m) : getHeight m = getHeight m0 := by
  unfold Frame at hf
  cases m with
  | nil =>
    cases m0 with
    | nil => rfl
    | cons c0 r0 => simp at hf
  | cons c r =>
    cases m0 with
    | nil => simp at hf
    | cons c0 r0 =>
      simp only [List.map_cons, List.cons.injEq] at hf
      have := congrArg List.length hf.1
      simpa [mms.getHeight] using this

theorem Frame.isSome {m0 m : MazeGrid} (hf : Frame m0 m) (p : TilePtr) :
    (tileAt m p).isSome = (tileAt m0 p).isSome := by
  have := congrArg Option.isSome (hf.at p)
  simpa using this

theorem Frame.tile {m0 m : MazeGrid} (hf : Frame m0 m) {p : TilePtr} {t0 : Tile}
    (h0 : tileAt m0 p = some t0) :
    ∃ t, tileAt m p = some t ∧ t.x = t0.x ∧ t.y = t0.y ∧ ∀ d, t.isWall d = t0.isWall d := by
  have h := hf.at p
  rw [h0] at h
  cases ht : tileAt m p with
  | none => rw [ht] at h; simp at h
  | some t =>
    rw [ht] at h
    simp only [Option.map_some', Option.some.injEq, Tile.setDistance, Tile.mk.injEq] at h
    obtain ⟨hx, hy, hn, he, hs, hw, _⟩ := h
    refine ⟨t, rfl, hx, hy, ?_⟩
    intro d
    cases d
    · exact hn
    · exact he
    · exact hs
    · exact hw

theorem distAt_eq_neg_one_of_none {m : MazeGrid} {p : TilePtr} (h : tileAt m p = none) :
    distAt m p = -1 := by
  simp [distAt, h]

theorem distAt_of_some {m : MazeGrid} {p : TilePtr} {t : Tile} (h : tileAt m p = some t) :
    distAt m p = t.distance := by
  simp [distAt, h]

/-! ## Maze: the neighbour lookup -/

theorem tilePtr_natCast (m : MazeGrid) (a b : Nat) :
    tilePtr m (a : Int) (b : Int) =
      if (tileAt m (a, b)).isSome = true then Except.ok (a, b)
      else Except.error Fault.outOfBounds := by
  simp [tilePtr]

theorem tilePtr_inGrid {w h : Nat} {m : MazeGrid} (hl : Layout w h m) {a b : Nat}
    (hab : InGrid w h (a, b)) : tilePtr m (a : Int) (b : Int) = Except.ok (a, b) := by
  rw [tilePtr_natCast, if_pos ((hl.some_iff (a, b)).mpr hab)]

/-- The neighbour that `getNeighbor` answers with: the adjacent position when it lies in
the grid. -/
theorem getNeighbor_eq {w h : Nat} {m : MazeGrid} (hl : Layout w h m) {p : TilePtr}
    (hp : InGrid w h p) (d : Direction) :
    getNeighbor m w h (p.1 : Int) (p.2 : Int) d =
      Except.ok ((neighborIn p d).filter (fun n => decide (InGrid w h n))) := by
  obtain ⟨a, b⟩ := p
  obtain ⟨ha, hb⟩ := hp
  simp only at ha hb
  cases d with
  | NORTH =>
    simp only [getNeighbor, neighborIn]
    by_cases hc : (b : Int) < (h : Int) - 1
    · have hin : InGrid w h (a, b + 1) := ⟨ha, by simp only; omega⟩
      have hcast : (b : Int) + 1 = ((b + 1 : Nat) : Int) := by push_cast; rfl
      rw [if_pos hc, hcast, tilePtr_inGrid hl hin]
      simp [Option.filter, hin, Except.map]
    · have hin : ¬ InGrid w h (a, b + 1) := fun hh => hc (by have := hh.2; simp only at this; omega)
      rw [if_neg hc]
      simp [Option.filter, hin]
  | EAST =>
    simp only [getNeighbor, neighborIn]
    by_cases hc : (a : Int) < (w : Int) - 1
    · have hin : InGrid w h (a + 1, b) := ⟨by simp only; omega, hb⟩
      have hcast : (a : Int) + 1 = ((a + 1 : Nat) : Int) := by push_cast; rfl
      rw [if_pos hc, hcast, tilePtr_inGrid hl hin]
      simp [Option.filter, hin, Except.map]
    · have hin : ¬ InGrid w h (a + 1, b) := fun hh => hc (by have := hh.1; simp only at this; omega)
      rw [if_neg hc]
      simp [Option.filter, hin]
  | SOUTH =>
    simp only [getNeighbor, neighborIn]
    by_cases hc : 0 < b
    · have hin : InGrid w h (a, b - 1) := ⟨ha, by simp only; omega⟩
      have hcast : (b : Int) - 1 = ((b - 1 : Nat) : Int) := by omega
      have hc' : (0 : Int) < (b : Int) := by omega
      rw [if_pos hc', if_pos hc, hcast, tilePtr_inGrid hl hin]
      simp [Option.filter, hin, Except.map]
    · have hc' : ¬ (0 : Int) < (b : Int) := by omega
      rw [if_neg hc', if_neg hc]
      simp [Option.filter]
  | WEST =>
    simp only [getNeighbor, neighborIn]
    by_cases hc : 0 < a
    · have hin : InGrid w h (a - 1, b) := ⟨by simp only; omega, hb⟩
      have hcast : (a : Int) - 1 = ((a - 1 : Nat) : Int) := by omega
      have hc' : (0 : Int) < (a : Int) := by omega
      rw [if_pos hc', if_pos hc, hcast, tilePtr_inGrid hl hin]
      simp [Option.filter, hin, Except.map]
    · have hc' : ¬ (0 : Int) < (a : Int) := by omega
      rw [if_neg hc', if_neg hc]
      simp [Option.filter]

/-- What one pass of the direction loop does: nothing, unless the tile has no wall in the
direction and the adjacent grid tile still carries `-1`, which is then set and enqueued. -/
theorem visitDirection_cases {w h : Nat} {m : MazeGrid} (hl : Layout w h m) {p : TilePtr}
    (hp : InGrid w h p) (q : List TilePtr) (d : Direction) :
    ∃ t, tileAt m p = some t ∧
      ((visitDirection w h p (m, q) d = Except.ok (m, q) ∧
          ∀ n, t.isWall d = false → neighborIn p d = some n → InGrid w h n →
            distAt m n ≠ -1) ∨
       (∃ n, t.isWall d = false ∧ neighborIn p d = some n ∧ InGrid w h n ∧
          distAt m n = -1 ∧
          visitDirection w h p (m, q) d =
            Except.ok (setDistanceAt m n (t.distance + 1), q ++ [n]))) := by
  obtain ⟨t, ht⟩ := Option.isSome_iff_exists.mp ((hl.some_iff p).mpr hp)
  obtain ⟨hx, hy⟩ := hl.pos p t ht
  refine ⟨t, ht, ?_⟩
  by_cases hwall : t.isWall d = true
  · left
    refine ⟨by simp [visitDirection, ht, hwall], ?_⟩
    intro n hn
    rw [hwall] at hn
    exact absurd hn (by simp)
  · have hwall' : t.isWall d = false := by simpa using hwall
    have hgn := getNeighbor_eq hl hp d
    cases hnb : neighborIn p d with
    | none =>
      left
      refine ⟨?_, ?_⟩
      · simp [visitDirection, ht, hwall', hx, hy, hgn, hnb, Option.filter]
      · intro n _ hn
        exact absurd hn (by simp)
    | some n =>
      by_cases hin : InGrid w h n
      · obtain ⟨tn, htn⟩ := Option.isSome_iff_exists.mp ((hl.some_iff n).mpr hin)
        by_cases hdn : tn.distance = -1
        · right
          refine ⟨n, hwall', rfl, hin, by rw [distAt_of_some htn]; exact hdn, ?_⟩
          simp [visitDirection, ht, hwall', hx, hy, hgn, hnb, Option.filter, hin, htn, hdn]
        · left
          refine ⟨?_, ?_⟩
          · simp [visitDirection, ht, hwall', hx, hy, hgn, hnb, Option.filter, hin, htn, hdn]
          · intro n' _ hn' _
            have : n' = n := by simpa using hn'.symm
            subst this
            rw [distAt_of_some htn]; exact hdn
      · left
        refine ⟨?_, ?_⟩
        · simp [visitDirection, ht, hwall', hx, hy, hgn, hnb, Option.filter, hin]
        · intro n' _ hn' hin'
          have : n' = n := by simpa using hn'.symm
          subst this
          exact absurd hin' hin

/-! ## Maze: the invariant is kept by the direction loop -/

theorem Layout.of_frame {w h : Nat} {m0 m : MazeGrid} (hl : Layout w h m0) (hf : Frame m0 m) :
    Layout w h m := by
  constructor
  · intro p
    rw [hf.isSome p]
    exact hl.some_iff p
  · intro p t ht
    have hs : (tileAt m0 p).isSome = true := by rw [← hf.isSome p, ht]; rfl
    obtain ⟨t0, ht0⟩ := Option.isSome_iff_exists.mp hs
    obtain ⟨t', ht', hx, hy, _⟩ := hf.tile ht0
    rw [ht] at ht'
    cases ht'
    rw [hx, hy]
    exact hl.pos p t0 ht0

theorem unreached_card_discover {w h : Nat} {m : MazeGrid} {n : TilePtr} {d : Int}
    (hn : InGrid w h n) (hsome : (tileAt m n).isSome = true) (hd : distAt m n = -1)
    (hne : d ≠ -1) :
    (unreached w h (setDistanceAt m n d)).card + 1 = (unreached w h m).card := by
  have hmem : n ∈ unreached w h m := by
    simp only [unreached, Finset.mem_filter, Finset.mem_product, Finset.mem_range]
    exact ⟨⟨hn.1, hn.2⟩, hd⟩
  have heq : unreached w h (setDistanceAt m n d) = (unreached w h m).erase n := by
    ext x
    simp only [unreached, Finset.mem_filter, Finset.mem_product, Finset.mem_range,
      Finset.mem_erase, distAt_setDistanceAt m n x d hsome]
    by_cases hx : x = n
    · subst hx
      simp [hne]
    · simp [hx]
  rw [heq, Finset.card_erase_of_mem hmem]
  have : 0 < (unreached w h m).card := Finset.card_pos.mpr ⟨n, hmem⟩
  omega

/-- Discovering the neighbour `n` of the dequeued tile `p` keeps the invariant. -/
theorem BfsInv.discover {m0 m : MazeGrid} {w h : Nat} {centers q : List TilePtr}
    {p n : TilePtr} (inv : BfsInv m0 w h centers (p :: q) m)
    (hn : InGrid w h n) (hsome : (tileAt m n).isSome = true) (hstep : OpenStep m0 p n)
    (hd : distAt m n = -1) :
    BfsInv m0 w h centers (p :: (q ++ [n])) (setDistanceAt m n (distAt m p + 1)) := by
  have hpIn : InGrid w h p := inv.inGrid p (List.mem_cons_self _ _)
  have hpF : distAt m p ≠ -1 := inv.found p (List.mem_cons_self _ _)
  have hk : 0 ≤ distAt m p := inv.nonneg p hpIn hpF
  have hD : ∀ x, distAt (setDistanceAt m n (distAt m p + 1)) x =
      if x = n then distAt m p + 1 else distAt m x :=
    fun x => distAt_setDistanceAt m n x _ hsome
  have hstable : ∀ x, distAt m x ≠ -1 →
      distAt (setDistanceAt m n (distAt m p + 1)) x = distAt m x := by
    intro x hx
    rw [hD, if_neg]
    rintro rfl
    exact hx hd
  have hnew : distAt (setDistanceAt m n (distAt m p + 1)) n = distAt m p + 1 := by
    rw [hD, if_pos rfl]
  have hold : ∀ x, x ≠ n → distAt (setDistanceAt m n (distAt m p + 1)) x ≠ -1 →
      distAt m x ≠ -1 := by
    intro x hne hx
    rwa [hD, if_neg hne] at hx
  have hnear : ∀ x, InGrid w h x → distAt m x ≠ -1 → distAt m x ≤ distAt m p + 1 :=
    fun x hx hxd => inv.near x hx hxd p (by simp)
  constructor
  · exact inv.frame.setDistanceAt n _
  · intro x hx
    rcases List.mem_cons.mp hx with rfl | hx
    · exact hpIn
    · rcases List.mem_append.mp hx with hx | hx
      · exact inv.inGrid x (List.mem_cons_of_mem _ hx)
      · rw [List.mem_singleton.mp hx]; exact hn
  · intro x hx
    by_cases hxn : x = n
    · subst hxn; rw [hnew]; omega
    · rw [hD, if_neg hxn]
      rcases List.mem_cons.mp hx with rfl | hx
      · exact hpF
      · rcases List.mem_append.mp hx with hx | hx
        · exact inv.found x (List.mem_cons_of_mem _ hx)
        · exact absurd (List.mem_singleton.mp hx) hxn
  · have hs : (p :: q).Pairwise (fun a b =>
        distAt (setDistanceAt m n (distAt m p + 1)) a ≤
          distAt (setDistanceAt m n (distAt m p + 1)) b) := by
      refine inv.sorted.imp_of_mem ?_
      intro a b ha hb hab
      rw [hstable a (inv.found a ha), hstable b (inv.found b hb)]
      exact hab
    have : p :: (q ++ [n]) = (p :: q) ++ [n] := rfl
    rw [this, List.pairwise_append]
    refine ⟨hs, List.pairwise_singleton _ _, ?_⟩
    intro a ha b hb
    rw [List.mem_singleton.mp hb, hnew, hstable a (inv.found a ha)]
    exact hnear a (inv.inGrid a ha) (inv.found a ha)
  · intro x hx hxd a ha
    have ha' : a = p := by simpa using ha.symm
    subst ha'
    rw [hstable a hpF]
    by_cases hxn : x = n
    · subst hxn; rw [hnew]
    · rw [hD, if_neg hxn]
      exact hnear x hx (hold x hxn hxd)
  · intro x hx hxd hxp y hxy
    have hxn : x ≠ n := by
      intro hh
      apply hxp
      rw [hh]
      simp
    have hxd' : distAt m x ≠ -1 := hold x hxn hxd
    have hxp' : x ∉ p :: q := by
      intro hh
      apply hxp
      rcases List.mem_cons.mp hh with rfl | hh
      · simp
      · simp [hh]
    obtain ⟨h1, h2⟩ := inv.closed x hx hxd' hxp' y hxy
    rw [hstable y h1, hstable x hxd']
    exact ⟨h1, h2⟩
  · intro x hx hxd
    by_cases hxn : x = n
    · subst hxn; rw [hnew]; omega
    · rw [hD, if_neg hxn]
      exact inv.nonneg x hx (hold x hxn hxd)
  · intro x hx hx0
    by_cases hxn : x = n
    · subst hxn; rw [hnew] at hx0; omega
    · rw [hD, if_neg hxn] at hx0
      exact inv.zero x hx hx0
  · intro x hx hx0
    by_cases hxn : x = n
    · subst hxn
      refine ⟨p, hstep, ?_⟩
      rw [hnew, hstable p hpF]
      omega
    · rw [hD, if_neg hxn] at hx0 ⊢
      obtain ⟨y, hy1, hy2⟩ := inv.pred x hx hx0
      refine ⟨y, hy1, ?_⟩
      rw [hstable y (by omega)]
      exact hy2
  · intro c hc
    rw [hstable c (by rw [inv.seeded c hc]; omega)]
    exact inv.seeded c hc

theorem Handled.stable {m0 m : MazeGrid} {p n : TilePtr} {ds : List Direction} {d : Int}
    (hh : Handled m0 m p ds) (hsome : (tileAt m n).isSome = true) (hd : distAt m n = -1)
    (hp : distAt m p ≠ -1) : Handled m0 (setDistanceAt m n d) p ds := by
  intro dir hdir t y ht hw hy hys
  obtain ⟨h1, h2⟩ := hh dir hdir t y ht hw hy hys
  have hyn : y ≠ n := by rintro rfl; exact h1 hd
  have hpn : p ≠ n := by rintro rfl; exact hp hd
  rw [distAt_setDistanceAt_ne m n y d hyn, distAt_setDistanceAt_ne m n p d hpn]
  exact ⟨h1, h2⟩

/-- The direction loop for the dequeued tile `p` ends without a fault, keeps the
invariant and the budget, and leaves every direction of `ds` handled. -/
theorem visitDirections_inv {m0 : MazeGrid} {w h : Nat} (hl0 : Layout w h m0)
    {centers : List TilePtr} {p : TilePtr} (ds : List Direction) :
    ∀ (done : List Direction) (m : MazeGrid) (q : List TilePtr) (budget : Nat),
      BfsInv m0 w h centers (p :: q) m → Handled m0 m p done →
      q.length + (unreached w h m).card ≤ budget →
      ∃ m' q', visitDirections w h p ds (m, q) = Except.ok (m', q') ∧
        BfsInv m0 w h centers (p :: q') m' ∧ Handled m0 m' p (done ++ ds) ∧
        q'.length + (unreached w h m').card ≤ budget := by
  induction ds with
  | nil =>
    intro done m q budget inv hh hb
    exact ⟨m, q, rfl, inv, by simpa using hh, hb⟩
  | cons d ds ih =>
    intro done m q budget inv hh hb
    have hl : Layout w h m := hl0.of_frame inv.frame
    have hpIn : InGrid w h p := inv.inGrid p (List.mem_cons_self _ _)
    have hpF : distAt m p ≠ -1 := inv.found p (List.mem_cons_self _ _)
    have hk : 0 ≤ distAt m p := inv.nonneg p hpIn hpF
    obtain ⟨t, ht, hcase⟩ := visitDirection_cases hl hpIn q d
    have ht0s : (tileAt m0 p).isSome = true := by rw [← inv.frame.isSome p, ht]; rfl
    obtain ⟨t0, ht0⟩ := Option.isSome_iff_exists.mp ht0s
    obtain ⟨t', ht', _, _, hwalls⟩ := inv.frame.tile ht0
    rw [ht] at ht'
    cases ht'
    rcases hcase with ⟨hv, hnone⟩ | ⟨n, hw, hnb, hnIn, hnd, hv⟩
    · have hh' : Handled m0 m p (done ++ [d]) := by
        intro dir hdir t1 y ht1 hw1 hy hys
        rcases List.mem_append.mp hdir with hdir | hdir
        · exact hh dir hdir t1 y ht1 hw1 hy hys
        · rw [List.mem_singleton.mp hdir] at hw1 hy
          rw [ht0] at ht1
          cases ht1
          have hyIn : InGrid w h y := (hl0.some_iff y).mp hys
          have hyd : distAt m y ≠ -1 := hnone y (by rw [hwalls d]; exact hw1) hy hyIn
          exact ⟨hyd, inv.near y hyIn hyd p (by simp)⟩
      obtain ⟨m', q', hrun, inv', hh'', hb'⟩ := ih (done ++ [d]) m q budget inv hh' hb
      refine ⟨m', q', ?_, inv', by simpa using hh'', hb'⟩
      simp only [visitDirections, hv]
      exact hrun
    · have hns : (tileAt m n).isSome = true := (hl.some_iff n).mpr hnIn
      have hstep : OpenStep m0 p n :=
        ⟨d, t0, ht0, by rw [← hwalls d]; exact hw, hnb, (hl0.some_iff n).mpr hnIn⟩
      have hdist : t.distance = distAt m p := (distAt_of_some ht).symm
      rw [hdist] at hv
      have inv1 := inv.discover hnIn hns hstep hnd
      have hpn : p ≠ n := by rintro rfl; exact hpF hnd
      have hh' : Handled m0 (setDistanceAt m n (distAt m p + 1)) p (done ++ [d]) := by
        intro dir hdir t1 y ht1 hw1 hy hys
        rcases List.mem_append.mp hdir with hdir | hdir
        · exact hh.stable hns hnd hpF dir hdir t1 y ht1 hw1 hy hys
        · rw [List.mem_singleton.mp hdir, hnb] at hy
          cases hy
          rw [distAt_setDistanceAt m n _ _ hns, if_pos rfl,
            distAt_setDistanceAt_ne m n p _ hpn]
          exact ⟨by omega, le_refl _⟩
      have hcard := unreached_card_discover (d := distAt m p + 1) hnIn hns hnd (by omega)
      have hb1 : (q ++ [n]).length +
          (unreached w h (setDistanceAt m n (distAt m p + 1))).card ≤ budget := by
        rw [List.length_append, List.length_singleton]
        omega
      obtain ⟨m', q', hrun, inv', hh'', hb'⟩ := ih (done ++ [d]) _ _ budget inv1 hh' hb1
      refine ⟨m', q', ?_, inv', by simpa using hh'', hb'⟩
      simp only [visitDirections, hv]
      exact hrun

/-! ## Maze: the invariant is kept by the BFS loop -/

theorem mem_DIRECTIONS (d : Direction) : d ∈ DIRECTIONS := by
  cases d <;> simp [DIRECTIONS]

/-- Once all directions are handled the dequeued tile leaves the pending list. -/
theorem BfsInv.dequeue {m0 m : MazeGrid} {w h : Nat} {centers q : List TilePtr}
    {p : TilePtr} (inv : BfsInv m0 w h centers (p :: q) m)
    (hh : Handled m0 m p DIRECTIONS) : BfsInv m0 w h centers q m := by
  have hpIn : InGrid w h p := inv.inGrid p (List.mem_cons_self _ _)
  have hpF : distAt m p ≠ -1 := inv.found p (List.mem_cons_self _ _)
  have hsorted := List.pairwise_cons.mp inv.sorted
  constructor
  · exact inv.frame
  · exact fun x hx => inv.inGrid x (List.mem_cons_of_mem _ hx)
  · exact fun x hx => inv.found x (List.mem_cons_of_mem _ hx)
  · exact hsorted.2
  · intro x hx hxd a ha
    have haq : a ∈ q := List.mem_of_mem_head? ha
    have h1 := inv.near x hx hxd p (by simp)
    have h2 := hsorted.1 a haq
    omega
  · intro x hx hxd hxq y hxy
    by_cases hxp : x = p
    · subst hxp
      obtain ⟨d, t, ht, hw, hnb, hys⟩ := hxy
      exact hh d (mem_DIRECTIONS d) t y ht hw hnb hys
    · exact inv.closed x hx hxd (by simp [hxp, hxq]) y hxy
  · exact inv.nonneg
  · exact inv.zero
  · exact inv.pred
  · exact inv.seeded

/-- The BFS loop ends within its budget, without a fault, with nothing left pending. -/
theorem bfsLoop_inv {m0 : MazeGrid} {w h : Nat} (hl0 : Layout w h m0)
    {centers : List TilePtr} :
    ∀ (fuel : Nat) (m : MazeGrid) (q : List TilePtr), BfsInv m0 w h centers q m →
      q.length + (unreached w h m).card ≤ fuel →
      ∃ m', bfsLoop w h fuel m q = Except.ok m' ∧ BfsInv m0 w h centers [] m' := by
  intro fuel
  induction fuel with
  | zero =>
    intro m q inv hb
    cases q with
    | nil => exact ⟨m, rfl, inv⟩
    | cons p q => simp at hb
  | succ fuel ih =>
    intro m q inv hb
    cases q with
    | nil => exact ⟨m, rfl, inv⟩
    | cons p q =>
      have hb' : q.length + (unreached w h m).card ≤ fuel := by
        simp only [List.length_cons] at hb
        omega
      obtain ⟨m1, q1, hrun, inv1, hh1, hb1⟩ :=
        visitDirections_inv hl0 DIRECTIONS [] m q fuel inv (by intro d hd; simp at hd) hb'
      have inv2 : BfsInv m0 w h centers q1 m1 := inv1.dequeue (by simpa using hh1)
      obtain ⟨m', hloop, inv'⟩ := ih m1 q1 inv2 hb1
      refine ⟨m', ?_, inv'⟩
      simp only [bfsLoop, hrun]
      exact hloop

/-! ## Maze: the seeded grid satisfies the invariant -/

theorem getElem?_length_of_rect {maze : MazeGrid} (hr : Rectangular maze) {i : Nat}
    {col : List Tile} (hc : maze[i]? = some col) : col.length = getHeight maze := by
  obtain ⟨hi, hget⟩ := List.getElem?_eq_some.mp hc
  exact hr col (hget ▸ List.getElem_mem hi)

theorem Layout.of_maze {maze : MazeGrid} (hr : Rectangular maze) (hp : Positioned maze) :
    Layout (getWidth maze) (getHeight maze) maze := by
  have hsome : ∀ p, (tileAt maze p).isSome = true ↔
      InGrid (getWidth maze) (getHeight maze) p := by
    intro p
    obtain ⟨i, j⟩ := p
    simp only [tileAt, InGrid, getWidth]
    cases hc : maze[i]? with
    | none =>
      have : maze.length ≤ i := List.getElem?_eq_none_iff.mp hc
      simp
      omega
    | some col =>
      have hlen := getElem?_length_of_rect hr hc
      obtain ⟨hi, _⟩ := List.getElem?_eq_some.mp hc
      simp only [hi, true_and]
      rw [← hlen]
      constructor
      · intro hs
        obtain ⟨t, ht⟩ := Option.isSome_iff_exists.mp hs
        exact (List.getElem?_eq_some.mp ht).1
      · intro hj
        rw [List.getElem?_eq_getElem hj]
        rfl
  refine ⟨hsome, ?_⟩
  intro p t ht
  have hin := (hsome p).mp (by rw [ht]; rfl)
  exact hp p.1 hin.1 p.2 hin.2 t ht

theorem distAt_of_fresh {maze : MazeGrid} (hf : Fresh maze) (p : TilePtr) :
    distAt maze p = -1 := by
  unfold distAt
  cases ht : tileAt maze p with
  | none => rfl
  | some t =>
    simp only
    unfold tileAt at ht
    cases hc : maze[p.1]? with
    | none => rw [hc] at ht; simp at ht
    | some col =>
      rw [hc] at ht
      simp only at ht
      obtain ⟨hi, hget⟩ := List.getElem?_eq_some.mp hc
      obtain ⟨hj, hget'⟩ := List.getElem?_eq_some.mp ht
      exact hf col (hget ▸ List.getElem_mem hi) t (hget' ▸ List.getElem_mem hj)

theorem centerIndices_inGrid {w h : Nat} (hw : 1 ≤ w) (hh : 1 ≤ h) :
    ∀ c ∈ centerIndices w h, InGrid w h c := by
  intro c hc
  unfold centerIndices at hc
  unfold InGrid
  split_ifs at hc <;> simp at hc <;> rcases hc with rfl | hc <;>
    (try rcases hc with rfl | hc) <;> (try rcases hc with rfl | hc) <;>
    (try subst hc) <;> simp only <;> omega

theorem centerIndices_nodup {w h : Nat} (hw : 1 ≤ w) (hh : 1 ≤ h) :
    (centerIndices w h).Nodup := by
  unfold centerIndices
  split_ifs <;> simp <;> omega

theorem takePtrs_inGrid {w h : Nat} {m : MazeGrid} (hl : Layout w h m) :
    ∀ cs : List TilePtr, (∀ c ∈ cs, InGrid w h c) → takePtrs m cs = Except.ok cs := by
  intro cs
  induction cs with
  | nil => intro _; rfl
  | cons c cs ih =>
    intro hcs
    have hc : InGrid w h (c.1, c.2) := hcs c (List.mem_cons_self _ _)
    simp only [takePtrs, tilePtr_inGrid hl hc, ih (fun x hx => hcs x (List.mem_cons_of_mem _ hx))]

theorem Frame.seedCenters {m0 : MazeGrid} (cs : List TilePtr) :
    ∀ m, Frame m0 m → Frame m0 (seedCenters m cs) := by
  induction cs with
  | nil => intro m hf; exact hf
  | cons c cs ih =>
    intro m hf
    exact ih _ (hf.setDistanceAt c 0)

theorem distAt_seedCenters {w h : Nat} {m0 : MazeGrid} (hl0 : Layout w h m0)
    (cs : List TilePtr) :
    ∀ m, Frame m0 m → (∀ c ∈ cs, InGrid w h c) → ∀ p,
      distAt (seedCenters m cs) p = if p ∈ cs then 0 else distAt m p := by
  induction cs with
  | nil => intro m _ _ p; simp [seedCenters]
  | cons c cs ih =>
    intro m hf hcs p
    have hcIn : InGrid w h c := hcs c (List.mem_cons_self _ _)
    have hcs' : (tileAt m c).isSome = true := ((hl0.of_frame hf).some_iff c).mpr hcIn
    have hrec := ih (setDistanceAt m c 0) (hf.setDistanceAt c 0)
      (fun x hx => hcs x (List.mem_cons_of_mem _ hx)) p
    have hunf : seedCenters m (c :: cs) = seedCenters (setDistanceAt m c 0) cs := rfl
    rw [hunf, hrec, distAt_setDistanceAt m c p 0 hcs']
    by_cases h1 : p ∈ cs
    · simp [h1]
    · by_cases h2 : p = c
      · simp [h2]
      · simp [h1, h2]

theorem unreached_card_seedCenters {w h : Nat} {m0 : MazeGrid} (hl0 : Layout w h m0)
    (cs : List TilePtr) :
    ∀ m, Frame m0 m → cs.Nodup → (∀ c ∈ cs, InGrid w h c ∧ distAt m c = -1) →
      cs.length + (unreached w h (seedCenters m cs)).card = (unreached w h m).card := by
  induction cs with
  | nil => intro m _ _ _; simp [seedCenters]
  | cons c cs ih =>
    intro m hf hnd hcs
    obtain ⟨hcIn, hcd⟩ := hcs c (List.mem_cons_self _ _)
    have hcs' : (tileAt m c).isSome = true := ((hl0.of_frame hf).some_iff c).mpr hcIn
    obtain ⟨hc_notin, hnd'⟩ := List.nodup_cons.mp hnd
    have hrec := ih (setDistanceAt m c 0) (hf.setDistanceAt c 0) hnd' (by
      intro x hx
      obtain ⟨hxIn, hxd⟩ := hcs x (List.mem_cons_of_mem _ hx)
      refine ⟨hxIn, ?_⟩
      rw [distAt_setDistanceAt_ne m c x 0 (by rintro rfl; exact hc_notin hx)]
      exact hxd)
    have hcard := unreached_card_discover (d := 0) hcIn hcs' hcd (by omega)
    have hunf : seedCenters m (c :: cs) = seedCenters (setDistanceAt m c 0) cs := rfl
    rw [hunf, List.length_cons]
    omega

theorem unreached_card_le (w h : Nat) (m : MazeGrid) : (unreached w h m).card ≤ w * h := by
  unfold unreached
  calc ((Finset.range w ×ˢ Finset.range h).filter (fun p => distAt m p = -1)).card
      ≤ (Finset.range w ×ˢ Finset.range h).card := Finset.card_filter_le _ _
    _ = w * h := by simp

/-- The grid with the centers seeded satisfies the invariant with the centers pending. -/
theorem BfsInv.init {w h : Nat} {m0 : MazeGrid} (hl0 : Layout w h m0) (hf : Fresh m0)
    {cs : List TilePtr} (hcs : ∀ c ∈ cs, InGrid w h c) :
    BfsInv m0 w h cs cs (seedCenters m0 cs) := by
  have hD : ∀ p, distAt (seedCenters m0 cs) p = if p ∈ cs then 0 else -1 := by
    intro p
    rw [distAt_seedCenters hl0 cs m0 (Frame.refl m0) hcs p, distAt_of_fresh hf p]
  have hmem : ∀ p, distAt (seedCenters m0 cs) p ≠ -1 → p ∈ cs := by
    intro p hp
    by_contra hc
    rw [hD, if_neg hc] at hp
    exact hp rfl
  have hzero : ∀ p ∈ cs, distAt (seedCenters m0 cs) p = 0 := by
    intro p hp
    rw [hD, if_pos hp]
  constructor
  · exact Frame.seedCenters cs m0 (Frame.refl m0)
  · exact hcs
  · intro p hp
    rw [hzero p hp]
    omega
  · refine List.Pairwise.imp_of_mem (R := fun _ _ => True) ?_ (List.pairwise_of_forall (fun _ _ => trivial))
    intro a b ha hb _
    rw [hzero a ha, hzero b hb]
  · intro p _ hpd a ha
    rw [hzero p (hmem p hpd), hzero a (List.mem_of_mem_head? ha)]
    omega
  · intro p _ hpd hpn
    exact absurd (hmem p hpd) hpn
  · intro p _ hpd
    rw [hzero p (hmem p hpd)]
  · intro p _ hp0
    exact hmem p (by omega)
  · intro p _ hp0
    have := hzero p (hmem p (by omega))
    omega
  · exact hzero

/-! ## Maze: what `setTileDistances` returns -/

/-- On a non-empty rectangular grid of fresh, positioned tiles `Maze::setTileDistances`
returns a grid, and that grid satisfies the invariant with nothing pending. -/
theorem setTileDistances_inv {maze : MazeGrid} (hne : NonEmpty maze) (hr : Rectangular maze)
    (hp : Positioned maze) (hf : Fresh maze) :
    ∃ result, setTileDistances maze = Except.ok result ∧
      BfsInv maze (getWidth maze) (getHeight maze)
        (centerIndices (getWidth maze) (getHeight maze)) [] result := by
  have hl0 := Layout.of_maze hr hp
  have hcs := centerIndices_inGrid hne.1 hne.2
  have hnd := centerIndices_nodup hne.1 hne.2
  have hinit := BfsInv.init hl0 hf hcs
  have hcard := unreached_card_seedCenters hl0 _ maze (Frame.refl maze) hnd
    (fun c hc => ⟨hcs c hc, distAt_of_fresh hf c⟩)
  have hle := unreached_card_le (getWidth maze) (getHeight maze) maze
  obtain ⟨result, hrun, hinv⟩ := bfsLoop_inv hl0 (getWidth maze * getHeight maze) _ _ hinit
    (by omega)
  refine ⟨result, ?_, hinv⟩
  cases maze with
  | nil => simp [NonEmpty, getWidth] at hne
  | cons column rest =>
    have htake := takePtrs_inGrid hl0 _ hcs
    simp only [getWidth, getHeight] at htake hrun
    simp only [setTileDistances, htake]
    exact hrun

theorem OpenStep.inGrid_left {w h : Nat} {m : MazeGrid} (hl : Layout w h m) {p q : TilePtr}
    (s : OpenStep m p q) : InGrid w h p := by
  obtain ⟨d, t, ht, _, _, _⟩ := s
  exact (hl.some_iff p).mp (by rw [ht]; rfl)

theorem OpenStep.inGrid_right {w h : Nat} {m : MazeGrid} (hl : Layout w h m) {p q : TilePtr}
    (s : OpenStep m p q) : InGrid w h q := by
  obtain ⟨d, t, _, _, _, hq⟩ := s
  exact (hl.some_iff q).mp hq

/-- With walls that agree between adjacent tiles an open hop can be taken backwards. -/
theorem OpenStep.symm {m : MazeGrid} (hr : Rectangular m) (hp : Positioned m)
    (hs : SymmetricWalls m) {p q : TilePtr} (s : OpenStep m p q) : OpenStep m q p := by
  have hl := Layout.of_maze hr hp
  have hpIn := s.inGrid_left hl
  have hqIn := s.inGrid_right hl
  obtain ⟨d, t, ht, hw, hnb, hq⟩ := s
  obtain ⟨tq, htq⟩ := Option.isSome_iff_exists.mp hq
  have hps : (tileAt m p).isSome = true := by rw [ht]; rfl
  obtain ⟨a, b⟩ := p
  cases d with
  | NORTH =>
    simp only [neighborIn, Option.some.injEq] at hnb
    subst hnb
    have := (hs a hpIn.1 b hpIn.2).1 t ht tq htq
    refine ⟨Direction.SOUTH, tq, htq, ?_, by simp [neighborIn], hps⟩
    simp only [Tile.isWall] at hw ⊢
    rw [← this]; exact hw
  | EAST =>
    simp only [neighborIn, Option.some.injEq] at hnb
    subst hnb
    have := (hs a hpIn.1 b hpIn.2).2 t ht tq htq
    refine ⟨Direction.WEST, tq, htq, ?_, by simp [neighborIn], hps⟩
    simp only [Tile.isWall] at hw ⊢
    rw [← this]; exact hw
  | SOUTH =>
    simp only [neighborIn] at hnb
    split_ifs at hnb with hb
    simp only [Option.some.injEq] at hnb
    subst hnb
    simp only at hb
    have hb' : b - 1 + 1 = b := by omega
    have := (hs a hqIn.1 (b - 1) hqIn.2).1 tq htq t (by rw [hb']; exact ht)
    refine ⟨Direction.NORTH, tq, htq, ?_, by simp [neighborIn, hb'], hps⟩
    simp only [Tile.isWall] at hw ⊢
    rw [this]; exact hw
  | WEST =>
    simp only [neighborIn] at hnb
    split_ifs at hnb with ha
    simp only [Option.some.injEq] at hnb
    subst hnb
    simp only at ha
    have ha' : a - 1 + 1 = a := by omega
    have := (hs (a - 1) hqIn.1 b hqIn.2).2 tq htq t (by rw [ha']; exact ht)
    refine ⟨Direction.EAST, tq, htq, ?_, by simp [neighborIn, ha'], hps⟩
    simp only [Tile.isWall] at hw ⊢
    rw [this]; exact hw

/-- No open path to a seeded tile is shorter than the distance the BFS stored. -/
theorem BfsInv.le_of_path {m0 m : MazeGrid} {w h : Nat} {centers : List TilePtr}
    (hl0 : Layout w h m0) (inv : BfsInv m0 w h centers [] m)
    (hsym : ∀ p q, OpenStep m0 p q → OpenStep m0 q p) {p c : TilePtr} {n : Nat}
    (path : OpenPath m0 p c n) (hc : c ∈ centers) :
    distAt m p ≠ -1 ∧ distAt m p ≤ (n : Int) := by
  induction path with
  | here p _ =>
    rw [inv.seeded p hc]
    exact ⟨by omega, by simp⟩
  | hop s rest ih =>
    obtain ⟨h1, h2⟩ := ih hc
    have hq := s.inGrid_right hl0
    obtain ⟨h3, h4⟩ := inv.closed _ hq h1 (by simp) _ (hsym _ _ s)
    refine ⟨h3, ?_⟩
    push_cast
    omega

/-- The distance the BFS stored is the length of an open path to a seeded tile. -/
theorem BfsInv.path_of_dist {m0 m : MazeGrid} {w h : Nat} {centers : List TilePtr}
    (hl0 : Layout w h m0) (inv : BfsInv m0 w h centers [] m)
    (hsym : ∀ p q, OpenStep m0 p q → OpenStep m0 q p) :
    ∀ (d : Nat) (p : TilePtr), InGrid w h p → distAt m p = (d : Int) →
      ∃ c, c ∈ centers ∧ OpenPath m0 p c d := by
  intro d
  induction d with
  | zero =>
    intro p hp hd
    exact ⟨p, inv.zero p hp (by simpa using hd), OpenPath.here p ((hl0.some_iff p).mpr hp)⟩
  | succ d ih =>
    intro p hp hd
    obtain ⟨n, hs, hn⟩ := inv.pred p hp (by rw [hd]; push_cast; omega)
    have hnIn := hs.inGrid_left hl0
    obtain ⟨c, hc, path⟩ := ih n hnIn (by rw [hn, hd]; push_cast; omega)
    exact ⟨c, hc, OpenPath.hop (hsym _ _ hs) path⟩

/-! ## Maze: the grid built from a wall description -/

theorem getElem?_buildColumn (x : Nat) (col : List BasicTile) :
    ∀ (y0 j : Nat), (buildColumn x y0 col)[j]? = (col[j]?).map (freshTile x (y0 + j)) := by
  induction col with
  | nil => intro y0 j; simp [buildColumn]
  | cons b bs ih =>
    intro y0 j
    cases j with
    | zero => simp [buildColumn]
    | succ j =>
      have harith : y0 + 1 + j = y0 + (j + 1) := by omega
      simp only [buildColumn, List.getElem?_cons_succ, ih (y0 + 1) j, harith]

theorem length_buildColumn (x : Nat) (col : List BasicTile) :
    ∀ y0, (buildColumn x y0 col).length = col.length := by
  induction col with
  | nil => intro y0; rfl
  | cons b bs ih => intro y0; simp [buildColumn, ih]

theorem getElem?_buildColumns (b : BasicMaze) :
    ∀ (x0 i : Nat), (buildColumns x0 b)[i]? = (b[i]?).map (buildColumn (x0 + i) 0) := by
  induction b with
  | nil => intro x0 i; simp [buildColumns]
  | cons c cs ih =>
    intro x0 i
    cases i with
    | zero => simp [buildColumns]
    | succ i =>
      have harith : x0 + 1 + i = x0 + (i + 1) := by omega
      simp only [buildColumns, List.getElem?_cons_succ, ih (x0 + 1) i, harith]

theorem length_buildColumns (b : BasicMaze) :
    ∀ x0, (buildColumns x0 b).length = b.length := by
  induction b with
  | nil => intro x0; rfl
  | cons c cs ih => intro x0; simp [buildColumns, ih]

theorem getWidth_buildColumns (b : BasicMaze) : getWidth (buildColumns 0 b) = b.length :=
  length_buildColumns b 0

theorem getHeight_buildColumns (b : BasicMaze) :
    getHeight (buildColumns 0 b) = basicHeight b := by
  cases b with
  | nil => rfl
  | cons c cs => simp [buildColumns, getHeight, basicHeight, length_buildColumn]

theorem rectangular_buildColumns {b : BasicMaze}
    (hr : ∀ column ∈ b, column.length = basicHeight b) : Rectangular (buildColumns 0 b) := by
  intro column hc
  rw [getHeight_buildColumns]
  obtain ⟨i, hi⟩ := List.mem_iff_getElem?.mp hc
  rw [getElem?_buildColumns] at hi
  cases hb : b[i]? with
  | none => rw [hb] at hi; simp at hi
  | some col =>
    rw [hb] at hi
    simp only [Option.map_some', Option.some.injEq] at hi
    rw [← hi, length_buildColumn]
    exact hr col (List.getElem?_mem hb)

theorem tileAt_buildColumns {b : BasicMaze} {p : TilePtr} {t : Tile}
    (ht : tileAt (buildColumns 0 b) p = some t) : ∃ bt, t = freshTile p.1 p.2 bt := by
  unfold tileAt at ht
  rw [getElem?_buildColumns] at ht
  cases hb : b[p.1]? with
  | none => rw [hb] at ht; simp at ht
  | some col =>
    rw [hb] at ht
    simp only [Option.map_some', getElem?_buildColumn] at ht
    cases hc : col[p.2]? with
    | none => rw [hc] at ht; simp at ht
    | some bt =>
      rw [hc] at ht
      simp only [Option.map_some', Option.some.injEq, Nat.zero_add] at ht
      exact ⟨bt, ht.symm⟩

theorem positioned_buildColumns (b : BasicMaze) : Positioned (buildColumns 0 b) := by
  intro i _ j _ t ht
  obtain ⟨bt, hbt⟩ := tileAt_buildColumns (Option.mem_def.mp ht)
  rw [hbt]
  exact ⟨rfl, rfl⟩

theorem fresh_buildColumns (b : BasicMaze) : Fresh (buildColumns 0 b) := by
  intro column hc t ht
  obtain ⟨i, hi⟩ := List.mem_iff_getElem?.mp hc
  obtain ⟨j, hj⟩ := List.mem_iff_getElem?.mp ht
  have hat : tileAt (buildColumns 0 b) (i, j) = some t := by
    simp only [tileAt, hi, hj]
  obtain ⟨bt, hbt⟩ := tileAt_buildColumns hat
  rw [hbt]
  rfl

/-! ## Maze: the center tiles -/

theorem card_midpoints {dim : Nat} (hd : 1 ≤ dim) :
    (midpoints dim).card = if dim % 2 = 0 then 2 else 1 := by
  unfold midpoints
  split_ifs with h
  · rw [Finset.card_pair]
    omega
  · simp

theorem mem_centerIndices_iff (w h : Nat) (p : TilePtr) :
    p ∈ centerIndices w h ↔ p.1 ∈ midpoints w ∧ p.2 ∈ midpoints h := by
  obtain ⟨a, b⟩ := p
  unfold centerIndices midpoints
  split_ifs <;> simp [Prod.ext_iff] <;> tauto

/-- The tiles with distance `0` in a grid satisfying the invariant are the seeded ones. -/
theorem BfsInv.zeroTiles_eq {m0 m : MazeGrid} {pending : List TilePtr}
    (inv : BfsInv m0 (getWidth m0) (getHeight m0)
      (centerIndices (getWidth m0) (getHeight m0)) pending m)
    (hw : 1 ≤ getWidth m0) (hh : 1 ≤ getHeight m0) :
    zeroTiles m = midpoints (getWidth m0) ×ˢ midpoints (getHeight m0) := by
  ext p
  simp only [zeroTiles, inv.frame.getWidth, inv.frame.getHeight, Finset.mem_filter,
    Finset.mem_product, Finset.mem_range, Option.mem_def]
  rw [← mem_centerIndices_iff]
  constructor
  · rintro ⟨⟨h1, h2⟩, t, ht, hd⟩
    exact inv.zero p ⟨h1, h2⟩ (by rw [distAt_of_some ht]; exact hd)
  · intro hc
    have hin := centerIndices_inGrid hw hh p hc
    refine ⟨⟨hin.1, hin.2⟩, ?_⟩
    have h0 := inv.seeded p hc
    cases ht : tileAt m p with
    | none => rw [distAt_eq_neg_one_of_none ht] at h0; omega
    | some t => exact ⟨t, rfl, by rw [distAt_of_some ht] at h0; exact h0⟩

/-! ## Maze: the claims -/

/-- C1: on a non-empty rectangular grid whose tiles record their positions, all start at
distance `-1` and agree on the walls between them, `Maze::setTileDistances` returns a grid
in which every tile from which a center tile can be reached through open walls carries the
length of a shortest such path, and every other tile carries `-1`. -/
theorem setTileDistances_shortest_path (maze : MazeGrid) (hne : NonEmpty maze)
    (hr : Rectangular maze) (hp : Positioned maze) (hf : Fresh maze)
    (hs : SymmetricWalls maze) :
    ∃ result, setTileDistances maze = Except.ok result ∧
      ∀ p t, tileAt maze p = some t → ∃ t', tileAt result p = some t' ∧
        (CenterReachable maze p →
          ∃ d : Nat, t'.distance = (d : Int) ∧ ShortestToCenter maze p d) ∧
        (¬ CenterReachable maze p → t'.distance = -1) := by
  obtain ⟨result, hrun, inv⟩ := setTileDistances_inv hne hr hp hf
  have hl0 := Layout.of_maze hr hp
  have hsym : ∀ p q, OpenStep maze p q → OpenStep maze q p :=
    fun p q s => s.symm hr hp hs
  refine ⟨result, hrun, ?_⟩
  intro p t ht
  have hpIn : InGrid (getWidth maze) (getHeight maze) p :=
    (hl0.some_iff p).mp (by rw [ht]; rfl)
  obtain ⟨t', ht', _⟩ := inv.frame.tile ht
  have hdist : distAt result p = t'.distance := distAt_of_some ht'
  refine ⟨t', ht', ?_, ?_⟩
  · rintro ⟨c, n, hc, path⟩
    obtain ⟨hfound, _⟩ := inv.le_of_path hl0 hsym path hc
    have hnn := inv.nonneg p hpIn hfound
    refine ⟨(distAt result p).toNat, by rw [← hdist]; omega, ?_, ?_⟩
    · exact inv.path_of_dist hl0 hsym _ p hpIn (by omega)
    · intro c' n' hc' path'
      have := (inv.le_of_path hl0 hsym path' hc').2
      omega
  · intro hnot
    by_contra hne1
    have hfound : distAt result p ≠ -1 := by rw [hdist]; exact hne1
    have hnn := inv.nonneg p hpIn hfound
    obtain ⟨c, hc, path⟩ :=
      inv.path_of_dist hl0 hsym (distAt result p).toNat p hpIn (by omega)
    exact hnot ⟨c, _, hc, path⟩

/-- The statement of C1 at the 3 by 3 sample grid, whose corner tile is walled in. -/
theorem setTileDistances_shortest_path_witness :
    (NonEmpty sampleGrid ∧ Rectangular sampleGrid ∧ Positioned sampleGrid ∧
      Fresh sampleGrid ∧ SymmetricWalls sampleGrid) ∧
    ∃ result, setTileDistances sampleGrid = Except.ok result ∧
      ∀ p t, tileAt sampleGrid p = some t → ∃ t', tileAt result p = some t' ∧
        (CenterReachable sampleGrid p →
          ∃ d : Nat, t'.distance = (d : Int) ∧ ShortestToCenter sampleGrid p d) ∧
        (¬ CenterReachable sampleGrid p → t'.distance = -1) :=
  ⟨by decide,
    setTileDistances_shortest_path sampleGrid (by decide) (by decide) (by decide)
      (by decide) (by decide)⟩

/-- C2: for every non-empty rectangular wall description, the grid that
`Maze::setTileDistances` returns during construction has the width and height of the
description, its tiles with distance `0` are exactly those at the midpoint indices, and
there is one of them when both dimensions are odd, four when both are even and two
otherwise. -/
theorem setTileDistances_center_count (basicMaze : BasicMaze) (hw : 1 ≤ basicMaze.length)
    (hh : 1 ≤ basicHeight basicMaze)
    (hr : ∀ column ∈ basicMaze, column.length = basicHeight basicMaze) :
    ∃ result, initializeFromBasicMaze basicMaze = Except.ok result ∧
      getWidth result = basicMaze.length ∧ getHeight result = basicHeight basicMaze ∧
      zeroTiles result = midpoints (getWidth result) ×ˢ midpoints (getHeight result) ∧
      (zeroTiles result).card =
        (if getWidth result % 2 = 1 ∧ getHeight result % 2 = 1 then 1
         else if getWidth result % 2 = 0 ∧ getHeight result % 2 = 0 then 4
         else 2) := by
  have hne : NonEmpty (buildColumns 0 basicMaze) := by
    unfold NonEmpty
    rw [getWidth_buildColumns, getHeight_buildColumns]
    exact ⟨hw, hh⟩
  obtain ⟨result, hrun, inv⟩ := setTileDistances_inv hne (rectangular_buildColumns hr)
    (positioned_buildColumns basicMaze) (fresh_buildColumns basicMaze)
  have hwid : getWidth result = basicMaze.length := by
    rw [inv.frame.getWidth, getWidth_buildColumns]
  have hhei : getHeight result = basicHeight basicMaze := by
    rw [inv.frame.getHeight, getHeight_buildColumns]
  have hzero := inv.zeroTiles_eq hne.1 hne.2
  rw [← inv.frame.getWidth, ← inv.frame.getHeight] at hzero
  refine ⟨result, hrun, hwid, hhei, hzero, ?_⟩
  rw [hzero, Finset.card_product, card_midpoints (by omega), card_midpoints (by omega)]
  split_ifs <;> omega

/-- The statement of C2 at the 3 by 3 sample wall description. -/
theorem setTileDistances_center_count_witness :
    (1 ≤ sampleBasicMaze.length ∧ 1 ≤ basicHeight sampleBasicMaze ∧
      ∀ column ∈ sampleBasicMaze, column.length = basicHeight sampleBasicMaze) ∧
    ∃ result, initializeFromBasicMaze sampleBasicMaze = Except.ok result ∧
      getWidth result = sampleBasicMaze.length ∧
      getHeight result = basicHeight sampleBasicMaze ∧
      zeroTiles result = midpoints (getWidth result) ×ˢ midpoints (getHeight result) ∧
      (zeroTiles result).card =
        (if getWidth result % 2 = 1 ∧ getHeight result % 2 = 1 then 1
         else if getWidth result % 2 = 0 ∧ getHeight result % 2 = 0 then 4
         else 2) :=
  ⟨by decide,
    setTileDistances_center_count sampleBasicMaze (by decide) (by decide) (by decide)⟩

/-- C3: `Maze::getOptimalStartingDirection` returns EAST when tile `(0, 0)` has a north
wall and no east wall and NORTH in every other case; a grid of height zero is one of the
other cases, and no run ends in a fault. -/
theorem getOptimalStartingDirection_spec (maze : MazeGrid) :
    (∀ t, tileAt maze (0, 0) = some t → t.isWall Direction.NORTH = true →
        t.isWall Direction.EAST = false →
        getOptimalStartingDirection maze = Except.ok Direction.EAST) ∧
    ((¬ ∃ t, tileAt maze (0, 0) = some t ∧ t.isWall Direction.NORTH = true ∧
        t.isWall Direction.EAST = false) →
        getOptimalStartingDirection maze = Except.ok Direction.NORTH) ∧
    (getHeight maze = 0 →
        getOptimalStartingDirection maze = Except.ok Direction.NORTH ∧
        tileAt maze (0, 0) = none) := by
  cases maze with
  | nil => simp [getOptimalStartingDirection, getHeight, tileAt]
  | cons column rest =>
    cases column with
    | nil => simp [getOptimalStartingDirection, getHeight, tileAt]
    | cons t ts =>
      simp only [getOptimalStartingDirection, getHeight, getTile, withinMaze, getWidth, tileAt,
        List.length_cons]
      simp
      by_cases hn : t.isWall Direction.NORTH = true <;>
        by_cases he : t.isWall Direction.EAST = true <;> simp [hn, he]

/-! ## Mouse: maps -/

theorem QMap.value?_eq_none_of_not_mem {V : Type} (m : QMap V) (key : String)
    (h : key ∉ m.map Prod.fst) : QMap.value? m key = none := by
  induction m with
  | nil => rfl
  | cons e rest ih =>
    obtain ⟨k, v⟩ := e
    simp only [List.map_cons, List.mem_cons, not_or] at h
    simp only [QMap.value?, if_neg (Ne.symm h.1)]
    exact ih h.2

theorem QMap.mem_keys_of_value? {V : Type} (m : QMap V) (key : String) (v : V)
    (h : QMap.value? m key = some v) : (key, v) ∈ m := by
  induction m with
  | nil => simp [QMap.value?] at h
  | cons e rest ih =>
    obtain ⟨k, v'⟩ := e
    simp only [QMap.value?] at h
    by_cases hk : k = key
    · rw [if_pos hk] at h
      cases h
      rw [hk]
      exact List.mem_cons_self _ _
    · rw [if_neg hk] at h
      exact List.mem_cons_of_mem _ (ih h)

theorem QMap.value?_of_mem {V : Type} (m : QMap V) (hwf : QMap.WF m) (key : String) (v : V)
    (h : (key, v) ∈ m) : QMap.value? m key = some v := by
  induction m with
  | nil => simp at h
  | cons e rest ih =>
    obtain ⟨k, v'⟩ := e
    have hnd := List.nodup_cons.mp hwf
    rcases List.mem_cons.mp h with heq | hmem
    · cases heq
      simp [QMap.value?]
    · have hne : k ≠ key := by
        rintro rfl
        exact hnd.1 (List.mem_map.mpr ⟨(k, v), hmem, rfl⟩)
      simp only [QMap.value?, if_neg hne]
      exact ih hnd.2 hmem

theorem QMap.insert_of_not_mem {V : Type} (m : QMap V) (key : String) (v : V)
    (h : key ∉ m.map Prod.fst) : QMap.insert m key v = m ++ [(key, v)] := by
  induction m with
  | nil => rfl
  | cons e rest ih =>
    obtain ⟨k, v'⟩ := e
    simp only [List.map_cons, List.mem_cons, not_or] at h
    simp only [QMap.insert, if_neg (Ne.symm h.1), ih h.2, List.cons_append]

theorem QMap.value?_map {V W : Type} (f : String → V → W) (m : QMap V) (key : String) :
    QMap.value? (m.map (fun e => (e.1, f e.1 e.2))) key = (QMap.value? m key).map (f key) := by
  induction m with
  | nil => rfl
  | cons e rest ih =>
    obtain ⟨k, v⟩ := e
    simp only [List.map_cons, QMap.value?]
    by_cases hk : k = key
    · simp [hk]
    · simp [hk, ih]

theorem QMap.value?_modify {V : Type} (f : V → V) (m : QMap V) (key name : String) :
    QMap.value? (QMap.modify f m key) name =
      if name = key then (QMap.value? m name).map f else QMap.value? m name := by
  induction m with
  | nil => simp [QMap.modify, QMap.value?]
  | cons e rest ih =>
    obtain ⟨k, v⟩ := e
    simp only [QMap.modify]
    by_cases hk : k = key
    · subst hk
      simp only [if_true, QMap.value?]
      by_cases hn : k = name
      · subst hn; simp
      · have hn' : ¬ name = k := fun h => hn h.symm
        simp [hn, hn']
    · simp only [if_neg hk, QMap.value?]
      by_cases hn : k = name
      · subst hn
        simp [hk]
      · simp only [if_neg hn, ih]

theorem QMap.keys_modify {V : Type} (f : V → V) (m : QMap V) (key : String) :
    (QMap.modify f m key).map Prod.fst = m.map Prod.fst := by
  induction m with
  | nil => rfl
  | cons e rest ih =>
    obtain ⟨k, v⟩ := e
    simp only [QMap.modify]
    by_cases hk : k = key
    · simp [hk]
    · simp [hk, ih]

theorem QMap.contains_iff_mem_keys {V : Type} (m : QMap V) (key : String) :
    QMap.contains m key = true ↔ key ∈ m.map Prod.fst := by
  induction m with
  | nil => simp [QMap.contains, QMap.value?]
  | cons e rest ih =>
    obtain ⟨k, v⟩ := e
    simp only [QMap.contains, QMap.value?, List.map_cons, List.mem_cons]
    by_cases hk : k = key
    · simp [hk]
    · have hk' : ¬ key = k := fun h => hk h.symm
      simp only [if_neg hk, hk', false_or]
      exact ih

/-! ## Mouse: the loops that fill a map -/

theorem ratesOfChange_eq (wheels : QMap Wheel) :
    ∀ acc : QMap (ℚ × ℚ), (wheels.map Prod.fst).Nodup →
      (∀ k ∈ wheels.map Prod.fst, k ∉ acc.map Prod.fst) →
      ratesOfChange wheels acc = acc ++ wheels.map (fun e =>
        (e.1, (e.2.maximumEffect.forwardEffect, e.2.maximumEffect.turnEffect))) := by
  induction wheels with
  | nil => intro acc _ _; simp [ratesOfChange]
  | cons e rest ih =>
    intro acc hnd hdisj
    obtain ⟨k, w⟩ := e
    simp only [List.map_cons, List.nodup_cons] at hnd
    have hk : k ∉ acc.map Prod.fst := hdisj k (by simp)
    simp only [ratesOfChange, QMap.insert_of_not_mem acc k _ hk]
    rw [ih _ hnd.2]
    · simp
    · intro k' hk' hmem
      simp only [List.map_append, List.map_cons, List.map_nil, List.mem_append,
        List.mem_singleton] at hmem
      rcases hmem with hmem | rfl
      · exact hdisj k' (by simp [hk']) hmem
      · exact hnd.1 hk'

theorem largestMagnitudes_spec (l : QMap (ℚ × ℚ)) :
    ∀ a b : ℚ,
      (a ≤ (largestMagnitudes l (a, b)).1 ∧
        (∀ e ∈ l, |e.2.1| ≤ (largestMagnitudes l (a, b)).1) ∧
        ((largestMagnitudes l (a, b)).1 = a ∨
          ∃ e ∈ l, |e.2.1| = (largestMagnitudes l (a, b)).1)) ∧
      (b ≤ (largestMagnitudes l (a, b)).2 ∧
        (∀ e ∈ l, |e.2.2| ≤ (largestMagnitudes l (a, b)).2) ∧
        ((largestMagnitudes l (a, b)).2 = b ∨
          ∃ e ∈ l, |e.2.2| = (largestMagnitudes l (a, b)).2)) := by
  induction l with
  | nil => intro a b; simp [largestMagnitudes]
  | cons e rest ih =>
    intro a b
    obtain ⟨k, p⟩ := e
    simp only [largestMagnitudes]
    have key : ∀ x y : ℚ, x ≤ (if x < y then y else x) ∧ y ≤ (if x < y then y else x) ∧
        ((if x < y then y else x) = x ∨ (if x < y then y else x) = y) := by
      intro x y
      split_ifs with h
      · exact ⟨le_of_lt h, le_refl _, Or.inr rfl⟩
      · exact ⟨le_refl _, not_lt.mp h, Or.inl rfl⟩
    obtain ⟨ka1, ka2, ka3⟩ := key a |p.1|
    obtain ⟨kb1, kb2, kb3⟩ := key b |p.2|
    generalize (if a < |p.1| then |p.1| else a) = a' at ka1 ka2 ka3 ⊢
    generalize (if b < |p.2| then |p.2| else b) = b' at kb1 kb2 kb3 ⊢
    obtain ⟨⟨h1, h2, h3⟩, ⟨h4, h5, h6⟩⟩ := ih a' b'
    refine ⟨⟨le_trans ka1 h1, ?_, ?_⟩, ⟨le_trans kb1 h4, ?_, ?_⟩⟩
    · intro e he
      rcases List.mem_cons.mp he with rfl | he
      · exact le_trans ka2 h1
      · exact h2 e he
    · rcases h3 with h3 | ⟨e, he, h3⟩
      · rcases ka3 with ka3 | ka3
        · left; rw [h3, ka3]
        · right
          exact ⟨(k, p), List.mem_cons_self _ _, by rw [h3, ka3]⟩
      · right
        exact ⟨e, List.mem_cons_of_mem _ he, h3⟩
    · intro e he
      rcases List.mem_cons.mp he with rfl | he
      · exact le_trans kb2 h4
      · exact h5 e he
    · rcases h6 with h6 | ⟨e, he, h6⟩
      · rcases kb3 with kb3 | kb3
        · left; rw [h6, kb3]
        · right
          exact ⟨(k, p), List.mem_cons_self _ _, by rw [h6, kb3]⟩
      · right
        exact ⟨e, List.mem_cons_of_mem _ he, h6⟩

/-- A successful run of the third loop appends the divided pairs, all within `[-1, 1]`,
and the divisors were not zero unless the loop had nothing to do. -/
theorem normalizeContributions_ok (F T : ℚ) (l : QMap (ℚ × ℚ)) :
    ∀ acc r : QMap (ℚ × ℚ), normalizeContributions F T l acc = Except.ok r →
      (l.map Prod.fst).Nodup → (∀ k ∈ l.map Prod.fst, k ∉ acc.map Prod.fst) →
      r = acc ++ l.map (fun e => (e.1, (e.2.1 / F, e.2.2 / T))) ∧
      ∀ e ∈ l, F ≠ 0 ∧ T ≠ 0 ∧ (-1 ≤ e.2.1 / F ∧ e.2.1 / F ≤ 1) ∧
        (-1 ≤ e.2.2 / T ∧ e.2.2 / T ≤ 1) := by
  induction l with
  | nil =>
    intro acc r hrun _ _
    simp only [normalizeContributions, Except.ok.injEq] at hrun
    simp [hrun]
  | cons e rest ih =>
    intro acc r hrun hnd hdisj
    obtain ⟨k, p⟩ := e
    simp only [List.map_cons, List.nodup_cons] at hnd
    have hk : k ∉ acc.map Prod.fst := hdisj k (by simp)
    simp only [normalizeContributions, divide] at hrun
    by_cases hF : F = 0
    · simp [hF] at hrun
    by_cases hT : T = 0
    · simp [hF, hT] at hrun
    simp only [if_neg hF, if_neg hT] at hrun
    by_cases c1 : -1 ≤ p.1 / F
    swap
    · simp [c1] at hrun
    by_cases c2 : -1 ≤ p.2 / T
    swap
    · simp [c1, c2] at hrun
    by_cases c3 : p.1 / F ≤ 1
    swap
    · simp [c1, c2, c3] at hrun
    by_cases c4 : p.2 / T ≤ 1
    swap
    · simp [c1, c2, c3, c4] at hrun
    simp only [c1, c2, c3, c4, not_true_eq_false, if_false,
      QMap.insert_of_not_mem acc k _ hk] at hrun
    obtain ⟨hr, hb⟩ := ih _ r hrun hnd.2 (by
      intro k' hk' hmem
      simp only [List.map_append, List.map_cons, List.map_nil, List.mem_append,
        List.mem_singleton] at hmem
      rcases hmem with hmem | rfl
      · exact hdisj k' (by simp [hk']) hmem
      · exact hnd.1 hk')
    refine ⟨by rw [hr]; simp, ?_⟩
    intro e he
    rcases List.mem_cons.mp he with rfl | he
    · exact ⟨hF, hT, ⟨c1, c3⟩, ⟨c2, c4⟩⟩
    · exact hb e he

/-- The third loop succeeds when the divisors are not zero and bound the magnitudes. -/
theorem normalizeContributions_of_bounded (F T : ℚ) (hF : 0 < F) (hT : 0 < T)
    (l : QMap (ℚ × ℚ)) :
    ∀ acc : QMap (ℚ × ℚ), (∀ e ∈ l, |e.2.1| ≤ F ∧ |e.2.2| ≤ T) →
      (l.map Prod.fst).Nodup → (∀ k ∈ l.map Prod.fst, k ∉ acc.map Prod.fst) →
      normalizeContributions F T l acc =
        Except.ok (acc ++ l.map (fun e => (e.1, (e.2.1 / F, e.2.2 / T)))) := by
  induction l with
  | nil => intro acc _ _ _; simp [normalizeContributions]
  | cons e rest ih =>
    intro acc hb hnd hdisj
    obtain ⟨k, p⟩ := e
    simp only [List.map_cons, List.nodup_cons] at hnd
    have hk : k ∉ acc.map Prod.fst := hdisj k (by simp)
    obtain ⟨b1, b2⟩ := hb (k, p) (List.mem_cons_self _ _)
    simp only at b1 b2
    have c1 : -1 ≤ p.1 / F := by
      rw [le_div_iff₀ hF]; linarith [(abs_le.mp b1).1]
    have c3 : p.1 / F ≤ 1 := by
      rw [div_le_iff₀ hF]; linarith [(abs_le.mp b1).2]
    have c2 : -1 ≤ p.2 / T := by
      rw [le_div_iff₀ hT]; linarith [(abs_le.mp b2).1]
    have c4 : p.2 / T ≤ 1 := by
      rw [div_le_iff₀ hT]; linarith [(abs_le.mp b2).2]
    simp only [normalizeContributions, divide, if_neg (ne_of_gt hF), if_neg (ne_of_gt hT),
      c1, c2, c3, c4, not_true_eq_false, if_false, QMap.insert_of_not_mem acc k _ hk]
    rw [ih _ (fun e he => hb e (List.mem_cons_of_mem _ he)) hnd.2]
    · simp
    · intro k' hk' hmem
      simp only [List.map_append, List.map_cons, List.map_nil, List.mem_append,
        List.mem_singleton] at hmem
      rcases hmem with hmem | rfl
      · exact hdisj k' (by simp [hk']) hmem
      · exact hnd.1 hk'

/-- The loop that fills `wheelSpeeds` appends one target per wheel when every wheel has a
cached adjustment factor. -/
theorem movementSpeeds_eq (factors : QMap (ℚ × ℚ)) (fraction nf nt : ℚ)
    (wheels : QMap Wheel) :
    ∀ acc : QMap ℚ, (∀ k ∈ wheels.map Prod.fst, k ∈ factors.map Prod.fst) →
      (wheels.map Prod.fst).Nodup → (∀ k ∈ wheels.map Prod.fst, k ∉ acc.map Prod.fst) →
      ∃ speeds, movementSpeeds factors fraction nf nt wheels acc = Except.ok (acc ++ speeds) ∧
        speeds.map Prod.fst = wheels.map Prod.fst ∧
        ∀ name wheel, QMap.value? wheels name = some wheel →
          ∃ adj, QMap.value? factors name = some adj ∧
            QMap.value? speeds name =
              some (wheelTarget wheel.maximumSpeed fraction nf nt adj) := by
  induction wheels with
  | nil =>
    intro acc _ _ _
    exact ⟨[], by simp [movementSpeeds], rfl, by simp [QMap.value?]⟩
  | cons e rest ih =>
    intro acc hcov hnd hdisj
    obtain ⟨k, w⟩ := e
    simp only [List.map_cons, List.nodup_cons] at hnd
    have hk : k ∉ acc.map Prod.fst := hdisj k (by simp)
    have hkf : QMap.contains factors k = true :=
      (QMap.contains_iff_mem_keys factors k).mpr (hcov k (by simp))
    obtain ⟨adj, hadj⟩ := Option.isSome_iff_exists.mp hkf
    obtain ⟨speeds, hrun, hkeys, hval⟩ := ih
      (acc ++ [(k, wheelTarget w.maximumSpeed fraction nf nt adj)])
      (fun k' hk' => hcov k' (by simp [hk'])) hnd.2 (by
        intro k' hk' hmem
        simp only [List.map_append, List.map_cons, List.map_nil, List.mem_append,
          List.mem_singleton] at hmem
        rcases hmem with hmem | rfl
        · exact hdisj k' (by simp [hk']) hmem
        · exact hnd.1 hk')
    refine ⟨(k, wheelTarget w.maximumSpeed fraction nf nt adj) :: speeds, ?_, ?_, ?_⟩
    · simp only [movementSpeeds, hadj, QMap.insert_of_not_mem acc k _ hk, hrun]
      simp
    · simp [hkeys]
    · intro name wheel hw
      simp only [QMap.value?] at hw ⊢
      by_cases hkn : k = name
      · subst hkn
        simp only [if_true, Option.some.injEq] at hw ⊢
        subst hw
        exact ⟨adj, hadj, rfl⟩
      · simp only [if_neg hkn] at hw ⊢
        exact hval name wheel hw

/-- Applying a map of speeds whose keys are wheel names sets the speed of exactly the
wheels named, keeps the wheel names and trips no assertion. -/
theorem applyWheelSpeeds_spec (speeds : QMap ℚ) :
    ∀ wheels : QMap Wheel, (speeds.map Prod.fst).Nodup →
      (∀ k ∈ speeds.map Prod.fst, k ∈ wheels.map Prod.fst) →
      ∃ wheels', applyWheelSpeeds wheels speeds = Except.ok wheels' ∧
        wheels'.map Prod.fst = wheels.map Prod.fst ∧
        ∀ name, QMap.value? wheels' name =
          (QMap.value? wheels name).map (fun wheel =>
            match QMap.value? speeds name with
            | some speed => wheel.setSpeed speed
            | none => wheel) := by
  induction speeds with
  | nil =>
    intro wheels _ _
    refine ⟨wheels, rfl, rfl, ?_⟩
    intro name
    cases QMap.value? wheels name <;> simp [QMap.value?]
  | cons e rest ih =>
    intro wheels hnd hcov
    obtain ⟨k, s⟩ := e
    simp only [List.map_cons, List.nodup_cons] at hnd
    have hk : QMap.contains wheels k = true :=
      (QMap.contains_iff_mem_keys wheels k).mpr (hcov k (by simp))
    obtain ⟨wheels', hrun, hkeys, hval⟩ :=
      ih (QMap.modify (fun wheel => wheel.setSpeed s) wheels k) hnd.2 (by
        intro k' hk'
        rw [QMap.keys_modify]
        exact hcov k' (by simp [hk']))
    refine ⟨wheels', ?_, ?_, ?_⟩
    · simp only [applyWheelSpeeds, hk, if_true]
      exact hrun
    · rw [hkeys, QMap.keys_modify]
    · intro name
      rw [hval name, QMap.value?_modify]
      by_cases hn : name = k
      · subst hn
        have hnone : QMap.value? rest name = none :=
          QMap.value?_eq_none_of_not_mem rest name hnd.1
        cases QMap.value? wheels name <;> simp [QMap.value?, hnone]
      · have hn' : ¬ k = name := fun h => hn h.symm
        simp only [if_neg hn, QMap.value?, if_neg hn']

theorem updateWheels_eq (wheelUpdate : Wheel → ℚ → WheelEffect × Wheel)
    (elapsed cosine sine : ℚ) (wheels : QMap Wheel) :
    ∀ a b c : ℚ,
      updateWheels wheelUpdate elapsed cosine sine wheels (a, b, c) =
        ((a + (wheels.map (fun e =>
              (wheelUpdate e.2 elapsed).1.forwardEffect * cosine +
                (wheelUpdate e.2 elapsed).1.sidewaysEffect * sine)).sum,
          b + (wheels.map (fun e =>
              (wheelUpdate e.2 elapsed).1.forwardEffect * sine -
                (wheelUpdate e.2 elapsed).1.sidewaysEffect * cosine)).sum,
          c + (wheels.map (fun e => (wheelUpdate e.2 elapsed).1.turnEffect)).sum),
         wheels.map (fun e => (e.1, (wheelUpdate e.2 elapsed).2))) := by
  induction wheels with
  | nil => intro a b c; simp [updateWheels]
  | cons e rest ih =>
    intro a b c
    obtain ⟨k, w⟩ := e
    simp only [updateWheels, ih, List.map_cons, List.sum_cons, Prod.mk.injEq, and_true]
    refine ⟨?_, ?_, ?_⟩ <;> ring

/-! ## Rounding to a `double` -/

theorem roundHalfEven_intCast (n : ℤ) : roundHalfEven (n : ℚ) = n := by
  simp [roundHalfEven]

theorem floor_le_roundHalfEven (x : ℚ) : ⌊x⌋ ≤ roundHalfEven x := by
  unfold roundHalfEven
  split_ifs <;> omega

theorem roundHalfEven_le_floor_succ (x : ℚ) : roundHalfEven x ≤ ⌊x⌋ + 1 := by
  unfold roundHalfEven
  split_ifs <;> omega

theorem roundHalfEven_mono {x y : ℚ} (h : x ≤ y) : roundHalfEven x ≤ roundHalfEven y := by
  have hf : ⌊x⌋ ≤ ⌊y⌋ := Int.floor_mono h
  rcases lt_or_eq_of_le hf with hlt | heq
  · calc roundHalfEven x ≤ ⌊x⌋ + 1 := roundHalfEven_le_floor_succ x
      _ ≤ ⌊y⌋ := hlt
      _ ≤ roundHalfEven y := floor_le_roundHalfEven y
  · unfold roundHalfEven
    rw [heq]
    have hxy : x - (⌊y⌋ : ℚ) ≤ y - (⌊y⌋ : ℚ) := by linarith
    split_ifs <;> first | omega | (exfalso; linarith)

theorem ulpExponent_eq {x : ℚ} {e : ℤ} (h1 : 2 ^ 52 * 2 ^ e ≤ x) (h2 : x < 2 ^ 53 * 2 ^ e) :
    ulpExponent x = e := by
  have hx : 0 < x := lt_of_lt_of_le (by positivity) h1
  have hlow : e + 52 ≤ Int.log 2 x := by
    rw [← Int.zpow_le_iff_le_log (by norm_num) hx]
    rw [zpow_add₀ (by norm_num)]
    push_cast
    linarith
  have hhigh : Int.log 2 x < e + 53 := by
    rw [← Int.lt_zpow_iff_log_lt (by norm_num) hx]
    rw [zpow_add₀ (by norm_num)]
    push_cast
    linarith
  unfold ulpExponent
  omega

theorem scaled_bounds {x : ℚ} (hx : 0 < x) :
    (2 : ℚ) ^ 52 ≤ x / 2 ^ ulpExponent x ∧ x / 2 ^ ulpExponent x < 2 ^ 53 := by
  have hpos : (0 : ℚ) < 2 ^ ulpExponent x := by positivity
  have h1 := Int.zpow_log_le_self (b := 2) (by norm_num) hx
  have h2 := Int.lt_zpow_succ_log_self (b := 2) (by norm_num) x
  have hL : Int.log 2 x = ulpExponent x + 52 := by unfold ulpExponent; omega
  rw [hL] at h1 h2
  rw [show ulpExponent x + 52 + 1 = ulpExponent x + 53 by ring] at h2
  rw [zpow_add₀ (by norm_num)] at h1 h2
  push_cast at h1 h2
  constructor
  · rw [le_div_iff₀ hpos]
    linarith
  · rw [div_lt_iff₀ hpos]
    linarith

theorem mantissa_bounds {x : ℚ} (hx : 0 < x) :
    (2 : ℤ) ^ 52 ≤ roundHalfEven (x / 2 ^ ulpExponent x) ∧
      roundHalfEven (x / 2 ^ ulpExponent x) ≤ (2 : ℤ) ^ 53 := by
  obtain ⟨h1, h2⟩ := scaled_bounds hx
  constructor
  · have h := roundHalfEven_mono (show (((2 : ℤ) ^ 52 : ℤ) : ℚ) ≤ x / 2 ^ ulpExponent x by
      push_cast; exact h1)
    rwa [roundHalfEven_intCast] at h
  · have h := roundHalfEven_mono (show x / 2 ^ ulpExponent x ≤ (((2 : ℤ) ^ 53 : ℤ) : ℚ) by
      push_cast; exact le_of_lt h2)
    rwa [roundHalfEven_intCast] at h

/-- A number with at most 53 significant bits is its own rounding. -/
theorem roundPositive_of_mantissa (m e : ℤ) (h1 : (2 : ℤ) ^ 52 ≤ m) (h2 : m ≤ (2 : ℤ) ^ 53) :
    roundPositive ((m : ℚ) * 2 ^ e) = (m : ℚ) * 2 ^ e := by
  have hpos : (0 : ℚ) < 2 ^ e := by positivity
  have h1q : (2 : ℚ) ^ 52 ≤ (m : ℚ) := by exact_mod_cast h1
  have h2q : (m : ℚ) ≤ (2 : ℚ) ^ 53 := by exact_mod_cast h2
  rcases lt_or_eq_of_le h2 with hlt | heq
  · have hltq : (m : ℚ) < (2 : ℚ) ^ 53 := by exact_mod_cast hlt
    have he : ulpExponent ((m : ℚ) * 2 ^ e) = e :=
      ulpExponent_eq (mul_le_mul_of_nonneg_right h1q (le_of_lt hpos))
        (mul_lt_mul_of_pos_right hltq hpos)
    unfold roundPositive
    rw [he, mul_div_assoc, div_self (ne_of_gt hpos), mul_one, roundHalfEven_intCast]
  · have hm : (m : ℚ) = (2 : ℚ) ^ 53 := by exact_mod_cast heq
    have hz : (m : ℚ) * 2 ^ e = (((2 : ℤ) ^ 52 : ℤ) : ℚ) * 2 ^ (e + 1) := by
      rw [hm, zpow_add₀ (by norm_num)]
      push_cast
      ring
    have hpos' : (0 : ℚ) < 2 ^ (e + 1) := by positivity
    have he : ulpExponent ((m : ℚ) * 2 ^ e) = e + 1 := by
      apply ulpExponent_eq
      · rw [hz]
        push_cast
        exact le_refl _
      · rw [hz]
        push_cast
        exact mul_lt_mul_of_pos_right (by norm_num) hpos'
    unfold roundPositive
    rw [he]
    nth_rewrite 1 [hz]
    rw [mul_div_assoc, div_self (ne_of_gt hpos'), mul_one, roundHalfEven_intCast, ← hz]

theorem roundPositive_zero : roundPositive 0 = 0 := by
  simp [roundPositive, roundHalfEven]

theorem roundPositive_pos {x : ℚ} (hx : 0 < x) : 0 < roundPositive x := by
  unfold roundPositive
  have hm := (mantissa_bounds hx).1
  have hmq : (0 : ℚ) < (roundHalfEven (x / 2 ^ ulpExponent x) : ℚ) := by
    have : (0 : ℤ) < roundHalfEven (x / 2 ^ ulpExponent x) := lt_of_lt_of_le (by norm_num) hm
    exact_mod_cast this
  positivity

theorem roundPositive_idem {x : ℚ} (hx : 0 ≤ x) :
    roundPositive (roundPositive x) = roundPositive x := by
  rcases eq_or_lt_of_le hx with h0 | hpos
  · rw [← h0, roundPositive_zero, roundPositive_zero]
  · obtain ⟨h1, h2⟩ := mantissa_bounds hpos
    exact roundPositive_of_mantissa _ _ h1 h2

theorem roundPositive_mono {x y : ℚ} (hx : 0 ≤ x) (h : x ≤ y) :
    roundPositive x ≤ roundPositive y := by
  rcases eq_or_lt_of_le hx with h0 | hpos
  · rw [← h0, roundPositive_zero]
    rcases eq_or_lt_of_le (le_trans hx h) with hy0 | hypos
    · rw [← hy0, roundPositive_zero]
    · exact le_of_lt (roundPositive_pos hypos)
  · have hypos : 0 < y := lt_of_lt_of_le hpos h
    have hlog : ulpExponent x ≤ ulpExponent y := by
      unfold ulpExponent
      have := Int.log_mono_right (b := 2) hpos h
      omega
    obtain ⟨_, hx2⟩ := mantissa_bounds hpos
    obtain ⟨hy1, _⟩ := mantissa_bounds hypos
    rcases eq_or_lt_of_le hlog with heq | hlt
    · unfold roundPositive
      rw [heq]
      have hp : (0 : ℚ) < 2 ^ ulpExponent y := by positivity
      have hm := roundHalfEven_mono (div_le_div_of_nonneg_right h (le_of_lt hp))
      have hmq : (roundHalfEven (x / 2 ^ ulpExponent y) : ℚ) ≤
          (roundHalfEven (y / 2 ^ ulpExponent y) : ℚ) := by exact_mod_cast hm
      exact mul_le_mul_of_nonneg_right hmq (le_of_lt hp)
    · unfold roundPositive
      have hx2q : (roundHalfEven (x / 2 ^ ulpExponent x) : ℚ) ≤ (2 : ℚ) ^ 53 := by
        exact_mod_cast hx2
      have hy1q : (2 : ℚ) ^ 52 ≤ (roundHalfEven (y / 2 ^ ulpExponent y) : ℚ) := by
        exact_mod_cast hy1
      have hpx : (0 : ℚ) < 2 ^ ulpExponent x := by positivity
      have hpy : (0 : ℚ) < 2 ^ ulpExponent y := by positivity
      have hstep : (2 : ℚ) ^ (ulpExponent x + 1) ≤ 2 ^ ulpExponent y :=
        zpow_le_zpow_right₀ (by norm_num) (by omega)
      rw [zpow_add₀ (by norm_num)] at hstep
      calc (roundHalfEven (x / 2 ^ ulpExponent x) : ℚ) * 2 ^ ulpExponent x
          ≤ 2 ^ 53 * 2 ^ ulpExponent x := mul_le_mul_of_nonneg_right hx2q (le_of_lt hpx)
        _ = 2 ^ 52 * (2 ^ ulpExponent x * 2 ^ (1 : ℤ)) := by norm_num; ring
        _ ≤ 2 ^ 52 * 2 ^ ulpExponent y := by
          apply mul_le_mul_of_nonneg_left hstep (by positivity)
        _ ≤ (roundHalfEven (y / 2 ^ ulpExponent y) : ℚ) * 2 ^ ulpExponent y :=
          mul_le_mul_of_nonneg_right hy1q (le_of_lt hpy)

theorem roundDouble_of_nonneg {q : ℚ} (hq : 0 ≤ q) : roundDouble q = roundPositive q := by
  unfold roundDouble
  rw [if_neg (not_lt.mpr hq)]

theorem roundDouble_zero : roundDouble 0 = 0 := by
  rw [roundDouble_of_nonneg (le_refl _), roundPositive_zero]

theorem roundDouble_neg (q : ℚ) : roundDouble (-q) = -roundDouble q := by
  rcases lt_trichotomy q 0 with h | h | h
  · have hn : ¬ (-q < 0) := by linarith
    unfold roundDouble
    rw [if_neg hn, if_pos h, neg_neg]
  · rw [h, neg_zero, roundDouble_zero, neg_zero]
  · have hn : -q < 0 := by linarith
    have hq : ¬ (q < 0) := by linarith
    unfold roundDouble
    rw [if_pos hn, if_neg hq, neg_neg]

theorem roundDouble_nonneg {q : ℚ} (hq : 0 ≤ q) : 0 ≤ roundDouble q := by
  rw [roundDouble_of_nonneg hq]
  rcases eq_or_lt_of_le hq with h0 | hpos
  · rw [← h0, roundPositive_zero]
  · exact le_of_lt (roundPositive_pos hpos)

/-- Rounding to a `double` keeps the order. -/
theorem roundDouble_mono {x y : ℚ} (h : x ≤ y) : roundDouble x ≤ roundDouble y := by
  rcases le_or_lt 0 x with hx | hx
  · rw [roundDouble_of_nonneg hx, roundDouble_of_nonneg (le_trans hx h)]
    exact roundPositive_mono hx h
  · rcases le_or_lt 0 y with hy | hy
    · have h1 : roundDouble x ≤ 0 := by
        have := roundDouble_nonneg (show 0 ≤ -x by linarith)
        rw [roundDouble_neg] at this
        linarith
      exact le_trans h1 (roundDouble_nonneg hy)
    · have h1 : roundDouble (-y) ≤ roundDouble (-x) := by
        rw [roundDouble_of_nonneg (show 0 ≤ -y by linarith),
          roundDouble_of_nonneg (show 0 ≤ -x by linarith)]
        exact roundPositive_mono (by linarith) (by linarith)
      rw [roundDouble_neg, roundDouble_neg] at h1
      linarith

/-- Rounding a `double` gives it back. -/
theorem roundDouble_idem (q : ℚ) : roundDouble (roundDouble q) = roundDouble q := by
  rcases le_or_lt 0 q with hq | hq
  · rw [roundDouble_of_nonneg (roundDouble_nonneg hq), roundDouble_of_nonneg hq]
    exact roundPositive_idem hq
  · have hq' : 0 ≤ -q := by linarith
    have h := roundPositive_idem hq'
    rw [← roundDouble_of_nonneg hq', ← roundDouble_of_nonneg (roundDouble_nonneg hq'),
      roundDouble_neg, roundDouble_neg] at h
    linarith

theorem roundDouble_one : roundDouble 1 = 1 := by
  have h := roundPositive_of_mantissa ((2 : ℤ) ^ 52) (-52) (le_refl _) (by norm_num)
  have h1 : ((((2 : ℤ) ^ 52 : ℤ) : ℚ)) * 2 ^ (-52 : ℤ) = 1 := by norm_num
  rw [h1] at h
  rw [roundDouble_of_nonneg (by norm_num), h]

theorem roundDouble_abs (q : ℚ) : roundDouble |q| = |roundDouble q| := by
  rcases le_or_lt 0 q with hq | hq
  · rw [abs_of_nonneg hq, abs_of_nonneg (roundDouble_nonneg hq)]
  · have hq' : 0 ≤ -q := by linarith
    have hn := roundDouble_nonneg hq'
    rw [roundDouble_neg] at hn
    rw [abs_of_neg hq, roundDouble_neg, abs_of_nonpos (by linarith)]

/-- A bound that is a `double` survives the rounding of what it bounds. -/
theorem abs_roundDouble_le {x bound : ℚ} (hb : roundDouble bound = bound) (h : |x| ≤ bound) :
    |roundDouble x| ≤ bound := by
  rw [← roundDouble_abs, ← hb]
  exact roundDouble_mono h

/-- The rounding at sample values: `0.1` is stored as `3602879701896397 / 2 ^ 55`, a tie
(`1 + 2 ^ (-53)`, `1 + 3 * 2 ^ (-53)`) goes to the neighbour with the even last bit, the
sign is kept, and `7.81 + 1.0` is not the `double` of `8.81`. -/
theorem roundDouble_samples :
    roundDouble (1 / 10) = 3602879701896397 / 36028797018963968 ∧
    roundDouble (9007199254740993 / 9007199254740992) = 1 ∧
    roundDouble (9007199254740995 / 9007199254740992) =
      4503599627370498 / 4503599627370496 ∧
    roundDouble (-(9007199254740993 / 9007199254740992)) = -1 ∧
    roundDouble (roundDouble (781 / 100) + 1) ≠ roundDouble (881 / 100) := by
  refine ⟨by decide!, by decide!, by decide!, by decide!, by decide!⟩

/-! ## Mouse: normalisation and the cached factors -/

/-- What the normalisation returns when it passes its two assertions: the rounded
quotients, whose rounded sum of magnitudes is at most 1. -/
theorem normalizeFactors_ok {forwardFactor turnFactor : ℚ} {normalized : ℚ × ℚ}
    (h : normalizeFactors forwardFactor turnFactor = Except.ok normalized) :
    normalized.1 = roundDouble (forwardFactor / roundDouble (|forwardFactor| + |turnFactor|)) ∧
      normalized.2 =
        roundDouble (turnFactor / roundDouble (|forwardFactor| + |turnFactor|)) ∧
      roundDouble (|normalized.1| + |normalized.2|) ≤ 1 := by
  unfold normalizeFactors divide at h
  simp only at h
  by_cases hz : roundDouble (|forwardFactor| + |turnFactor|) = 0
  · simp [hz] at h
  · simp only [hz, if_false] at h
    split_ifs at h with h1 h2
    cases h
    exact ⟨rfl, rfl, h2⟩

theorem normalizeFactors_zero :
    normalizeFactors 0 0 = Except.error MouseFault.divisionByZero := by
  unfold normalizeFactors
  simp only [abs_zero, add_zero, roundDouble_zero, divide, if_true]

/-- The pair `(1, 0)` of the move-forward command passes the normalisation unchanged. -/
theorem normalizeFactors_forward : normalizeFactors 1 0 = Except.ok (1, 0) := by
  unfold normalizeFactors
  simp only [abs_one, abs_zero, add_zero, roundDouble_one, divide, one_ne_zero, if_false,
    div_one, zero_div, roundDouble_zero]
  rw [if_neg (by norm_num), if_neg (by norm_num)]

/-- The target of a wheel for the normalized pair `(1, 0)`. -/
theorem wheelTarget_forward (maximumSpeed fraction : ℚ) (adj : ℚ × ℚ) :
    wheelTarget maximumSpeed fraction 1 0 adj =
      roundDouble (roundDouble (maximumSpeed * fraction) * roundDouble adj.1) := by
  simp only [wheelTarget, one_mul, zero_mul, roundDouble_zero, add_zero, roundDouble_idem]

/-- A target stays within the maximum speed when the fraction and the cached factors have
magnitude at most 1 and the normalized factors passed their assertion. -/
theorem abs_wheelTarget_le {maximumSpeed fraction nf nt : ℚ} {adj : ℚ × ℚ}
    (hmax : roundDouble maximumSpeed = maximumSpeed) (hf : |fraction| ≤ 1)
    (hnf : roundDouble nf = nf) (hnt : roundDouble nt = nt)
    (hsum : roundDouble (|nf| + |nt|) ≤ 1) (h1 : |adj.1| ≤ 1) (h2 : |adj.2| ≤ 1) :
    |wheelTarget maximumSpeed fraction nf nt adj| ≤ |maximumSpeed| := by
  have hmax' : roundDouble |maximumSpeed| = |maximumSpeed| := by
    rw [roundDouble_abs, hmax]
  have hnf' : roundDouble |nf| = |nf| := by rw [roundDouble_abs, hnf]
  have hnt' : roundDouble |nt| = |nt| := by rw [roundDouble_abs, hnt]
  have hp1 : |roundDouble (nf * adj.1)| ≤ |nf| := by
    apply abs_roundDouble_le hnf'
    rw [abs_mul]
    calc |nf| * |adj.1| ≤ |nf| * 1 := mul_le_mul_of_nonneg_left h1 (abs_nonneg _)
      _ = |nf| := mul_one _
  have hp2 : |roundDouble (nt * adj.2)| ≤ |nt| := by
    apply abs_roundDouble_le hnt'
    rw [abs_mul]
    calc |nt| * |adj.2| ≤ |nt| * 1 := mul_le_mul_of_nonneg_left h2 (abs_nonneg _)
      _ = |nt| := mul_one _
  have hs : |roundDouble (roundDouble (nf * adj.1) + roundDouble (nt * adj.2))| ≤ 1 := by
    rw [← roundDouble_abs]
    refine le_trans (roundDouble_mono ?_) hsum
    exact le_trans (abs_add _ _) (add_le_add hp1 hp2)
  have hm : |roundDouble (maximumSpeed * fraction)| ≤ |maximumSpeed| := by
    apply abs_roundDouble_le hmax'
    rw [abs_mul]
    calc |maximumSpeed| * |fraction| ≤ |maximumSpeed| * 1 :=
        mul_le_mul_of_nonneg_left hf (abs_nonneg _)
      _ = |maximumSpeed| := mul_one _
  unfold wheelTarget
  apply abs_roundDouble_le hmax'
  rw [abs_mul]
  calc |roundDouble (maximumSpeed * fraction)| *
        |roundDouble (roundDouble (nf * adj.1) + roundDouble (nt * adj.2))|
      ≤ |maximumSpeed| * 1 := mul_le_mul hm hs (abs_nonneg _) (abs_nonneg _)
    _ = |maximumSpeed| := mul_one _

/-- What a valid cache holds: one pair per wheel, the wheel's maximum forward and turn
effects divided by the largest magnitudes, each within `[-1, 1]`. -/
theorem cache_of_ok {wheels : QMap Wheel} {factors : QMap (ℚ × ℚ)} (hwf : QMap.WF wheels)
    (hrun : getWheelSpeedAdjustmentFactors wheels = Except.ok factors) :
    factors = wheels.map (fun e =>
        (e.1, (e.2.maximumEffect.forwardEffect /
            (largestMagnitudes (ratesOfChange wheels []) (0, 0)).1,
          e.2.maximumEffect.turnEffect /
            (largestMagnitudes (ratesOfChange wheels []) (0, 0)).2))) ∧
      ∀ name adj, QMap.value? factors name = some adj →
        (-1 ≤ adj.1 ∧ adj.1 ≤ 1) ∧ (-1 ≤ adj.2 ∧ adj.2 ≤ 1) := by
  have hrates := ratesOfChange_eq wheels [] hwf (by simp)
  simp only [List.nil_append] at hrates
  unfold getWheelSpeedAdjustmentFactors at hrun
  simp only at hrun
  have hnd : ((ratesOfChange wheels []).map Prod.fst).Nodup := by
    rw [hrates, List.map_map]
    exact hwf
  generalize (largestMagnitudes (ratesOfChange wheels []) (0, 0)).1 = F at hrun ⊢
  generalize (largestMagnitudes (ratesOfChange wheels []) (0, 0)).2 = T at hrun ⊢
  obtain ⟨heq, hb⟩ := normalizeContributions_ok F T _ [] factors hrun hnd (by simp)
  rw [hrates] at heq
  simp only [List.nil_append, List.map_map, Function.comp_def] at heq
  refine ⟨heq, ?_⟩
  intro name adj hval
  have hmem := QMap.mem_keys_of_value? factors name adj hval
  rw [heq] at hmem
  simp only [List.mem_map] at hmem
  obtain ⟨e, he, hea⟩ := hmem
  have he' : (e.1, (e.2.maximumEffect.forwardEffect, e.2.maximumEffect.turnEffect)) ∈
      ratesOfChange wheels [] := by
    rw [hrates]
    exact List.mem_map.mpr ⟨e, he, rfl⟩
  obtain ⟨_, _, b1, b2⟩ := hb _ he'
  cases hea
  exact ⟨b1, b2⟩

/-- The targets `Mouse::setWheelSpeedsForMovement` computes when the normalisation of the
factors passes, for a cache that has a pair for every wheel. -/
theorem movementTargets_of_normalized (mouse : Mouse)
    (fraction forwardFactor turnFactor : ℚ) (normalized : ℚ × ℚ)
    (hwf : QMap.WF mouse.wheels)
    (hcov : ∀ k ∈ mouse.wheels.map Prod.fst,
      k ∈ mouse.wheelSpeedAdjustmentFactors.map Prod.fst)
    (hnorm : normalizeFactors forwardFactor turnFactor = Except.ok normalized) :
    ∃ speeds, movementTargets mouse fraction forwardFactor turnFactor = Except.ok speeds ∧
      speeds.map Prod.fst = mouse.wheels.map Prod.fst ∧
      ∀ name wheel, QMap.value? mouse.wheels name = some wheel →
        ∃ adj, QMap.value? mouse.wheelSpeedAdjustmentFactors name = some adj ∧
          QMap.value? speeds name =
            some (wheelTarget wheel.maximumSpeed fraction normalized.1 normalized.2 adj) := by
  have hdisj : ∀ k ∈ mouse.wheels.map Prod.fst, k ∉ ([] : QMap ℚ).map Prod.fst := by
    intro k _ h
    simp at h
  obtain ⟨speeds, hrun, hkeys, hval⟩ :=
    movementSpeeds_eq mouse.wheelSpeedAdjustmentFactors fraction normalized.1 normalized.2
      mouse.wheels [] hcov hwf hdisj
  refine ⟨speeds, ?_, hkeys, hval⟩
  unfold movementTargets
  rw [hnorm]
  rw [List.nil_append] at hrun
  exact hrun

/-- Running `Mouse::setWheelSpeedsForMovement` sets every wheel to its target. -/
theorem setWheelSpeedsForMovement_of_normalized (mouse : Mouse)
    (fraction forwardFactor turnFactor : ℚ) (normalized : ℚ × ℚ)
    (hwf : QMap.WF mouse.wheels)
    (hcov : ∀ k ∈ mouse.wheels.map Prod.fst,
      k ∈ mouse.wheelSpeedAdjustmentFactors.map Prod.fst)
    (hnorm : normalizeFactors forwardFactor turnFactor = Except.ok normalized) :
    ∃ mouse', mouse.setWheelSpeedsForMovement fraction forwardFactor turnFactor =
        Except.ok mouse' ∧
      ∀ name wheel, QMap.value? mouse.wheels name = some wheel →
        ∃ adj, QMap.value? mouse.wheelSpeedAdjustmentFactors name = some adj ∧
          QMap.value? mouse'.wheels name =
            some (wheel.setSpeed
              (wheelTarget wheel.maximumSpeed fraction normalized.1 normalized.2 adj)) := by
  obtain ⟨speeds, htargets, hkeys, hval⟩ :=
    movementTargets_of_normalized mouse fraction forwardFactor turnFactor normalized hwf hcov
      hnorm
  obtain ⟨wheels', happly, _, hval'⟩ := applyWheelSpeeds_spec speeds mouse.wheels
    (by rw [hkeys]; exact hwf) (by rw [hkeys]; exact fun k hk => hk)
  refine ⟨{ mouse with wheels := wheels' }, ?_, ?_⟩
  · unfold Mouse.setWheelSpeedsForMovement
    rw [htargets]
    simp only [Mouse.setWheelSpeeds, happly]
  · intro name wheel hw
    obtain ⟨adj, hadj, hs⟩ := hval name wheel hw
    refine ⟨adj, hadj, ?_⟩
    simp only [hval' name, hw, hs, Option.map_some']

/-- A normalisation that trips an assertion stops `Mouse::setWheelSpeedsForMovement`. -/
theorem setWheelSpeedsForMovement_of_fault (mouse : Mouse)
    (fraction forwardFactor turnFactor : ℚ) (fault : MouseFault)
    (hnorm : normalizeFactors forwardFactor turnFactor = Except.error fault) :
    movementTargets mouse fraction forwardFactor turnFactor = Except.error fault ∧
      mouse.setWheelSpeedsForMovement fraction forwardFactor turnFactor =
        Except.error fault := by
  have h : movementTargets mouse fraction forwardFactor turnFactor = Except.error fault := by
    unfold movementTargets
    rw [hnorm]
  refine ⟨h, ?_⟩
  unfold Mouse.setWheelSpeedsForMovement
  rw [h]

/-! ## Mouse: the claims -/

/-- C4: while the crashed flag is set, `Mouse::update` returns without a fault and leaves
the whole state as it was, so the current translation, the current rotation and every
wheel (its encoder state included) are unchanged, whatever the elapsed duration. -/
theorem update_crashed_unchanged (wheelUpdate : Wheel → ℚ → WheelEffect × Wheel)
    (cos sin : ℚ → ℚ) (mouse : Mouse) (elapsed : ℚ) (hc : mouse.didCrash = true) :
    ∃ mouse', Mouse.update wheelUpdate cos sin mouse elapsed = UpdateOutcome.updated mouse' ∧
      mouse' = mouse ∧
      mouse'.currentTranslation = mouse.currentTranslation ∧
      mouse'.currentRotation = mouse.currentRotation ∧
      mouse'.wheels = mouse.wheels := by
  refine ⟨mouse, ?_, rfl, rfl, rfl, rfl⟩
  have hc' : mouse.crashed = true := hc
  simp [Mouse.update, hc']

/-- The statement of C4 at the crashed sample mouse, for an elapsed duration of `1/100`. -/
theorem update_crashed_unchanged_witness :
    sampleMouse.setCrashed.didCrash = true ∧
    ∃ mouse', Mouse.update sampleWheelUpdate sampleCos sampleSin sampleMouse.setCrashed
        (1 / 100) = UpdateOutcome.updated mouse' ∧
      mouse' = sampleMouse.setCrashed ∧
      mouse'.currentTranslation = sampleMouse.setCrashed.currentTranslation ∧
      mouse'.currentRotation = sampleMouse.setCrashed.currentRotation ∧
      mouse'.wheels = sampleMouse.setCrashed.wheels :=
  ⟨rfl, update_crashed_unchanged sampleWheelUpdate sampleCos sampleSin
    sampleMouse.setCrashed (1 / 100) rfl⟩

/-- C5, as stated, fails: on the sample mouse, whose wheels have maximum speed 10,
`setWheelSpeedsForMoveForward(2)` computes the target speed 20 for both wheels. -/
theorem command_targets_exceed_maximum :
    QMap.WF sampleMouse.wheels ∧ sampleMouse.CacheValid ∧
    (Command.moveForward 2).targets sampleCurveTurnFactors sampleMouse =
      Except.ok [("L", 20), ("R", 20)] ∧
    QMap.value? sampleMouse.wheels "L" = some sampleLeftWheel ∧
    ¬ |(20 : ℚ)| ≤ sampleLeftWheel.maximumSpeed := by
  refine ⟨by decide, ?_, by decide!, ?_, ?_⟩
  · unfold Mouse.CacheValid
    decide!
  · simp [sampleMouse, QMap.value?]
  · norm_num [sampleLeftWheel]

/-- C5, amended: for a mouse whose wheel names are distinct, whose cached adjustment
factors are the ones computed from its wheels and whose maximum wheel speeds are `double`
values, and for a command whose fraction of the maximum speed has magnitude at most 1:
when the command is the move-forward command, or the normalisation of its factor pair
passes the two range assertions, the command computes one target per wheel, of magnitude
at most that of the wheel's maximum angular speed. -/
theorem command_targets_bounded (getCurveTurnFactors : ℚ → ℚ × ℚ) (mouse : Mouse)
    (command : Command) (hwf : QMap.WF mouse.wheels) (hcache : mouse.CacheValid)
    (hdouble : ∀ e ∈ mouse.wheels, roundDouble e.2.maximumSpeed = e.2.maximumSpeed)
    (hfraction : |command.fraction| ≤ 1)
    (hpass : (∃ fraction, command = Command.moveForward fraction) ∨
      ∃ normalized, normalizeFactors (command.factors getCurveTurnFactors).1
        (command.factors getCurveTurnFactors).2 = Except.ok normalized) :
    ∃ speeds, command.targets getCurveTurnFactors mouse = Except.ok speeds ∧
      speeds.map Prod.fst = mouse.wheels.map Prod.fst ∧
      ∀ name wheel, QMap.value? mouse.wheels name = some wheel →
        ∃ speed, QMap.value? speeds name = some speed ∧
          |speed| ≤ |wheel.maximumSpeed| := by
  have hnorm : ∃ normalized, normalizeFactors (command.factors getCurveTurnFactors).1
      (command.factors getCurveTurnFactors).2 = Except.ok normalized := by
    rcases hpass with ⟨fraction, rfl⟩ | h
    · exact ⟨(1, 0), normalizeFactors_forward⟩
    · exact h
  obtain ⟨normalized, hnorm⟩ := hnorm
  obtain ⟨hfactors, hbound⟩ := cache_of_ok hwf hcache
  have hcov : ∀ k ∈ mouse.wheels.map Prod.fst,
      k ∈ mouse.wheelSpeedAdjustmentFactors.map Prod.fst := by
    intro k hk
    rw [hfactors, List.map_map]
    exact hk
  obtain ⟨speeds, hrun, hkeys, hval⟩ :=
    movementTargets_of_normalized mouse command.fraction _ _ normalized hwf hcov hnorm
  refine ⟨speeds, hrun, hkeys, ?_⟩
  intro name wheel hw
  obtain ⟨adj, hadj, hs⟩ := hval name wheel hw
  refine ⟨_, hs, ?_⟩
  obtain ⟨b1, b2⟩ := hbound name adj hadj
  obtain ⟨h1, h2, hsum⟩ := normalizeFactors_ok hnorm
  exact abs_wheelTarget_le
    (hdouble (name, wheel) (QMap.mem_keys_of_value? mouse.wheels name wheel hw)) hfraction
    (by rw [h1, roundDouble_idem]) (by rw [h2, roundDouble_idem]) hsum
    (abs_le.mpr b1) (abs_le.mpr b2)

/-- The amended statement of C5 at the sample mouse, for a left curve of radius 3 at half
of the maximum speed, whose factor pair `(3, 1)` is normalized to `(3/4, 1/4)`. -/
theorem command_targets_bounded_witness :
    (QMap.WF sampleMouse.wheels ∧ sampleMouse.CacheValid ∧
      (∀ e ∈ sampleMouse.wheels, roundDouble e.2.maximumSpeed = e.2.maximumSpeed) ∧
      |(Command.curveLeft (1 / 2) 3).fraction| ≤ 1 ∧
      normalizeFactors ((Command.curveLeft (1 / 2) 3).factors sampleCurveTurnFactors).1
        ((Command.curveLeft (1 / 2) 3).factors sampleCurveTurnFactors).2 =
          Except.ok (3 / 4, 1 / 4)) ∧
    ∃ speeds, (Command.curveLeft (1 / 2) 3).targets sampleCurveTurnFactors sampleMouse =
        Except.ok speeds ∧
      speeds.map Prod.fst = sampleMouse.wheels.map Prod.fst ∧
      ∀ name wheel, QMap.value? sampleMouse.wheels name = some wheel →
        ∃ speed, QMap.value? speeds name = some speed ∧
          |speed| ≤ |wheel.maximumSpeed| :=
  have hcache : sampleMouse.CacheValid := by
    unfold Mouse.CacheValid
    decide!
  have hfraction : |(Command.curveLeft (1 / 2) 3).fraction| ≤ 1 := by
    norm_num [Command.fraction, abs_le]
  have hnorm : normalizeFactors
      ((Command.curveLeft (1 / 2) 3).factors sampleCurveTurnFactors).1
      ((Command.curveLeft (1 / 2) 3).factors sampleCurveTurnFactors).2 =
        Except.ok (3 / 4, 1 / 4) := by decide!
  ⟨⟨by decide, hcache, by decide!, hfraction, hnorm⟩,
    command_targets_bounded sampleCurveTurnFactors sampleMouse (Command.curveLeft (1 / 2) 3)
      (by decide) hcache (by decide!) hfraction (Or.inr ⟨_, hnorm⟩)⟩

/-- C6: at the pair `(7.81, -1)`, which is not `(0, 0)`, the normalisation in
`Mouse::setWheelSpeedsForMovement` computes the sum of magnitudes `1 + 2 ^ (-52)` for its
normalized factors, and `ASSERT_LE(normalizedFactorMagnitude, 1.0)` stops the run. -/
theorem normalizeFactors_rounding_fault :
    (roundDouble (781 / 100), (-1 : ℚ)) ≠ (0, 0) ∧
    roundDouble (781 / 100) = 8793278272440893 / 1125899906842624 ∧
    roundDouble
      (|roundDouble (roundDouble (781 / 100) /
          roundDouble (|roundDouble (781 / 100)| + |(-1 : ℚ)|))| +
        |roundDouble ((-1 : ℚ) / roundDouble (|roundDouble (781 / 100)| + |(-1 : ℚ)|))|) =
      1 + 1 / 2 ^ 52 ∧
    normalizeFactors (roundDouble (781 / 100)) (-1) =
      Except.error MouseFault.assertion := by
  refine ⟨by decide!, by decide!, by decide!, by decide!⟩

/-- C7: on the sample mouse, for the fraction `1/2` and the pair `(7.81, -1)`, which is
not `(0, 0)`, `Mouse::setWheelSpeedsForMovement` stops at
`ASSERT_LE(normalizedFactorMagnitude, 1.0)`, the rounded sum of magnitudes being
`1 + 2 ^ (-52)`, and commands no wheel. -/
theorem setWheelSpeedsForMovement_rounding_fault :
    QMap.WF sampleMouse.wheels ∧ sampleMouse.CacheValid ∧
    (roundDouble (781 / 100), (-1 : ℚ)) ≠ (0, 0) ∧
    sampleMouse.setWheelSpeedsForMovement (1 / 2) (roundDouble (781 / 100)) (-1) =
      Except.error MouseFault.assertion ∧
    ¬ ∃ mouse', sampleMouse.setWheelSpeedsForMovement (1 / 2) (roundDouble (781 / 100))
      (-1) = Except.ok mouse' := by
  have hrun := (setWheelSpeedsForMovement_of_fault sampleMouse (1 / 2)
    (roundDouble (781 / 100)) (-1) MouseFault.assertion (by decide!)).2
  refine ⟨by decide, ?_, by decide!, hrun, ?_⟩
  · unfold Mouse.CacheValid
    decide!
  · rintro ⟨mouse', h⟩
    rw [hrun] at h
    cases h

/-- What `Mouse::setWheelSpeedsForMovement` commands when the normalisation of the factors
passes the two range assertions and returns `(nf, nt)`, the rounded quotients of the
factors by the rounded sum of their magnitudes: every wheel is given the speed
`maxSpeed * fraction * (nf * forwardAdj + nt * turnAdj)` as `double` arithmetic evaluates
it; `setWheelSpeedsForMoveForward` always returns and gives every wheel
`maxSpeed * fraction * forwardAdj`, evaluated likewise. -/
theorem setWheelSpeedsForMovement_commands (mouse : Mouse)
    (fraction forwardFactor turnFactor : ℚ) (normalized : ℚ × ℚ)
    (hwf : QMap.WF mouse.wheels)
    (hcov : ∀ name, QMap.contains mouse.wheels name = true →
      QMap.contains mouse.wheelSpeedAdjustmentFactors name = true)
    (hnorm : normalizeFactors forwardFactor turnFactor = Except.ok normalized) :
    normalized =
      (roundDouble (forwardFactor / roundDouble (|forwardFactor| + |turnFactor|)),
        roundDouble (turnFactor / roundDouble (|forwardFactor| + |turnFactor|))) ∧
    (∃ mouse', mouse.setWheelSpeedsForMovement fraction forwardFactor turnFactor =
        Except.ok mouse' ∧
      ∀ name wheel, QMap.value? mouse.wheels name = some wheel →
        ∃ adj, QMap.value? mouse.wheelSpeedAdjustmentFactors name = some adj ∧
          QMap.value? mouse'.wheels name =
            some (wheel.setSpeed (roundDouble (roundDouble (wheel.maximumSpeed * fraction) *
              roundDouble (roundDouble (normalized.1 * adj.1) +
                roundDouble (normalized.2 * adj.2)))))) ∧
    (∃ mouse', mouse.setWheelSpeedsForMoveForward fraction = Except.ok mouse' ∧
      ∀ name wheel, QMap.value? mouse.wheels name = some wheel →
        ∃ adj, QMap.value? mouse.wheelSpeedAdjustmentFactors name = some adj ∧
          QMap.value? mouse'.wheels name =
            some (wheel.setSpeed (roundDouble (roundDouble (wheel.maximumSpeed * fraction) *
              roundDouble adj.1)))) := by
  have hcov' : ∀ k ∈ mouse.wheels.map Prod.fst,
      k ∈ mouse.wheelSpeedAdjustmentFactors.map Prod.fst := by
    intro k hk
    exact (QMap.contains_iff_mem_keys _ k).mp
      (hcov k ((QMap.contains_iff_mem_keys _ k).mpr hk))
  obtain ⟨h1, h2, _⟩ := normalizeFactors_ok hnorm
  refine ⟨Prod.ext h1 h2,
    setWheelSpeedsForMovement_of_normalized mouse fraction forwardFactor turnFactor normalized
      hwf hcov' hnorm, ?_⟩
  obtain ⟨mouse', hrun, hval⟩ :=
    setWheelSpeedsForMovement_of_normalized mouse fraction 1 0 (1, 0) hwf hcov'
      normalizeFactors_forward
  refine ⟨mouse', hrun, ?_⟩
  intro name wheel hw
  obtain ⟨adj, hadj, hs⟩ := hval name wheel hw
  refine ⟨adj, hadj, ?_⟩
  rw [hs, wheelTarget_forward]

/-- C8: for wheels with distinct names among which one has a non-zero maximum forward
effect and one a non-zero maximum turn effect, `Mouse::getWheelSpeedAdjustmentFactors`
trips no assertion and gives every wheel the pair of its maximum forward effect divided
by the largest forward magnitude and its maximum turn effect divided by the largest turn
magnitude, both within `[-1, 1]`. -/
theorem getWheelSpeedAdjustmentFactors_spec (wheels : QMap Wheel) (hwf : QMap.WF wheels)
    (hforward : ∃ e ∈ wheels, e.2.maximumEffect.forwardEffect ≠ 0)
    (hturn : ∃ e ∈ wheels, e.2.maximumEffect.turnEffect ≠ 0) :
    ∃ factors maxForward maxTurn,
      getWheelSpeedAdjustmentFactors wheels = Except.ok factors ∧
      LargestMagnitude (wheels.map (fun e => e.2.maximumEffect.forwardEffect)) maxForward ∧
      LargestMagnitude (wheels.map (fun e => e.2.maximumEffect.turnEffect)) maxTurn ∧
      factors.map Prod.fst = wheels.map Prod.fst ∧
      ∀ name wheel, QMap.value? wheels name = some wheel →
        ∃ adj, QMap.value? factors name = some adj ∧
          adj = (wheel.maximumEffect.forwardEffect / maxForward,
            wheel.maximumEffect.turnEffect / maxTurn) ∧
          (-1 ≤ adj.1 ∧ adj.1 ≤ 1) ∧ (-1 ≤ adj.2 ∧ adj.2 ≤ 1) := by
  have hrates := ratesOfChange_eq wheels [] hwf (by simp)
  simp only [List.nil_append] at hrates
  have hnd : ((ratesOfChange wheels []).map Prod.fst).Nodup := by
    rw [hrates, List.map_map]
    exact hwf
  obtain ⟨⟨_, hF2, hF3⟩, ⟨_, hT2, hT3⟩⟩ :=
    largestMagnitudes_spec (ratesOfChange wheels []) 0 0
  have hmem : ∀ e ∈ wheels,
      (e.1, (e.2.maximumEffect.forwardEffect, e.2.maximumEffect.turnEffect)) ∈
        ratesOfChange wheels [] := by
    intro e he
    rw [hrates]
    exact List.mem_map.mpr ⟨e, he, rfl⟩
  have hFpos : 0 < (largestMagnitudes (ratesOfChange wheels []) (0, 0)).1 := by
    obtain ⟨e, he, hne⟩ := hforward
    have hle := hF2 (e.1, (e.2.maximumEffect.forwardEffect, e.2.maximumEffect.turnEffect))
      (hmem e he)
    simp only at hle
    have hpos : 0 < |e.2.maximumEffect.forwardEffect| := abs_pos.mpr hne
    exact lt_of_lt_of_le hpos hle
  have hTpos : 0 < (largestMagnitudes (ratesOfChange wheels []) (0, 0)).2 := by
    obtain ⟨e, he, hne⟩ := hturn
    have hle := hT2 (e.1, (e.2.maximumEffect.forwardEffect, e.2.maximumEffect.turnEffect))
      (hmem e he)
    simp only at hle
    have hpos : 0 < |e.2.maximumEffect.turnEffect| := abs_pos.mpr hne
    exact lt_of_lt_of_le hpos hle
  have hrun : getWheelSpeedAdjustmentFactors wheels = Except.ok
      ([] ++ (ratesOfChange wheels []).map (fun e =>
        (e.1, (e.2.1 / (largestMagnitudes (ratesOfChange wheels []) (0, 0)).1,
          e.2.2 / (largestMagnitudes (ratesOfChange wheels []) (0, 0)).2)))) :=
    normalizeContributions_of_bounded _ _ hFpos hTpos (ratesOfChange wheels []) []
      (fun e he => ⟨hF2 e he, hT2 e he⟩) hnd (by simp)
  obtain ⟨hfactors, hbound⟩ := cache_of_ok hwf hrun
  refine ⟨_, (largestMagnitudes (ratesOfChange wheels []) (0, 0)).1,
    (largestMagnitudes (ratesOfChange wheels []) (0, 0)).2, hrun, ?_, ?_, ?_, ?_⟩
  · constructor
    · rcases hF3 with h0 | ⟨e, he, hattain⟩
      · rw [h0] at hFpos
        exact absurd hFpos (lt_irrefl _)
      · rw [hrates] at he
        obtain ⟨e', he', rfl⟩ := List.mem_map.mp he
        exact ⟨_, List.mem_map.mpr ⟨e', he', rfl⟩, hattain⟩
    · intro v hv
      obtain ⟨e, he, rfl⟩ := List.mem_map.mp hv
      exact hF2 (e.1, (e.2.maximumEffect.forwardEffect, e.2.maximumEffect.turnEffect))
        (hmem e he)
  · constructor
    · rcases hT3 with h0 | ⟨e, he, hattain⟩
      · rw [h0] at hTpos
        exact absurd hTpos (lt_irrefl _)
      · rw [hrates] at he
        obtain ⟨e', he', rfl⟩ := List.mem_map.mp he
        exact ⟨_, List.mem_map.mpr ⟨e', he', rfl⟩, hattain⟩
    · intro v hv
      obtain ⟨e, he, rfl⟩ := List.mem_map.mp hv
      exact hT2 (e.1, (e.2.maximumEffect.forwardEffect, e.2.maximumEffect.turnEffect))
        (hmem e he)
  · rw [hfactors, List.map_map]
    rfl
  · intro name wheel hw
    have hval : QMap.value? ([] ++ (ratesOfChange wheels []).map (fun e =>
        (e.1, (e.2.1 / (largestMagnitudes (ratesOfChange wheels []) (0, 0)).1,
          e.2.2 / (largestMagnitudes (ratesOfChange wheels []) (0, 0)).2)))) name =
        some (wheel.maximumEffect.forwardEffect /
            (largestMagnitudes (ratesOfChange wheels []) (0, 0)).1,
          wheel.maximumEffect.turnEffect /
            (largestMagnitudes (ratesOfChange wheels []) (0, 0)).2) := by
      rw [hfactors]
      rw [QMap.value?_map (fun _ w =>
        (w.maximumEffect.forwardEffect / (largestMagnitudes (ratesOfChange wheels []) (0, 0)).1,
          w.maximumEffect.turnEffect / (largestMagnitudes (ratesOfChange wheels []) (0, 0)).2))
        wheels name, hw]
      rfl
    exact ⟨_, hval, rfl, hbound name _ hval⟩

/-- The statement of C8 at the two wheels of the sample mouse. -/
theorem getWheelSpeedAdjustmentFactors_spec_witness :
    (QMap.WF sampleMouse.wheels ∧
      (∃ e ∈ sampleMouse.wheels, e.2.maximumEffect.forwardEffect ≠ 0) ∧
      (∃ e ∈ sampleMouse.wheels, e.2.maximumEffect.turnEffect ≠ 0)) ∧
    ∃ factors maxForward maxTurn,
      getWheelSpeedAdjustmentFactors sampleMouse.wheels = Except.ok factors ∧
      LargestMagnitude
        (sampleMouse.wheels.map (fun e => e.2.maximumEffect.forwardEffect)) maxForward ∧
      LargestMagnitude
        (sampleMouse.wheels.map (fun e => e.2.maximumEffect.turnEffect)) maxTurn ∧
      factors.map Prod.fst = sampleMouse.wheels.map Prod.fst ∧
      ∀ name wheel, QMap.value? sampleMouse.wheels name = some wheel →
        ∃ adj, QMap.value? factors name = some adj ∧
          adj = (wheel.maximumEffect.forwardEffect / maxForward,
            wheel.maximumEffect.turnEffect / maxTurn) ∧
          (-1 ≤ adj.1 ∧ adj.1 ≤ 1) ∧ (-1 ≤ adj.2 ∧ adj.2 ≤ 1) :=
  have hforward : ∃ e ∈ sampleMouse.wheels, e.2.maximumEffect.forwardEffect ≠ 0 :=
    ⟨("L", sampleLeftWheel), by simp [sampleMouse], by norm_num [sampleLeftWheel]⟩
  have hturn : ∃ e ∈ sampleMouse.wheels, e.2.maximumEffect.turnEffect ≠ 0 :=
    ⟨("L", sampleLeftWheel), by simp [sampleMouse], by norm_num [sampleLeftWheel]⟩
  ⟨⟨by decide, hforward, hturn⟩,
    getWheelSpeedAdjustmentFactors_spec sampleMouse.wheels (by decide) hforward hturn⟩

/-- C9: for a mouse that has not crashed and has at least one wheel, `Mouse::update`
returns a mouse whose rotation has grown by the average turn effect times the elapsed
time and whose translation has grown by the elapsed time times the averages of
`forward * cos θ + sideways * sin θ` and of `forward * sin θ - sideways * cos θ`, the
effects being those the wheels report for the elapsed time and `θ` the rotation before
the update. -/
theorem update_integrates_pose (wheelUpdate : Wheel → ℚ → WheelEffect × Wheel)
    (cos sin : ℚ → ℚ) (mouse : Mouse) (elapsed : ℚ) (hc : mouse.didCrash = false)
    (hw : mouse.wheels ≠ []) :
    ∃ mouse', Mouse.update wheelUpdate cos sin mouse elapsed = UpdateOutcome.updated mouse' ∧
      mouse'.currentRotation = mouse.currentRotation +
        average (mouse.wheels.map (fun e => (wheelUpdate e.2 elapsed).1.turnEffect)) *
          elapsed ∧
      mouse'.currentTranslation =
        (mouse.currentTranslation.1 +
          average (mouse.wheels.map (fun e =>
            (wheelUpdate e.2 elapsed).1.forwardEffect * cos mouse.currentRotation +
              (wheelUpdate e.2 elapsed).1.sidewaysEffect * sin mouse.currentRotation)) *
            elapsed,
         mouse.currentTranslation.2 +
          average (mouse.wheels.map (fun e =>
            (wheelUpdate e.2 elapsed).1.forwardEffect * sin mouse.currentRotation -
              (wheelUpdate e.2 elapsed).1.sidewaysEffect * cos mouse.currentRotation)) *
            elapsed) := by
  have hc' : mouse.crashed = false := hc
  have hlen : mouse.wheels.length ≠ 0 := fun h => hw (List.length_eq_zero.mp h)
  simp only [Mouse.update, hc', Bool.false_eq_true, if_false, Mouse.getCurrentRotation,
    updateWheels_eq, List.length_map, if_neg hlen, zero_add, average]
  exact ⟨_, rfl, rfl, rfl⟩

/-- The statement of C9 at the sample mouse, for an elapsed duration of `1/100`. -/
theorem update_integrates_pose_witness :
    (sampleMouse.didCrash = false ∧ sampleMouse.wheels ≠ []) ∧
    ∃ mouse', Mouse.update sampleWheelUpdate sampleCos sampleSin sampleMouse (1 / 100) =
        UpdateOutcome.updated mouse' ∧
      mouse'.currentRotation = sampleMouse.currentRotation +
        average (sampleMouse.wheels.map
          (fun e => (sampleWheelUpdate e.2 (1 / 100)).1.turnEffect)) * (1 / 100) ∧
      mouse'.currentTranslation =
        (sampleMouse.currentTranslation.1 +
          average (sampleMouse.wheels.map (fun e =>
            (sampleWheelUpdate e.2 (1 / 100)).1.forwardEffect *
                sampleCos sampleMouse.currentRotation +
              (sampleWheelUpdate e.2 (1 / 100)).1.sidewaysEffect *
                sampleSin sampleMouse.currentRotation)) * (1 / 100),
         sampleMouse.currentTranslation.2 +
          average (sampleMouse.wheels.map (fun e =>
            (sampleWheelUpdate e.2 (1 / 100)).1.forwardEffect *
                sampleSin sampleMouse.currentRotation -
              (sampleWheelUpdate e.2 (1 / 100)).1.sidewaysEffect *
                sampleCos sampleMouse.currentRotation)) * (1 / 100)) :=
  ⟨⟨rfl, by simp [sampleMouse]⟩,
    update_integrates_pose sampleWheelUpdate sampleCos sampleSin sampleMouse (1 / 100) rfl
      (by simp [sampleMouse])⟩

/-- C10, as stated, fails: the mouse constructed on the sample grid heads NORTH (90
degrees); after `setStartingDirection(EAST)`, `reset` leaves the rotation at 0 degrees,
not at the initial rotation. -/
theorem reset_rotation_not_initial :
    Mouse.new sampleGrid 2 0 = Except.ok sampleNewMouse ∧
    (sampleNewMouse.setStartingDirection Direction.EAST).reset.currentRotation = 0 ∧
    (sampleNewMouse.setStartingDirection Direction.EAST).reset.initialRotation = 90 ∧
    (sampleNewMouse.setStartingDirection Direction.EAST).reset.currentRotation ≠
      sampleNewMouse.initialRotation := by
  refine ⟨?_, rfl, rfl, ?_⟩
  · have hdir : getOptimalStartingDirection sampleGrid = Except.ok Direction.NORTH := by
      decide
    simp only [Mouse.new, hdir, sampleNewMouse, sampleMouse, DIRECTION_TO_ANGLE]
    norm_num
  · simp [Mouse.reset, Mouse.teleport, Mouse.setStartingDirection, sampleNewMouse,
      sampleMouse, DIRECTION_TO_ANGLE]

/-- C10, amended: after `Mouse::reset`, whatever the state before, the current
translation is the initial translation, the crashed flag is false, and the current
rotation is the heading of the starting direction in force (the one chosen at
construction unless `setStartingDirection` replaced it); it is the initial rotation
whenever that heading still is. The initial pose itself is not touched. -/
theorem reset_restores_pose (mouse : Mouse) :
    mouse.reset.currentTranslation = mouse.initialTranslation ∧
    mouse.reset.didCrash = false ∧
    mouse.reset.currentRotation = DIRECTION_TO_ANGLE mouse.startingDirection ∧
    (DIRECTION_TO_ANGLE mouse.startingDirection = mouse.initialRotation →
      mouse.reset.currentRotation = mouse.initialRotation) ∧
    mouse.reset.initialTranslation = mouse.initialTranslation ∧
    mouse.reset.initialRotation = mouse.initialRotation ∧
    mouse.reset.startingDirection = mouse.startingDirection :=
  ⟨rfl, rfl, rfl, fun h => h, rfl, rfl, rfl⟩

/-! ## Maze: the run of the BFS on any grid -/

/-- The direction loop for a dequeued tile `p` that has a distance: it ends without a
fault, appends to the queue the tiles it writes, all different and all at `-1` before, and
changes no other distance. -/
theorem visitDirections_run {m0 : MazeGrid} {w h : Nat} (hl0 : Layout w h m0)
    {p : TilePtr} (hp : InGrid w h p) (ds : List Direction) :
    ∀ (m : MazeGrid) (q : List TilePtr), Frame m0 m → 0 ≤ distAt m p →
      ∃ new m', visitDirections w h p ds (m, q) = Except.ok (m', q ++ new) ∧
        Frame m0 m' ∧ new.Nodup ∧
        (∀ n ∈ new, InGrid w h n ∧ distAt m n = -1 ∧ 0 ≤ distAt m' n) ∧
        (∀ x, x ∉ new → distAt m' x = distAt m x) ∧
        (unreached w h m').card + new.length = (unreached w h m).card := by
  induction ds with
  | nil =>
    intro m q hf _
    exact ⟨[], m, by simp [visitDirections], hf, List.nodup_nil, by simp, by simp, by simp⟩
  | cons d ds ih =>
    intro m q hf hk
    have hl : Layout w h m := hl0.of_frame hf
    obtain ⟨t, ht, hcase⟩ := visitDirection_cases hl hp q d
    rcases hcase with ⟨hv, _⟩ | ⟨n, _, _, hnIn, hnd, hv⟩
    · obtain ⟨new, m', hrun, hf', hnodup, hnew, hsame, hcard⟩ := ih m q hf hk
      refine ⟨new, m', ?_, hf', hnodup, hnew, hsame, hcard⟩
      simp only [visitDirections, hv]
      exact hrun
    · have hns : (tileAt m n).isSome = true := (hl.some_iff n).mpr hnIn
      have hdist : t.distance = distAt m p := (distAt_of_some ht).symm
      rw [hdist] at hv
      have hpn : p ≠ n := by
        rintro rfl
        rw [hnd] at hk
        omega
      have hk1 : 0 ≤ distAt (setDistanceAt m n (distAt m p + 1)) p := by
        rw [distAt_setDistanceAt_ne m n p _ hpn]
        exact hk
      have hn1 : distAt (setDistanceAt m n (distAt m p + 1)) n = distAt m p + 1 := by
        rw [distAt_setDistanceAt m n n _ hns, if_pos rfl]
      obtain ⟨new, m', hrun, hf', hnodup, hnew, hsame, hcard⟩ :=
        ih (setDistanceAt m n (distAt m p + 1)) (q ++ [n]) (hf.setDistanceAt n _) hk1
      have hn_notin : n ∉ new := by
        intro hmem
        have := (hnew n hmem).2.1
        rw [hn1] at this
        omega
      have hcard1 := unreached_card_discover (d := distAt m p + 1) hnIn hns hnd (by omega)
      refine ⟨n :: new, m', ?_, hf', List.nodup_cons.mpr ⟨hn_notin, hnodup⟩, ?_, ?_, ?_⟩
      · simp only [visitDirections, hv]
        rw [hrun]
        simp
      · intro x hx
        rcases List.mem_cons.mp hx with rfl | hx'
        · refine ⟨hnIn, hnd, ?_⟩
          rw [hsame x hn_notin, hn1]
          omega
        · obtain ⟨h1, h2, h3⟩ := hnew x hx'
          refine ⟨h1, ?_, h3⟩
          have hxn : x ≠ n := by
            intro hxn
            rw [hxn] at hx'
            exact hn_notin hx'
          rw [distAt_setDistanceAt_ne m n x _ hxn] at h2
          exact h2
      · intro x hx
        simp only [List.mem_cons, not_or] at hx
        rw [hsame x hx.2, distAt_setDistanceAt_ne m n x _ hx.1]
      · rw [List.length_cons]
        omega

/-- The BFS loop started with a queue of tiles that have a distance: within a budget of
the queue length plus the number of tiles at `-1` it ends without a fault; the dequeue
record is the one before, the queue, and the tiles written since, all different and all
at `-1` before; no other distance has changed. -/
theorem bfsTrace_run {m0 : MazeGrid} {w h : Nat} (hl0 : Layout w h m0) :
    ∀ (fuel : Nat) (m : MazeGrid) (q done : List TilePtr), Frame m0 m →
      (∀ x ∈ q, InGrid w h x ∧ 0 ≤ distAt m x) →
      q.length + (unreached w h m).card ≤ fuel →
      ∃ rest m', bfsTrace w h fuel m q done = Except.ok (m', done ++ q ++ rest) ∧
        Frame m0 m' ∧ rest.Nodup ∧
        (∀ n ∈ rest, InGrid w h n ∧ distAt m n = -1 ∧ 0 ≤ distAt m' n) ∧
        (∀ x, x ∉ rest → distAt m' x = distAt m x) := by
  intro fuel
  induction fuel with
  | zero =>
    intro m q done hf _ hb
    cases q with
    | nil => exact ⟨[], m, by simp [bfsTrace], hf, List.nodup_nil, by simp, by simp⟩
    | cons p qs => simp at hb
  | succ fuel ih =>
    intro m q done hf hq hb
    cases q with
    | nil => exact ⟨[], m, by simp [bfsTrace], hf, List.nodup_nil, by simp, by simp⟩
    | cons p qs =>
      obtain ⟨hpIn, hpk⟩ := hq p (List.mem_cons_self _ _)
      obtain ⟨new, m1, hrun1, hf1, hnodup1, hnew1, hsame1, hcard1⟩ :=
        visitDirections_run hl0 hpIn DIRECTIONS m qs hf hpk
      have hq1 : ∀ x ∈ qs ++ new, InGrid w h x ∧ 0 ≤ distAt m1 x := by
        intro x hx
        rcases List.mem_append.mp hx with hx | hx
        · obtain ⟨hxIn, hxk⟩ := hq x (List.mem_cons_of_mem _ hx)
          refine ⟨hxIn, ?_⟩
          by_cases hxn : x ∈ new
          · exact (hnew1 x hxn).2.2
          · rw [hsame1 x hxn]
            exact hxk
        · exact ⟨(hnew1 x hx).1, (hnew1 x hx).2.2⟩
      have hb1 : (qs ++ new).length + (unreached w h m1).card ≤ fuel := by
        rw [List.length_append]
        simp only [List.length_cons] at hb
        omega
      obtain ⟨rest, m', hrun, hf', hnodup, hnew, hsame⟩ :=
        ih m1 (qs ++ new) (done ++ [p]) hf1 hq1 hb1
      have hdisj : ∀ x ∈ new, x ∉ rest := by
        intro x hx hxr
        have h1 := (hnew1 x hx).2.2
        have h2 := (hnew x hxr).2.1
        omega
      refine ⟨new ++ rest, m', ?_, hf', ?_, ?_, ?_⟩
      · simp only [bfsTrace, hrun1]
        rw [hrun]
        simp
      · exact List.nodup_append.mpr ⟨hnodup1, hnodup, fun x hx hxr => hdisj x hx hxr⟩
      · intro x hx
        rcases List.mem_append.mp hx with hx | hx
        · refine ⟨(hnew1 x hx).1, (hnew1 x hx).2.1, ?_⟩
          rw [hsame x (hdisj x hx)]
          exact (hnew1 x hx).2.2
        · obtain ⟨h1, h2, h3⟩ := hnew x hx
          refine ⟨h1, ?_, h3⟩
          have hxn : x ∉ new := by
            intro hxn
            have := (hnew1 x hxn).2.2
            omega
          rw [← hsame1 x hxn]
          exact h2
      · intro x hx
        simp only [List.mem_append, not_or] at hx
        rw [hsame x hx.2, hsame1 x hx.1]

theorem bfsLoop_eq_bfsTrace (w h : Nat) :
    ∀ (fuel : Nat) (m : MazeGrid) (q done : List TilePtr),
      bfsLoop w h fuel m q = (bfsTrace w h fuel m q done).map Prod.fst := by
  intro fuel
  induction fuel with
  | zero =>
    intro m q done
    cases q <;> rfl
  | succ fuel ih =>
    intro m q done
    cases q with
    | nil => rfl
    | cons p qs =>
      simp only [bfsLoop, bfsTrace]
      cases hv : visitDirections w h p DIRECTIONS (m, qs) with
      | error e => rfl
      | ok st => exact ih st.1 st.2 (done ++ [p])

theorem setTileDistances_eq_trace (maze : MazeGrid) :
    setTileDistances maze = (setTileDistancesTrace maze).map Prod.fst := by
  cases maze with
  | nil => rfl
  | cons column rest =>
    simp only [setTileDistances, setTileDistancesTrace]
    cases htake : takePtrs (column :: rest)
        (centerIndices (column :: rest).length column.length) with
    | error e => rfl
    | ok centers => exact bfsLoop_eq_bfsTrace _ _ _ _ _ []

/-- Seeding leaves at most as many tiles at `-1` as the grid has tiles that are not
seeded. -/
theorem unreached_card_seeded_le {w h : Nat} {m0 : MazeGrid} (hl0 : Layout w h m0)
    {cs : List TilePtr} (hnd : cs.Nodup) (hcs : ∀ c ∈ cs, InGrid w h c) :
    cs.length + (unreached w h (seedCenters m0 cs)).card ≤ w * h := by
  have hD := distAt_seedCenters hl0 cs m0 (Frame.refl m0) hcs
  have hdisj : Disjoint cs.toFinset (unreached w h (seedCenters m0 cs)) := by
    rw [Finset.disjoint_left]
    intro x hx hxu
    simp only [unreached, Finset.mem_filter] at hxu
    rw [hD x, if_pos (List.mem_toFinset.mp hx)] at hxu
    omega
  have hsub : cs.toFinset ∪ unreached w h (seedCenters m0 cs) ⊆
      Finset.range w ×ˢ Finset.range h := by
    intro x hx
    rcases Finset.mem_union.mp hx with hx | hx
    · have := hcs x (List.mem_toFinset.mp hx)
      simp only [Finset.mem_product, Finset.mem_range]
      exact this
    · simp only [unreached, Finset.mem_filter] at hx
      exact hx.1
  have hcard := Finset.card_le_card hsub
  rw [Finset.card_union_of_disjoint hdisj, List.toFinset_card_of_nodup hnd] at hcard
  simpa using hcard

/-- On a non-empty rectangular grid of positioned tiles, whatever their distances,
`Maze::setTileDistances` ends without a fault; the dequeue record is the list of centers
followed by the tiles written by the BFS, all different and all at `-1` after seeding. -/
theorem setTileDistancesTrace_run {maze : MazeGrid} (hne : NonEmpty maze)
    (hr : Rectangular maze) (hp : Positioned maze) :
    ∃ rest result, setTileDistancesTrace maze =
        Except.ok (result, centerIndices (getWidth maze) (getHeight maze) ++ rest) ∧
      Frame maze result ∧ rest.Nodup ∧
      (∀ n ∈ rest, InGrid (getWidth maze) (getHeight maze) n ∧
        distAt (seedCenters maze (centerIndices (getWidth maze) (getHeight maze))) n = -1 ∧
        0 ≤ distAt result n) ∧
      (∀ x, x ∉ rest → distAt result x =
        distAt (seedCenters maze (centerIndices (getWidth maze) (getHeight maze))) x) := by
  have hl0 := Layout.of_maze hr hp
  have hcs := centerIndices_inGrid hne.1 hne.2
  have hnd := centerIndices_nodup hne.1 hne.2
  have hD := distAt_seedCenters hl0 _ maze (Frame.refl maze) hcs
  obtain ⟨rest, result, hrun, hf, hnodup, hnew, hsame⟩ :=
    bfsTrace_run hl0 (getWidth maze * getHeight maze)
      (seedCenters maze (centerIndices (getWidth maze) (getHeight maze)))
      (centerIndices (getWidth maze) (getHeight maze)) []
      (Frame.seedCenters _ maze (Frame.refl maze))
      (fun x hx => ⟨hcs x hx, by rw [hD x, if_pos hx]⟩)
      (unreached_card_seeded_le hl0 hnd hcs)
  refine ⟨rest, result, ?_, hf, hnodup, hnew, hsame⟩
  cases maze with
  | nil => simp [NonEmpty, getWidth] at hne
  | cons column more =>
    have htake := takePtrs_inGrid hl0 _ hcs
    simp only [getWidth, getHeight] at htake hrun
    simp only [setTileDistancesTrace, htake, getWidth, getHeight]
    rw [hrun]
    simp

/-! ## Maze: the maximum distance -/

theorem getTile_inGrid {m : MazeGrid} (hl : Layout (getWidth m) (getHeight m) m) {x y : Nat}
    (hin : InGrid (getWidth m) (getHeight m) (x, y)) :
    ∃ t, tileAt m (x, y) = some t ∧ getTile m (x : Int) (y : Int) = Except.ok t := by
  obtain ⟨t, ht⟩ := Option.isSome_iff_exists.mp ((hl.some_iff (x, y)).mpr hin)
  refine ⟨t, ht, ?_⟩
  have h1 : x < getWidth m := hin.1
  have h2 : y < getHeight m := hin.2
  simp [getTile, withinMaze, h1, h2, ht]

theorem maximumDistanceColumn_spec {m : MazeGrid}
    (hl : Layout (getWidth m) (getHeight m) m) {x : Nat} (hx : x < getWidth m)
    (ys : List Nat) :
    (∀ y ∈ ys, y < getHeight m) → ∀ max : Int,
      ∃ r, maximumDistanceColumn m x ys max = Except.ok r ∧ max ≤ r ∧
        (∀ y ∈ ys, distAt m (x, y) ≤ r) ∧ (r = max ∨ ∃ y ∈ ys, distAt m (x, y) = r) := by
  induction ys with
  | nil =>
    intro _ max
    exact ⟨max, rfl, le_refl _, by simp, Or.inl rfl⟩
  | cons y ys ih =>
    intro hys max
    have hy : y < getHeight m := hys y (List.mem_cons_self _ _)
    obtain ⟨t, ht, hget⟩ := getTile_inGrid hl (x := x) (y := y) ⟨hx, hy⟩
    have hd : distAt m (x, y) = t.distance := distAt_of_some ht
    by_cases hlt : max < t.distance
    · obtain ⟨r, hrun, h1, h2, h3⟩ :=
        ih (fun y' hy' => hys y' (List.mem_cons_of_mem _ hy')) t.distance
      refine ⟨r, ?_, by omega, ?_, ?_⟩
      · simp only [maximumDistanceColumn, hget, if_pos hlt]
        exact hrun
      · intro y' hy'
        rcases List.mem_cons.mp hy' with rfl | hy'
        · rw [hd]; exact h1
        · exact h2 y' hy'
      · rcases h3 with h3 | ⟨y', hy', h3⟩
        · right
          exact ⟨y, List.mem_cons_self _ _, by rw [hd, h3]⟩
        · right
          exact ⟨y', List.mem_cons_of_mem _ hy', h3⟩
    · obtain ⟨r, hrun, h1, h2, h3⟩ :=
        ih (fun y' hy' => hys y' (List.mem_cons_of_mem _ hy')) max
      refine ⟨r, ?_, h1, ?_, ?_⟩
      · simp only [maximumDistanceColumn, hget, if_neg hlt]
        exact hrun
      · intro y' hy'
        rcases List.mem_cons.mp hy' with rfl | hy'
        · rw [hd]; omega
        · exact h2 y' hy'
      · rcases h3 with h3 | ⟨y', hy', h3⟩
        · left; exact h3
        · right
          exact ⟨y', List.mem_cons_of_mem _ hy', h3⟩

theorem maximumDistanceColumns_spec {m : MazeGrid}
    (hl : Layout (getWidth m) (getHeight m) m) (xs : List Nat) :
    (∀ x ∈ xs, x < getWidth m) → ∀ max : Int,
      ∃ r, maximumDistanceColumns m xs max = Except.ok r ∧ max ≤ r ∧
        (∀ x ∈ xs, ∀ y, y < getHeight m → distAt m (x, y) ≤ r) ∧
        (r = max ∨ ∃ x ∈ xs, ∃ y, y < getHeight m ∧ distAt m (x, y) = r) := by
  induction xs with
  | nil =>
    intro _ max
    exact ⟨max, rfl, le_refl _, by simp, Or.inl rfl⟩
  | cons x xs ih =>
    intro hxs max
    have hx : x < getWidth m := hxs x (List.mem_cons_self _ _)
    obtain ⟨r1, hrun1, a1, a2, a3⟩ :=
      maximumDistanceColumn_spec hl hx (List.range (getHeight m))
        (fun y hy => List.mem_range.mp hy) max
    obtain ⟨r, hrun, b1, b2, b3⟩ :=
      ih (fun x' hx' => hxs x' (List.mem_cons_of_mem _ hx')) r1
    refine ⟨r, ?_, by omega, ?_, ?_⟩
    · simp only [maximumDistanceColumns, hrun1]
      exact hrun
    · intro x' hx' y hy
      rcases List.mem_cons.mp hx' with rfl | hx'
      · have := a2 y (List.mem_range.mpr hy)
        omega
      · exact b2 x' hx' y hy
    · rcases b3 with b3 | ⟨x', hx', y, hy, b3⟩
      · rcases a3 with a3 | ⟨y, hy, a3⟩
        · left; rw [b3, a3]
        · right
          exact ⟨x, List.mem_cons_self _ _, y, List.mem_range.mp hy, by rw [b3, a3]⟩
      · right
        exact ⟨x', List.mem_cons_of_mem _ hx', y, hy, b3⟩

/-- On a rectangular grid `Maze::getMaximumDistance` ends without a fault and returns the
largest of `0` and the distances of the tiles. -/
theorem getMaximumDistance_run {m : MazeGrid} (hl : Layout (getWidth m) (getHeight m) m) :
    ∃ r, getMaximumDistance m = Except.ok r ∧ 0 ≤ r ∧
      (∀ p, InGrid (getWidth m) (getHeight m) p → distAt m p ≤ r) ∧
      (r = 0 ∨ ∃ p, InGrid (getWidth m) (getHeight m) p ∧ distAt m p = r) := by
  obtain ⟨r, hrun, h1, h2, h3⟩ :=
    maximumDistanceColumns_spec hl (List.range (getWidth m))
      (fun x hx => List.mem_range.mp hx) 0
  refine ⟨r, hrun, h1, ?_, ?_⟩
  · intro p hp
    exact h2 p.1 (List.mem_range.mpr hp.1) p.2 hp.2
  · rcases h3 with h3 | ⟨x, hx, y, hy, h3⟩
    · left; exact h3
    · right
      exact ⟨(x, y), ⟨List.mem_range.mp hx, hy⟩, h3⟩

/-- The maximum distance of a grid returned by the BFS is the distance of one of its
tiles, and no tile has a larger one. -/
theorem getMaximumDistance_of_inv {m0 m : MazeGrid}
    (inv : BfsInv m0 (getWidth m0) (getHeight m0)
      (centerIndices (getWidth m0) (getHeight m0)) [] m)
    (hl0 : Layout (getWidth m0) (getHeight m0) m0) (hw : 1 ≤ getWidth m0)
    (hh : 1 ≤ getHeight m0) :
    ∃ d, getMaximumDistance m = Except.ok d ∧
      (∃ p t, tileAt m p = some t ∧ t.distance = d) ∧
      ∀ p t, tileAt m p = some t → t.distance ≤ d := by
  have hl : Layout (getWidth m) (getHeight m) m := by
    rw [inv.frame.getWidth, inv.frame.getHeight]
    exact hl0.of_frame inv.frame
  obtain ⟨d, hrun, _, hle, hattain⟩ := getMaximumDistance_run hl
  refine ⟨d, hrun, ?_, ?_⟩
  · rcases hattain with h0 | ⟨p, hp, hpd⟩
    · have hc : ((getWidth m0 - 1) / 2, (getHeight m0 - 1) / 2) ∈
          centerIndices (getWidth m0) (getHeight m0) := by
        simp [centerIndices]
      have hcIn := centerIndices_inGrid hw hh _ hc
      have hs := inv.seeded _ hc
      obtain ⟨t, ht⟩ := Option.isSome_iff_exists.mp
        (((hl0.of_frame inv.frame).some_iff _).mpr hcIn)
      exact ⟨_, t, ht, by rw [← distAt_of_some ht, hs, h0]⟩
    · obtain ⟨t, ht⟩ := Option.isSome_iff_exists.mp ((hl.some_iff p).mpr hp)
      exact ⟨p, t, ht, by rw [← distAt_of_some ht, hpd]⟩
  · intro p t ht
    have hp : InGrid (getWidth m) (getHeight m) p := (hl.some_iff p).mp (by rw [ht]; rfl)
    rw [← distAt_of_some ht]
    exact hle p hp

/-- Tiles reached from a tile with a distance by hops across open sides have a distance
once the BFS has ended. -/
theorem bfsInv_found_of_path {m0 m : MazeGrid} {w h : Nat} {centers : List TilePtr}
    (hl0 : Layout w h m0) (inv : BfsInv m0 w h centers [] m) {a b : TilePtr} {n : Nat}
    (path : OpenPath m0 a b n) : distAt m a ≠ -1 → distAt m b ≠ -1 := by
  induction path with
  | here p _ => exact fun hfound => hfound
  | hop s rest ih =>
    intro ha
    exact ih (inv.closed _ (s.inGrid_left hl0) ha (by simp) _ s).1

set_option maxRecDepth 1000000 in
set_option maxHeartbeats 4000000 in
/-- The maximum distance and the corner distances of the open 16 by 16 maze, by
evaluation of the embedded code. -/
theorem open16_evaluated :
    (match initializeFromBasicMaze (openBasicMaze 16 16) with
      | Except.ok m =>
        (getMaximumDistance m, distancesAt m [(0, 0), (0, 15), (15, 0), (15, 15)])
      | Except.error e => (Except.error e, [])) =
    (Except.ok 14, [some 14, some 14, some 14, some 14]) := by
  decide!

/-! ## Maze: further claims -/

/-- C14: for the 16 by 16 maze without interior walls, construction returns a grid whose
tiles with distance `0` are exactly `(7,7)`, `(8,7)`, `(7,8)` and `(8,8)`, four in number,
and `Maze::getMaximumDistance` returns 14 on it, the distance of each of the four
corners. -/
theorem open16_centers_and_maximum :
    ∃ result, initializeFromBasicMaze (openBasicMaze 16 16) = Except.ok result ∧
      zeroTiles result = {(7, 7), (8, 7), (7, 8), (8, 8)} ∧
      (zeroTiles result).card = 4 ∧
      getMaximumDistance result = Except.ok 14 ∧
      distancesAt result [(0, 0), (0, 15), (15, 0), (15, 15)] =
        [some 14, some 14, some 14, some 14] := by
  have hw : 1 ≤ (openBasicMaze 16 16).length := by decide
  have hh : 1 ≤ basicHeight (openBasicMaze 16 16) := by decide
  have hr : ∀ column ∈ openBasicMaze 16 16,
      column.length = basicHeight (openBasicMaze 16 16) := by decide
  have hne : NonEmpty (buildColumns 0 (openBasicMaze 16 16)) := by
    unfold NonEmpty
    rw [getWidth_buildColumns, getHeight_buildColumns]
    exact ⟨hw, hh⟩
  obtain ⟨result, hrun, inv⟩ := setTileDistances_inv hne (rectangular_buildColumns hr)
    (positioned_buildColumns _) (fresh_buildColumns _)
  have hrun' : initializeFromBasicMaze (openBasicMaze 16 16) = Except.ok result := hrun
  have hzero := inv.zeroTiles_eq hne.1 hne.2
  have hwid : getWidth (buildColumns 0 (openBasicMaze 16 16)) = 16 := by
    rw [getWidth_buildColumns]; decide
  have hhei : getHeight (buildColumns 0 (openBasicMaze 16 16)) = 16 := by
    rw [getHeight_buildColumns]; decide
  rw [hwid, hhei] at hzero
  have hmid : midpoints 16 ×ˢ midpoints 16 =
      ({(7, 7), (8, 7), (7, 8), (8, 8)} : Finset TilePtr) := by decide
  have heval := open16_evaluated
  rw [hrun'] at heval
  simp only [Prod.mk.injEq] at heval
  refine ⟨result, hrun', by rw [hzero, hmid], ?_, heval.1, heval.2⟩
  rw [hzero, hmid]
  decide

/-- C17: for every non-empty rectangular wall description, `Maze::getMaximumDistance` on
the grid that construction returns ends without a fault and returns the distance of some
tile, which no tile exceeds. -/
theorem getMaximumDistance_is_maximum (basicMaze : BasicMaze) (hw : 1 ≤ basicMaze.length)
    (hh : 1 ≤ basicHeight basicMaze)
    (hr : ∀ column ∈ basicMaze, column.length = basicHeight basicMaze) :
    ∃ result d, initializeFromBasicMaze basicMaze = Except.ok result ∧
      getMaximumDistance result = Except.ok d ∧
      (∃ p t, tileAt result p = some t ∧ t.distance = d) ∧
      ∀ p t, tileAt result p = some t → t.distance ≤ d := by
  have hne : NonEmpty (buildColumns 0 basicMaze) := by
    unfold NonEmpty
    rw [getWidth_buildColumns, getHeight_buildColumns]
    exact ⟨hw, hh⟩
  have hrect := rectangular_buildColumns hr
  have hpos := positioned_buildColumns basicMaze
  obtain ⟨result, hrun, inv⟩ := setTileDistances_inv hne hrect hpos
    (fresh_buildColumns basicMaze)
  obtain ⟨d, hmax, hattain, hle⟩ :=
    getMaximumDistance_of_inv inv (Layout.of_maze hrect hpos) hne.1 hne.2
  exact ⟨result, d, hrun, hmax, hattain, hle⟩

/-- The statement of C17 at the 3 by 3 sample wall description. -/
theorem getMaximumDistance_is_maximum_witness :
    (1 ≤ sampleBasicMaze.length ∧ 1 ≤ basicHeight sampleBasicMaze ∧
      ∀ column ∈ sampleBasicMaze, column.length = basicHeight sampleBasicMaze) ∧
    ∃ result d, initializeFromBasicMaze sampleBasicMaze = Except.ok result ∧
      getMaximumDistance result = Except.ok d ∧
      (∃ p t, tileAt result p = some t ∧ t.distance = d) ∧
      ∀ p t, tileAt result p = some t → t.distance ≤ d :=
  ⟨by decide,
    getMaximumDistance_is_maximum sampleBasicMaze (by decide) (by decide) (by decide)⟩

/-- C19: a pass of the direction loop writes a distance only to a tile that carries `-1`
and enqueues exactly that tile. On a non-empty rectangular grid of positioned tiles that
all start at `-1`, `Maze::setTileDistances` ends within its budget of `width * height`
dequeues; no tile is dequeued twice, the dequeued tiles are exactly those that end with
a distance other than `-1`, and when every tile is reached from a center every tile is
dequeued exactly once. Tiles are written when they are enqueued and every enqueued tile
is dequeued, so the same holds of writes and of enqueues. -/
theorem setTileDistances_writes_once (maze : MazeGrid) (hne : NonEmpty maze)
    (hr : Rectangular maze) (hp : Positioned maze) (hf : Fresh maze) :
    (∀ width height tile st direction st',
      visitDirection width height tile st direction = Except.ok st' →
        st' = st ∨ ∃ n t d, tileAt st.1 n = some t ∧ t.distance = -1 ∧
          st' = (setDistanceAt st.1 n d, st.2 ++ [n])) ∧
    ∃ result dequeued, setTileDistancesTrace maze = Except.ok (result, dequeued) ∧
      setTileDistances maze = Except.ok result ∧
      dequeued.Nodup ∧
      dequeued.length ≤ getWidth maze * getHeight maze ∧
      (∀ p, p ∈ dequeued ↔ ∃ t ∈ tileAt result p, t.distance ≠ -1) ∧
      ((∀ p, (tileAt maze p).isSome = true → ReachedFromCenter maze p) →
        ∀ p, (tileAt maze p).isSome = true →
          ∃ before after, dequeued = before ++ p :: after ∧ p ∉ before ∧ p ∉ after) := by
  constructor
  · intro width height tile st direction st' hstep
    unfold visitDirection at hstep
    cases ht : tileAt st.1 tile with
    | none => simp [ht] at hstep
    | some t =>
      simp only [ht] at hstep
      by_cases hw : t.isWall direction = true
      · left
        simp only [hw, if_true, Except.ok.injEq] at hstep
        exact hstep.symm
      · simp only [hw, Bool.false_eq_true, if_false] at hstep
        cases hg : getNeighbor st.1 width height t.x t.y direction with
        | error e => simp [hg] at hstep
        | ok o =>
          cases o with
          | none =>
            left
            simp only [hg, Except.ok.injEq] at hstep
            exact hstep.symm
          | some nb =>
            simp only [hg] at hstep
            cases hn : tileAt st.1 nb with
            | none => simp [hn] at hstep
            | some n =>
              simp only [hn] at hstep
              by_cases hd : n.distance = -1
              · right
                simp only [hd, if_true, Except.ok.injEq] at hstep
                exact ⟨nb, n, _, hn, hd, hstep.symm⟩
              · left
                simp only [hd, if_false, Except.ok.injEq] at hstep
                exact hstep.symm
  · have hl0 := Layout.of_maze hr hp
    have hcs := centerIndices_inGrid hne.1 hne.2
    have hnd := centerIndices_nodup hne.1 hne.2
    have hD := distAt_seedCenters hl0 _ maze (Frame.refl maze) hcs
    obtain ⟨rest, result, htrace, hframe, hnodup, hnew, hsame⟩ :=
      setTileDistancesTrace_run hne hr hp
    have hl := hl0.of_frame hframe
    have hrun : setTileDistances maze = Except.ok result := by
      rw [setTileDistances_eq_trace, htrace]
      rfl
    have hdisj : ∀ x ∈ centerIndices (getWidth maze) (getHeight maze), x ∉ rest := by
      intro x hx hxr
      have := (hnew x hxr).2.1
      rw [hD x, if_pos hx] at this
      omega
    have hall : (centerIndices (getWidth maze) (getHeight maze) ++ rest).Nodup :=
      List.nodup_append.mpr ⟨hnd, hnodup, fun x hx hxr => hdisj x hx hxr⟩
    have hgrid : ∀ x ∈ centerIndices (getWidth maze) (getHeight maze) ++ rest,
        InGrid (getWidth maze) (getHeight maze) x := by
      intro x hx
      rcases List.mem_append.mp hx with hx | hx
      · exact hcs x hx
      · exact (hnew x hx).1
    have hiff : ∀ p, p ∈ centerIndices (getWidth maze) (getHeight maze) ++ rest ↔
        distAt result p ≠ -1 := by
      intro p
      constructor
      · intro hmem
        rcases List.mem_append.mp hmem with hc | hrest
        · rw [hsame p (hdisj p hc), hD p, if_pos hc]
          omega
        · have := (hnew p hrest).2.2
          omega
      · intro hfound
        by_cases hrest : p ∈ rest
        · exact List.mem_append.mpr (Or.inr hrest)
        · rw [hsame p hrest, hD p] at hfound
          by_cases hc : p ∈ centerIndices (getWidth maze) (getHeight maze)
          · exact List.mem_append.mpr (Or.inl hc)
          · rw [if_neg hc, distAt_of_fresh hf p] at hfound
            exact absurd rfl hfound
    refine ⟨result, _, htrace, hrun, hall, ?_, ?_, ?_⟩
    · have hsub : (centerIndices (getWidth maze) (getHeight maze) ++ rest).toFinset ⊆
          Finset.range (getWidth maze) ×ˢ Finset.range (getHeight maze) := by
        intro x hx
        have := hgrid x (List.mem_toFinset.mp hx)
        simp only [Finset.mem_product, Finset.mem_range]
        exact this
      have hcard := Finset.card_le_card hsub
      rw [List.toFinset_card_of_nodup hall] at hcard
      simpa using hcard
    · intro p
      rw [hiff p]
      constructor
      · intro hfound
        cases ht : tileAt result p with
        | none => exact absurd (distAt_eq_neg_one_of_none ht) hfound
        | some t => exact ⟨t, rfl, by rw [← distAt_of_some ht]; exact hfound⟩
      · rintro ⟨t, ht, htd⟩
        rw [distAt_of_some (Option.mem_def.mp ht)]
        exact htd
    · intro hreach p hps
      obtain ⟨result', hrun', inv⟩ := setTileDistances_inv hne hr hp hf
      rw [hrun] at hrun'
      cases hrun'
      obtain ⟨c, n, hc, path⟩ := hreach p hps
      have hfound : distAt result p ≠ -1 :=
        bfsInv_found_of_path hl0 inv path (by rw [inv.seeded c hc]; omega)
      obtain ⟨before, after, hsplit⟩ := List.append_of_mem ((hiff p).mpr hfound)
      refine ⟨before, after, hsplit, ?_, ?_⟩
      · rw [hsplit] at hall
        intro hmem
        exact (List.nodup_append.mp hall).2.2 hmem (List.mem_cons_self _ _)
      · rw [hsplit] at hall
        exact (List.nodup_cons.mp (List.nodup_append.mp hall).2.1).1

/-- The statement of C19 at the 3 by 3 sample grid. -/
theorem setTileDistances_writes_once_witness :
    (NonEmpty sampleGrid ∧ Rectangular sampleGrid ∧ Positioned sampleGrid ∧
      Fresh sampleGrid) ∧
    (∀ width height tile st direction st',
      visitDirection width height tile st direction = Except.ok st' →
        st' = st ∨ ∃ n t d, tileAt st.1 n = some t ∧ t.distance = -1 ∧
          st' = (setDistanceAt st.1 n d, st.2 ++ [n])) ∧
    ∃ result dequeued, setTileDistancesTrace sampleGrid = Except.ok (result, dequeued) ∧
      setTileDistances sampleGrid = Except.ok result ∧
      dequeued.Nodup ∧
      dequeued.length ≤ getWidth sampleGrid * getHeight sampleGrid ∧
      (∀ p, p ∈ dequeued ↔ ∃ t ∈ tileAt result p, t.distance ≠ -1) ∧
      ((∀ p, (tileAt sampleGrid p).isSome = true → ReachedFromCenter sampleGrid p) →
        ∀ p, (tileAt sampleGrid p).isSome = true →
          ∃ before after, dequeued = before ++ p :: after ∧ p ∉ before ∧ p ∉ after) :=
  ⟨by decide,
    setTileDistances_writes_once sampleGrid (by decide) (by decide) (by decide)
      (by decide)⟩

/-- C20: on a non-empty rectangular grid of positioned tiles every center index is a
valid index, `getNeighbor` answers for a tile of the grid with no tile or with a tile
whose indices lie inside the grid, at every stage of the run (any grid that differs from
the given one in distances only), and `Maze::setTileDistances` ends without an
out-of-bounds fault, whatever the distances the tiles start with. -/
theorem setTileDistances_in_bounds (maze : MazeGrid) (hne : NonEmpty maze)
    (hr : Rectangular maze) (hp : Positioned maze) :
    (∀ c ∈ centerIndices (getWidth maze) (getHeight maze),
      c.1 < getWidth maze ∧ c.2 < getHeight maze ∧ (tileAt maze c).isSome = true) ∧
    (∀ m p t d, Frame maze m → tileAt m p = some t →
      getNeighbor m (getWidth maze) (getHeight maze) t.x t.y d = Except.ok none ∨
      ∃ n, getNeighbor m (getWidth maze) (getHeight maze) t.x t.y d = Except.ok (some n) ∧
        n.1 < getWidth maze ∧ n.2 < getHeight maze ∧ (tileAt m n).isSome = true) ∧
    ∃ result, setTileDistances maze = Except.ok result := by
  have hl0 := Layout.of_maze hr hp
  refine ⟨?_, ?_, ?_⟩
  · intro c hc
    have hin := centerIndices_inGrid hne.1 hne.2 c hc
    exact ⟨hin.1, hin.2, (hl0.some_iff c).mpr hin⟩
  · intro m p t d hframe ht
    have hl := hl0.of_frame hframe
    have hpIn : InGrid (getWidth maze) (getHeight maze) p :=
      (hl.some_iff p).mp (by rw [ht]; rfl)
    obtain ⟨hx, hy⟩ := hl.pos p t ht
    rw [hx, hy, getNeighbor_eq hl hpIn d]
    cases hnb : neighborIn p d with
    | none => left; rfl
    | some n =>
      by_cases hin : InGrid (getWidth maze) (getHeight maze) n
      · right
        exact ⟨n, by simp [Option.filter, hin], hin.1, hin.2, (hl.some_iff n).mpr hin⟩
      · left
        simp [Option.filter, hin]
  · obtain ⟨rest, result, htrace, _⟩ := setTileDistancesTrace_run hne hr hp
    exact ⟨result, by rw [setTileDistances_eq_trace, htrace]; rfl⟩

/-- The statement of C20 at the 3 by 3 sample grid. -/
theorem setTileDistances_in_bounds_witness :
    (NonEmpty sampleGrid ∧ Rectangular sampleGrid ∧ Positioned sampleGrid) ∧
    (∀ c ∈ centerIndices (getWidth sampleGrid) (getHeight sampleGrid),
      c.1 < getWidth sampleGrid ∧ c.2 < getHeight sampleGrid ∧
        (tileAt sampleGrid c).isSome = true) ∧
    (∀ m p t d, Frame sampleGrid m → tileAt m p = some t →
      getNeighbor m (getWidth sampleGrid) (getHeight sampleGrid) t.x t.y d =
        Except.ok none ∨
      ∃ n, getNeighbor m (getWidth sampleGrid) (getHeight sampleGrid) t.x t.y d =
          Except.ok (some n) ∧
        n.1 < getWidth sampleGrid ∧ n.2 < getHeight sampleGrid ∧
          (tileAt m n).isSome = true) ∧
    ∃ result, setTileDistances sampleGrid = Except.ok result :=
  ⟨by decide,
    setTileDistances_in_bounds sampleGrid (by decide) (by decide) (by decide)⟩

/-! ## Mouse: stopping, heading quadrants and the rigid transform -/

theorem stopSpeeds_eq (wheels : QMap Wheel) :
    ∀ acc : QMap ℚ, (wheels.map Prod.fst).Nodup →
      (∀ k ∈ wheels.map Prod.fst, k ∉ acc.map Prod.fst) →
      stopSpeeds wheels acc = acc ++ wheels.map (fun e => (e.1, (0 : ℚ))) := by
  induction wheels with
  | nil => intro acc _ _; simp [stopSpeeds]
  | cons e rest ih =>
    intro acc hnd hdisj
    obtain ⟨k, w⟩ := e
    simp only [List.map_cons, List.nodup_cons] at hnd
    have hk : k ∉ acc.map Prod.fst := hdisj k (by simp)
    simp only [stopSpeeds, QMap.insert_of_not_mem acc k _ hk]
    rw [ih _ hnd.2]
    · simp
    · intro k' hk' hmem
      simp only [List.map_append, List.map_cons, List.map_nil, List.mem_append,
        List.mem_singleton] at hmem
      rcases hmem with hmem | rfl
      · exact hdisj k' (by simp [hk']) hmem
      · exact hnd.1 hk'

/-- `Mouse::stopAllWheels` on wheels with distinct names: no assertion is tripped, the
names stay and every wheel is given the speed zero. -/
theorem stopAllWheels_eq (mouse : Mouse) (hwf : QMap.WF mouse.wheels) :
    ∃ mouse', mouse.stopAllWheels = Except.ok mouse' ∧
      mouse'.wheels.map Prod.fst = mouse.wheels.map Prod.fst ∧
      ∀ name, QMap.value? mouse'.wheels name =
        (QMap.value? mouse.wheels name).map (fun wheel => wheel.setSpeed 0) := by
  have hspeeds := stopSpeeds_eq mouse.wheels [] hwf (by simp)
  simp only [List.nil_append] at hspeeds
  have hkeys : (stopSpeeds mouse.wheels []).map Prod.fst = mouse.wheels.map Prod.fst := by
    rw [hspeeds, List.map_map]
    rfl
  obtain ⟨wheels', happly, hnames, hval⟩ :=
    applyWheelSpeeds_spec (stopSpeeds mouse.wheels []) mouse.wheels
      (by rw [hkeys]; exact hwf) (by rw [hkeys]; exact fun k hk => hk)
  refine ⟨{ mouse with wheels := wheels' }, ?_, hnames, ?_⟩
  · simp only [Mouse.stopAllWheels, Mouse.setWheelSpeeds, happly]
  · intro name
    rw [hval name]
    cases hw : QMap.value? mouse.wheels name with
    | none => rfl
    | some wheel =>
      have hs : QMap.value? (stopSpeeds mouse.wheels []) name = some 0 := by
        rw [hspeeds, QMap.value?_map (fun _ _ => (0 : ℚ)) mouse.wheels name, hw]
        rfl
      simp only [Option.map_some', hs]

theorem zeroTo360_nonneg (angle : ℚ) : 0 ≤ zeroTo360 angle := by
  unfold zeroTo360
  have h := Int.floor_le (angle / 360)
  have h360 : (0 : ℚ) < 360 := by norm_num
  have := (le_div_iff₀ h360).mp h
  linarith

theorem zeroTo360_lt (angle : ℚ) : zeroTo360 angle < 360 := by
  unfold zeroTo360
  have h := Int.lt_floor_add_one (angle / 360)
  have h360 : (0 : ℚ) < 360 := by norm_num
  have := (div_lt_iff₀ h360).mp h
  linarith

theorem zeroTo360_ninety : zeroTo360 90 = 90 := by
  unfold zeroTo360
  have h : ⌊(90 : ℚ) / 360⌋ = 0 := by
    rw [Int.floor_eq_iff]
    constructor <;> norm_num
  rw [h]
  norm_num

/-- The quadrant index of a heading is one of 0, 1, 2, 3. -/
theorem quadrant_range (rotation : ℚ) :
    0 ≤ ⌊zeroTo360 (rotation + 45) / zeroTo360 90⌋ ∧
      ⌊zeroTo360 (rotation + 45) / zeroTo360 90⌋ ≤ 3 := by
  rw [zeroTo360_ninety]
  have h0 := zeroTo360_nonneg (rotation + 45)
  have h1 := zeroTo360_lt (rotation + 45)
  have h90 : (0 : ℚ) < 90 := by norm_num
  constructor
  · exact Int.floor_nonneg.mpr (div_nonneg h0 (le_of_lt h90))
  · have hlt : zeroTo360 (rotation + 45) / 90 < ((4 : Int) : ℚ) := by
      rw [div_lt_iff₀ h90]
      push_cast
      linarith
    have := Int.floor_lt.mpr hlt
    omega

theorem rigid_transform_identity (cos sin : ℚ → ℚ) (hcos : cos 0 = 1) (hsin : sin 0 = 0)
    (polygon : Polygon) (point : ℚ × ℚ) :
    Polygon.rotateAroundPoint cos sin
      (Polygon.translate polygon (point.1 - point.1, point.2 - point.2)) (0 : ℚ) point =
      polygon := by
  unfold Polygon.rotateAroundPoint Polygon.translate
  rw [List.map_map]
  conv_rhs => rw [← List.map_id polygon]
  apply List.map_congr_left
  intro v _
  simp only [Function.comp_apply, hcos, hsin, id_eq]
  ext <;> simp

/-! ## Mouse: further claims -/

/-- C11, as stated, fails: with a parser that is constructed but whose wheel parse
fails, `Mouse::reload` returns false and yet the sample mouse has lost its two wheels,
its adjustment factors and its empty body polygon. -/
theorem reload_failure_changes_state :
    (sampleFailingParser "bad").constructed = true ∧
    ((sampleFailingParser "bad").getWheels sampleMouse.initialTranslation
      sampleMouse.initialRotation).2 = false ∧
    ∃ mouse', Mouse.reload sampleFailingParser sampleConvexHull sampleCirclePolygon
        sampleGrid sampleMouse "bad" = Except.ok (false, mouse') ∧
      mouse'.wheels = [] ∧ sampleMouse.wheels ≠ [] ∧
      mouse'.wheelSpeedAdjustmentFactors = [] ∧
      sampleMouse.wheelSpeedAdjustmentFactors ≠ [] ∧
      mouse'.initialBodyPolygon ≠ sampleMouse.initialBodyPolygon := by
  refine ⟨rfl, rfl, ?_⟩
  have hfactors : getWheelSpeedAdjustmentFactors [] = Except.ok [] := rfl
  refine ⟨{ sampleMouse with
      initialBodyPolygon := [(0, 0), (2, 0), (2, 2), (0, 2)]
      wheels := []
      sensors := []
      wheelSpeedAdjustmentFactors := []
      initialCollisionPolygon := sampleConvexHull [[(0, 0), (2, 0), (2, 2), (0, 2)]]
      initialCenterOfMassPolygon :=
        sampleCirclePolygon sampleMouse.initialTranslation (1 / 200) 8
      mouseFile := "bad" }, ?_, ?_⟩
  · simp only [Mouse.reload, sampleFailingParser, hfactors]
    rfl
  · refine ⟨rfl, ?_, rfl, ?_, ?_⟩ <;> simp [sampleMouse]

/-- C11, amended: when the parser itself reports failure, `Mouse::reload` returns false
and leaves the mouse as it was. When the parser is constructed, `reload` stops on an
assertion exactly when `getWheelSpeedAdjustmentFactors` does on the parsed wheels, and
otherwise returns the conjunction of the body, wheel and sensor results with the body
polygon, wheels, sensors, adjustment factors and collision polygon replaced by what was
parsed and computed, the pose and the crashed flag being kept. It returns true only when
the parser and the three parses succeed. -/
theorem reload_outcome (parse : String → MouseParser) (convexHull : List Polygon → Polygon)
    (createCirclePolygon : ℚ × ℚ → ℚ → Nat → Polygon) (maze : MazeGrid) (mouse : Mouse)
    (mouseFile : String) :
    ((parse mouseFile).constructed = false →
      Mouse.reload parse convexHull createCirclePolygon maze mouse mouseFile =
        Except.ok (false, mouse)) ∧
    ((parse mouseFile).constructed = true →
      (∀ e, getWheelSpeedAdjustmentFactors
          ((parse mouseFile).getWheels mouse.initialTranslation mouse.initialRotation).1 =
            Except.error e →
        Mouse.reload parse convexHull createCirclePolygon maze mouse mouseFile =
          Except.error e) ∧
      (∀ factors, getWheelSpeedAdjustmentFactors
          ((parse mouseFile).getWheels mouse.initialTranslation mouse.initialRotation).1 =
            Except.ok factors →
        ∃ mouse', Mouse.reload parse convexHull createCirclePolygon maze mouse mouseFile =
            Except.ok
              (((parse mouseFile).getBody mouse.initialTranslation
                  mouse.initialRotation).2 &&
                ((parse mouseFile).getWheels mouse.initialTranslation
                  mouse.initialRotation).2 &&
                ((parse mouseFile).getSensors mouse.initialTranslation
                  mouse.initialRotation maze).2, mouse') ∧
          mouse'.initialBodyPolygon =
            ((parse mouseFile).getBody mouse.initialTranslation mouse.initialRotation).1 ∧
          mouse'.wheels =
            ((parse mouseFile).getWheels mouse.initialTranslation
              mouse.initialRotation).1 ∧
          mouse'.sensors =
            ((parse mouseFile).getSensors mouse.initialTranslation mouse.initialRotation
              maze).1 ∧
          mouse'.wheelSpeedAdjustmentFactors = factors ∧
          mouse'.initialCollisionPolygon = convexHull
            ([((parse mouseFile).getBody mouse.initialTranslation
                mouse.initialRotation).1] ++
              ((parse mouseFile).getWheels mouse.initialTranslation
                mouse.initialRotation).1.map (fun e => e.2.initialPolygon) ++
              ((parse mouseFile).getSensors mouse.initialTranslation mouse.initialRotation
                maze).1.map (fun e => e.2.initialPolygon)) ∧
          mouse'.currentTranslation = mouse.currentTranslation ∧
          mouse'.currentRotation = mouse.currentRotation ∧
          mouse'.initialTranslation = mouse.initialTranslation ∧
          mouse'.initialRotation = mouse.initialRotation ∧
          mouse'.didCrash = mouse.didCrash)) ∧
    (∀ mouse',
      Mouse.reload parse convexHull createCirclePolygon maze mouse mouseFile =
        Except.ok (true, mouse') →
      (parse mouseFile).constructed = true ∧
      ((parse mouseFile).getBody mouse.initialTranslation mouse.initialRotation).2 = true ∧
      ((parse mouseFile).getWheels mouse.initialTranslation mouse.initialRotation).2 =
        true ∧
      ((parse mouseFile).getSensors mouse.initialTranslation mouse.initialRotation
        maze).2 = true) := by
  refine ⟨?_, ?_, ?_⟩
  · intro hc
    simp [Mouse.reload, hc]
  · intro hc
    constructor
    · intro e he
      simp [Mouse.reload, hc, he]
    · intro factors hf
      refine ⟨{ mouse with
          initialBodyPolygon :=
            ((parse mouseFile).getBody mouse.initialTranslation mouse.initialRotation).1
          wheels :=
            ((parse mouseFile).getWheels mouse.initialTranslation mouse.initialRotation).1
          sensors :=
            ((parse mouseFile).getSensors mouse.initialTranslation mouse.initialRotation
              maze).1
          wheelSpeedAdjustmentFactors := factors
          initialCollisionPolygon := convexHull
            ([((parse mouseFile).getBody mouse.initialTranslation
                mouse.initialRotation).1] ++
              ((parse mouseFile).getWheels mouse.initialTranslation
                mouse.initialRotation).1.map (fun e => e.2.initialPolygon) ++
              ((parse mouseFile).getSensors mouse.initialTranslation mouse.initialRotation
                maze).1.map (fun e => e.2.initialPolygon))
          initialCenterOfMassPolygon :=
            createCirclePolygon mouse.initialTranslation (1 / 200) 8
          mouseFile := mouseFile }, ?_, rfl, rfl, rfl, rfl, rfl, rfl, rfl, rfl, rfl, rfl⟩
      simp [Mouse.reload, hc, hf]
  · intro mouse' hrun
    cases hc : (parse mouseFile).constructed with
    | false => simp [Mouse.reload, hc] at hrun
    | true =>
      cases hf : getWheelSpeedAdjustmentFactors
          ((parse mouseFile).getWheels mouse.initialTranslation mouse.initialRotation).1 with
      | error e => simp [Mouse.reload, hc, hf] at hrun
      | ok factors =>
        simp only [Mouse.reload, hc, hf, Bool.not_true, Bool.false_eq_true, if_false,
          Bool.true_and, Except.ok.injEq, Prod.mk.injEq, Bool.and_eq_true] at hrun
        exact ⟨rfl, hrun.1.1.1, hrun.1.1.2, hrun.1.2⟩

/-- C12: with a cosine that is 1 and a sine that is 0 at the zero angle,
`Mouse::getCurrentBodyPolygon` called with the initial translation and the initial
rotation returns the initial body polygon: the translation is by the zero vector and the
rotation by the zero angle, and both leave every vertex where it is. -/
theorem getCurrentBodyPolygon_initial_pose (cos sin : ℚ → ℚ) (hcos : cos 0 = 1)
    (hsin : sin 0 = 0) (mouse : Mouse) :
    mouse.getCurrentBodyPolygon cos sin mouse.initialTranslation mouse.initialRotation =
      mouse.initialBodyPolygon := by
  unfold Mouse.getCurrentBodyPolygon Mouse.getCurrentPolygon Mouse.getInitialTranslation
  rw [sub_self mouse.initialRotation]
  exact rigid_transform_identity cos sin hcos hsin _ _

/-- The statement of C12 at the sample mouse with a square body. -/
theorem getCurrentBodyPolygon_initial_pose_witness :
    (sampleCos 0 = 1 ∧ sampleSin 0 = 0) ∧
    sampleBodiedMouse.getCurrentBodyPolygon sampleCos sampleSin
        sampleBodiedMouse.initialTranslation sampleBodiedMouse.initialRotation =
      sampleBodiedMouse.initialBodyPolygon :=
  ⟨⟨by simp [sampleCos], by norm_num [sampleSin]⟩,
    getCurrentBodyPolygon_initial_pose sampleCos sampleSin (by simp [sampleCos])
      (by norm_num [sampleSin]) sampleBodiedMouse⟩

/-- C13: for every rotation, the quadrant index that
`Mouse::getCurrentDiscretizedRotation` computes, the floor of the rotation plus 45
degrees reduced to a full turn and divided by 90 degrees, is one of 0, 1, 2, 3; the
function returns EAST, NORTH, WEST, SOUTH for them in this order and never reaches
`ASSERT_NEVER_RUNS`. -/
theorem getCurrentDiscretizedRotation_quadrants (mouse : Mouse) :
    ∃ index : Int, index = ⌊zeroTo360 (mouse.currentRotation + 45) / 90⌋ ∧
      (index = 0 ∨ index = 1 ∨ index = 2 ∨ index = 3) ∧
      (index = 0 → mouse.getCurrentDiscretizedRotation = Except.ok Direction.EAST) ∧
      (index = 1 → mouse.getCurrentDiscretizedRotation = Except.ok Direction.NORTH) ∧
      (index = 2 → mouse.getCurrentDiscretizedRotation = Except.ok Direction.WEST) ∧
      (index = 3 → mouse.getCurrentDiscretizedRotation = Except.ok Direction.SOUTH) ∧
      mouse.getCurrentDiscretizedRotation ≠ Except.error MouseFault.assertion := by
  obtain ⟨h0, h3⟩ := quadrant_range mouse.currentRotation
  have hrun : mouse.getCurrentDiscretizedRotation =
      if ⌊zeroTo360 (mouse.currentRotation + 45) / 90⌋ = 0 then Except.ok Direction.EAST
      else if ⌊zeroTo360 (mouse.currentRotation + 45) / 90⌋ = 1 then
        Except.ok Direction.NORTH
      else if ⌊zeroTo360 (mouse.currentRotation + 45) / 90⌋ = 2 then
        Except.ok Direction.WEST
      else if ⌊zeroTo360 (mouse.currentRotation + 45) / 90⌋ = 3 then
        Except.ok Direction.SOUTH
      else Except.error MouseFault.assertion := by
    unfold Mouse.getCurrentDiscretizedRotation Mouse.getCurrentRotation
    rw [zeroTo360_ninety]
  rw [zeroTo360_ninety] at h0 h3
  refine ⟨_, rfl, by omega, ?_, ?_, ?_, ?_, ?_⟩
  · intro h
    rw [hrun, if_pos h]
  · intro h
    rw [hrun, if_neg (by omega), if_pos h]
  · intro h
    rw [hrun, if_neg (by omega), if_neg (by omega), if_pos h]
  · intro h
    rw [hrun, if_neg (by omega), if_neg (by omega), if_neg (by omega), if_pos h]
  · rw [hrun]
    split_ifs <;> first | omega | simp

/-- C15: for a mouse with exactly two wheels of different names, equal maximum angular
speed and equal non-zero maximum forward effect, whose cached adjustment factors are the
ones computed from these wheels, `setWheelSpeedsForMoveForward(1.0)` computes one and the
same target speed for both wheels and gives it to both. -/
theorem moveForward_symmetric_wheels (getCurveTurnFactors : ℚ → ℚ × ℚ) (mouse : Mouse)
    (nameA nameB : String)
    (wheelA wheelB : Wheel) (hwheels : mouse.wheels = [(nameA, wheelA), (nameB, wheelB)])
    (hnames : nameA ≠ nameB) (hcache : mouse.CacheValid)
    (hspeed : wheelA.maximumSpeed = wheelB.maximumSpeed)
    (heffect : wheelA.maximumEffect.forwardEffect = wheelB.maximumEffect.forwardEffect)
    (_hnonzero : wheelA.maximumEffect.forwardEffect ≠ 0) :
    ∃ mouse' speed, mouse.setWheelSpeedsForMoveForward 1 = Except.ok mouse' ∧
      (Command.moveForward 1).targets getCurveTurnFactors mouse =
        Except.ok [(nameA, speed), (nameB, speed)] ∧
      QMap.value? mouse'.wheels nameA = some (wheelA.setSpeed speed) ∧
      QMap.value? mouse'.wheels nameB = some (wheelB.setSpeed speed) := by
  have hwf : QMap.WF mouse.wheels := by
    rw [hwheels]
    simp [QMap.WF, hnames]
  obtain ⟨hfactors, _⟩ := cache_of_ok hwf hcache
  have hcov : ∀ k ∈ mouse.wheels.map Prod.fst,
      k ∈ mouse.wheelSpeedAdjustmentFactors.map Prod.fst := by
    intro k hk
    rw [hfactors, List.map_map]
    exact hk
  have hA : QMap.value? mouse.wheels nameA = some wheelA := by
    rw [hwheels]
    simp [QMap.value?]
  have hB : QMap.value? mouse.wheels nameB = some wheelB := by
    rw [hwheels]
    simp [QMap.value?, hnames]
  have hadj : ∀ name wheel, QMap.value? mouse.wheels name = some wheel →
      QMap.value? mouse.wheelSpeedAdjustmentFactors name =
        some (wheel.maximumEffect.forwardEffect /
            (largestMagnitudes (ratesOfChange mouse.wheels []) (0, 0)).1,
          wheel.maximumEffect.turnEffect /
            (largestMagnitudes (ratesOfChange mouse.wheels []) (0, 0)).2) := by
    intro name wheel hw
    rw [hfactors]
    rw [QMap.value?_map (fun _ w =>
      (w.maximumEffect.forwardEffect /
          (largestMagnitudes (ratesOfChange mouse.wheels []) (0, 0)).1,
        w.maximumEffect.turnEffect /
          (largestMagnitudes (ratesOfChange mouse.wheels []) (0, 0)).2))
      mouse.wheels name, hw]
    rfl
  obtain ⟨mouse', hrun, hval⟩ :=
    setWheelSpeedsForMovement_of_normalized mouse 1 1 0 (1, 0) hwf hcov
      normalizeFactors_forward
  obtain ⟨speeds, htargets, hkeys, hsval⟩ :=
    movementTargets_of_normalized mouse 1 1 0 (1, 0) hwf hcov normalizeFactors_forward
  obtain ⟨adjA, hadjA, hmA⟩ := hval nameA wheelA hA
  obtain ⟨adjB, hadjB, hmB⟩ := hval nameB wheelB hB
  obtain ⟨adjA', hadjA', hsA⟩ := hsval nameA wheelA hA
  obtain ⟨adjB', hadjB', hsB⟩ := hsval nameB wheelB hB
  rw [hadj nameA wheelA hA] at hadjA hadjA'
  rw [hadj nameB wheelB hB] at hadjB hadjB'
  cases hadjA
  cases hadjB
  cases hadjA'
  cases hadjB'
  rw [wheelTarget_forward] at hmA hmB hsA hsB
  have hsame : roundDouble (roundDouble (wheelB.maximumSpeed * 1) *
      roundDouble (wheelB.maximumEffect.forwardEffect /
          (largestMagnitudes (ratesOfChange mouse.wheels []) (0, 0)).1)) =
      roundDouble (roundDouble (wheelA.maximumSpeed * 1) *
      roundDouble (wheelA.maximumEffect.forwardEffect /
          (largestMagnitudes (ratesOfChange mouse.wheels []) (0, 0)).1)) := by
    rw [hspeed, heffect]
  simp only at hmA hmB hsA hsB
  rw [hsame] at hmB hsB
  refine ⟨mouse', _, hrun, ?_, hmA, hmB⟩
  have htargets' : (Command.moveForward 1).targets getCurveTurnFactors mouse =
      Except.ok speeds := htargets
  rw [htargets']
  congr 1
  rw [hwheels] at hkeys
  match speeds, hkeys, hsA, hsB with
  | [(k1, s1), (k2, s2)], hkeys, hsA, hsB =>
    simp only [List.map_cons, List.map_nil, List.cons.injEq, and_true] at hkeys
    obtain ⟨rfl, rfl⟩ := hkeys
    simp only [QMap.value?, if_true, Option.some.injEq, if_neg hnames] at hsA hsB
    rw [hsA, hsB]

/-- The statement of C15 at the sample mouse. -/
theorem moveForward_symmetric_wheels_witness :
    (sampleMouse.wheels = [("L", sampleLeftWheel), ("R", sampleRightWheel)] ∧
      "L" ≠ "R" ∧ sampleMouse.CacheValid ∧
      sampleLeftWheel.maximumSpeed = sampleRightWheel.maximumSpeed ∧
      sampleLeftWheel.maximumEffect.forwardEffect =
        sampleRightWheel.maximumEffect.forwardEffect ∧
      sampleLeftWheel.maximumEffect.forwardEffect ≠ 0) ∧
    ∃ mouse' speed, sampleMouse.setWheelSpeedsForMoveForward 1 = Except.ok mouse' ∧
      (Command.moveForward 1).targets sampleCurveTurnFactors sampleMouse =
        Except.ok [("L", speed), ("R", speed)] ∧
      QMap.value? mouse'.wheels "L" = some (sampleLeftWheel.setSpeed speed) ∧
      QMap.value? mouse'.wheels "R" = some (sampleRightWheel.setSpeed speed) :=
  have hcache : sampleMouse.CacheValid := by
    unfold Mouse.CacheValid
    decide!
  have hnonzero : sampleLeftWheel.maximumEffect.forwardEffect ≠ 0 := by
    norm_num [sampleLeftWheel]
  ⟨⟨rfl, by decide, hcache, rfl, rfl, hnonzero⟩,
    moveForward_symmetric_wheels sampleCurveTurnFactors sampleMouse "L" "R" sampleLeftWheel
      sampleRightWheel rfl (by decide) hcache rfl rfl hnonzero⟩

theorem setWheelSpeeds_crashed {mouse mouse' : Mouse} {wheelSpeeds : QMap ℚ}
    (h : mouse.setWheelSpeeds wheelSpeeds = Except.ok mouse') :
    mouse'.didCrash = mouse.didCrash := by
  unfold Mouse.setWheelSpeeds at h
  cases happly : applyWheelSpeeds mouse.wheels wheelSpeeds with
  | error e => simp [happly] at h
  | ok wheels =>
    simp only [happly, Except.ok.injEq] at h
    rw [← h]
    rfl

theorem setWheelSpeedsForMovement_crashed {mouse mouse' : Mouse}
    {fraction forwardFactor turnFactor : ℚ}
    (h : mouse.setWheelSpeedsForMovement fraction forwardFactor turnFactor =
      Except.ok mouse') : mouse'.didCrash = mouse.didCrash := by
  unfold Mouse.setWheelSpeedsForMovement at h
  cases htargets : movementTargets mouse fraction forwardFactor turnFactor with
  | error e => simp [htargets] at h
  | ok speeds =>
    simp only [htargets] at h
    exact setWheelSpeeds_crashed h

/-- C16: a newly constructed mouse has not crashed, `setCrashed` sets the flag, `reset`
clears it, `update` always returns and leaves the flag as it was, with or without wheels,
and `teleport`, `setStartingDirection`, `setWheelSpeeds`, the move-forward and curve
commands, `stopAllWheels`, `resetWheelRelativeEncoder` and `reload` return a mouse with
the flag they were given. -/
theorem crashed_flag_transitions :
    (∀ maze wallLength wallWidth mouse,
      Mouse.new maze wallLength wallWidth = Except.ok mouse → mouse.didCrash = false) ∧
    (∀ mouse : Mouse, mouse.setCrashed.didCrash = true) ∧
    (∀ mouse : Mouse, mouse.reset.didCrash = false) ∧
    (∀ wheelUpdate cos sin (mouse : Mouse) elapsed,
      (Mouse.update wheelUpdate cos sin mouse elapsed).didCrash = mouse.didCrash) ∧
    (∀ (mouse : Mouse) translation rotation,
      (mouse.teleport translation rotation).didCrash = mouse.didCrash) ∧
    (∀ (mouse : Mouse) direction,
      (mouse.setStartingDirection direction).didCrash = mouse.didCrash) ∧
    (∀ (mouse : Mouse) wheelSpeeds mouse',
      mouse.setWheelSpeeds wheelSpeeds = Except.ok mouse' →
        mouse'.didCrash = mouse.didCrash) ∧
    (∀ getCurveTurnFactors (mouse : Mouse) (command : Command) mouse',
      command.run getCurveTurnFactors mouse = Except.ok mouse' →
        mouse'.didCrash = mouse.didCrash) ∧
    (∀ (mouse : Mouse) mouse',
      mouse.stopAllWheels = Except.ok mouse' → mouse'.didCrash = mouse.didCrash) ∧
    (∀ resetRelativeEncoder (mouse : Mouse) name mouse',
      mouse.resetWheelRelativeEncoder resetRelativeEncoder name = Except.ok mouse' →
        mouse'.didCrash = mouse.didCrash) ∧
    (∀ parse convexHull createCirclePolygon maze (mouse : Mouse) mouseFile flag mouse',
      Mouse.reload parse convexHull createCirclePolygon maze mouse mouseFile =
        Except.ok (flag, mouse') → mouse'.didCrash = mouse.didCrash) := by
  refine ⟨?_, fun _ => rfl, fun _ => rfl, ?_, fun _ _ _ => rfl, fun _ _ => rfl, ?_, ?_, ?_,
    ?_, ?_⟩
  · intro maze wallLength wallWidth mouse h
    unfold Mouse.new at h
    cases hdir : getOptimalStartingDirection maze with
    | error e => simp [hdir] at h
    | ok d =>
      simp only [hdir, Except.ok.injEq] at h
      rw [← h]
      rfl
  · intro wheelUpdate cos sin mouse elapsed
    unfold Mouse.update
    by_cases hc : mouse.crashed = true
    · rw [if_pos hc]
      rfl
    · rw [if_neg hc]
      by_cases hlen : mouse.wheels.length = 0
      · simp only [hlen, if_true]
        rfl
      · simp only [hlen, if_false]
        rfl
  · intro mouse wheelSpeeds mouse' h
    exact setWheelSpeeds_crashed h
  · intro getCurveTurnFactors mouse command mouse' h
    cases command with
    | moveForward fraction => exact setWheelSpeedsForMovement_crashed h
    | curveLeft fraction radius => exact setWheelSpeedsForMovement_crashed h
    | curveRight fraction radius => exact setWheelSpeedsForMovement_crashed h
  · intro mouse mouse' h
    exact setWheelSpeeds_crashed h
  · intro resetRelativeEncoder mouse name mouse' h
    unfold Mouse.resetWheelRelativeEncoder at h
    by_cases hk : QMap.contains mouse.wheels name = true
    · simp only [hk, if_true, Except.ok.injEq] at h
      rw [← h]
      rfl
    · simp [hk] at h
  · intro parse convexHull createCirclePolygon maze mouse mouseFile flag mouse' h
    unfold Mouse.reload at h
    cases hc : (parse mouseFile).constructed with
    | false =>
      simp only [hc, Bool.not_false, if_true, Except.ok.injEq, Prod.mk.injEq] at h
      rw [← h.2]
    | true =>
      simp only [hc, Bool.not_true, Bool.false_eq_true, if_false] at h
      cases hf : getWheelSpeedAdjustmentFactors
          ((parse mouseFile).getWheels mouse.initialTranslation mouse.initialRotation).1 with
      | error e => simp [hf] at h
      | ok factors =>
        simp only [hf, Except.ok.injEq, Prod.mk.injEq] at h
        rw [← h.2]
        rfl

/-- C18: for a mouse whose wheel names are distinct, `Mouse::stopAllWheels` trips no
assertion and returns a mouse with the same wheel names in which every wheel is the wheel
it was, given the speed zero. -/
theorem stopAllWheels_stops (mouse : Mouse) (hwf : QMap.WF mouse.wheels) :
    ∃ mouse', mouse.stopAllWheels = Except.ok mouse' ∧
      mouse'.wheels.map Prod.fst = mouse.wheels.map Prod.fst ∧
      (∀ name wheel, QMap.value? mouse.wheels name = some wheel →
        QMap.value? mouse'.wheels name = some (wheel.setSpeed 0)) ∧
      (∀ e ∈ mouse'.wheels, e.2.currentAngularSpeed = 0) := by
  obtain ⟨mouse', hrun, hnames, hval⟩ := stopAllWheels_eq mouse hwf
  refine ⟨mouse', hrun, hnames, ?_, ?_⟩
  · intro name wheel hw
    rw [hval name, hw]
    rfl
  · intro e he
    have hwf' : QMap.WF mouse'.wheels := by
      unfold QMap.WF
      rw [hnames]
      exact hwf
    have h1 := QMap.value?_of_mem mouse'.wheels hwf' e.1 e.2 he
    rw [hval e.1] at h1
    cases hw : QMap.value? mouse.wheels e.1 with
    | none => rw [hw] at h1; simp at h1
    | some wheel =>
      rw [hw] at h1
      simp only [Option.map_some', Option.some.injEq] at h1
      rw [← h1]
      rfl

/-- The statement of C18 at the sample mouse. -/
theorem stopAllWheels_stops_witness :
    QMap.WF sampleMouse.wheels ∧
    ∃ mouse', sampleMouse.stopAllWheels = Except.ok mouse' ∧
      mouse'.wheels.map Prod.fst = sampleMouse.wheels.map Prod.fst ∧
      (∀ name wheel, QMap.value? sampleMouse.wheels name = some wheel →
        QMap.value? mouse'.wheels name = some (wheel.setSpeed 0)) ∧
      (∀ e ∈ mouse'.wheels, e.2.currentAngularSpeed = 0) :=
  ⟨by decide, stopAllWheels_stops sampleMouse (by decide)⟩

/-- C21: for every non-empty rectangular wall description whose adjacent tiles agree on
the wall between them, the grid that `Maze::setTileDistances` returns during construction
gives every tile with distance `d > 0` a neighbour, across a direction in which the tile
has no wall, whose distance is `d - 1`; two neighbouring tiles with no wall between them
that both have a distance other than `-1` differ in distance by at most `1`; and every
tile with a distance `d ≥ 0` has a path of `d` open hops to a center tile. -/
theorem setTileDistances_gradient (basicMaze : BasicMaze) (hw : 1 ≤ basicMaze.length)
    (hh : 1 ≤ basicHeight basicMaze)
    (hr : ∀ column ∈ basicMaze, column.length = basicHeight basicMaze)
    (hs : SymmetricWalls (buildColumns 0 basicMaze)) :
    ∃ result, initializeFromBasicMaze basicMaze = Except.ok result ∧
      (∀ p t, tileAt result p = some t → 0 < t.distance →
        ∃ d q tq, t.isWall d = false ∧ neighborIn p d = some q ∧
          tileAt result q = some tq ∧ tq.distance = t.distance - 1) ∧
      (∀ p q d tp tq, tileAt result p = some tp → tileAt result q = some tq →
        neighborIn p d = some q → tp.isWall d = false →
        tp.distance ≠ -1 → tq.distance ≠ -1 →
        |tp.distance - tq.distance| ≤ 1) ∧
      (∀ p t, tileAt result p = some t → 0 ≤ t.distance →
        ∃ c, IsCenter result c ∧
          OpenPath (buildColumns 0 basicMaze) p c t.distance.toNat) := by
  have hne : NonEmpty (buildColumns 0 basicMaze) := by
    unfold NonEmpty
    rw [getWidth_buildColumns, getHeight_buildColumns]
    exact ⟨hw, hh⟩
  have hrect := rectangular_buildColumns hr
  have hpos := positioned_buildColumns basicMaze
  obtain ⟨result, hrun, inv⟩ := setTileDistances_inv hne hrect hpos
    (fresh_buildColumns basicMaze)
  have hl0 := Layout.of_maze hrect hpos
  have hl := hl0.of_frame inv.frame
  have hsym : ∀ p q, OpenStep (buildColumns 0 basicMaze) p q →
      OpenStep (buildColumns 0 basicMaze) q p :=
    fun p q s => s.symm hrect hpos hs
  -- a tile of the result and the tile of the description's grid at the same place
  have hback : ∀ p t, tileAt result p = some t →
      ∃ t0, tileAt (buildColumns 0 basicMaze) p = some t0 ∧
        ∀ d, t.isWall d = t0.isWall d := by
    intro p t ht
    have hsome : (tileAt (buildColumns 0 basicMaze) p).isSome = true := by
      rw [← inv.frame.isSome p, ht]; rfl
    obtain ⟨t0, ht0⟩ := Option.isSome_iff_exists.mp hsome
    obtain ⟨t', ht', _, _, hwalls⟩ := inv.frame.tile ht0
    rw [ht] at ht'
    cases ht'
    exact ⟨t0, ht0, hwalls⟩
  refine ⟨result, hrun, ?_, ?_, ?_⟩
  · intro p t ht hpos'
    have hpIn : InGrid _ _ p := (hl.some_iff p).mp (by rw [ht]; rfl)
    have hd : distAt result p = t.distance := distAt_of_some ht
    obtain ⟨n, hstep, hn⟩ := inv.pred p hpIn (by rw [hd]; exact hpos')
    obtain ⟨d, t0, ht0, hwall, hnb, hq⟩ := hsym n p hstep
    obtain ⟨t0', ht0', hwalls⟩ := hback p t ht
    rw [ht0] at ht0'
    cases ht0'
    have hqsome : (tileAt result n).isSome = true := by rw [inv.frame.isSome n]; exact hq
    obtain ⟨tq, htq⟩ := Option.isSome_iff_exists.mp hqsome
    refine ⟨d, n, tq, by rw [hwalls d]; exact hwall, hnb, htq, ?_⟩
    rw [← distAt_of_some htq, hn, hd]
  · intro p q d tp tq htp htq hnb hwall hfp hfq
    have hpIn : InGrid _ _ p := (hl.some_iff p).mp (by rw [htp]; rfl)
    have hqIn : InGrid _ _ q := (hl.some_iff q).mp (by rw [htq]; rfl)
    have hdp : distAt result p = tp.distance := distAt_of_some htp
    have hdq : distAt result q = tq.distance := distAt_of_some htq
    obtain ⟨t0, ht0, hwalls⟩ := hback p tp htp
    have hstep : OpenStep (buildColumns 0 basicMaze) p q :=
      ⟨d, t0, ht0, by rw [← hwalls d]; exact hwall, hnb, by
        rw [← inv.frame.isSome q, htq]; rfl⟩
    have h1 := (inv.closed p hpIn (by rw [hdp]; exact hfp) (by simp) q hstep).2
    have h2 := (inv.closed q hqIn (by rw [hdq]; exact hfq) (by simp) p (hsym p q hstep)).2
    rw [hdp, hdq] at h1 h2
    rw [abs_le]
    constructor <;> omega
  · intro p t ht hnn
    have hpIn : InGrid _ _ p := (hl.some_iff p).mp (by rw [ht]; rfl)
    have hd : distAt result p = t.distance := distAt_of_some ht
    obtain ⟨c, hc, path⟩ := inv.path_of_dist hl0 hsym t.distance.toNat p hpIn
      (by rw [hd]; omega)
    refine ⟨c, ?_, path⟩
    unfold IsCenter
    rw [inv.frame.getWidth, inv.frame.getHeight]
    exact hc

/-- The statement of C21 at the 3 by 3 sample wall description. -/
theorem setTileDistances_gradient_witness :
    (1 ≤ sampleBasicMaze.length ∧ 1 ≤ basicHeight sampleBasicMaze ∧
      (∀ column ∈ sampleBasicMaze, column.length = basicHeight sampleBasicMaze) ∧
      SymmetricWalls (buildColumns 0 sampleBasicMaze)) ∧
    ∃ result, initializeFromBasicMaze sampleBasicMaze = Except.ok result ∧
      (∀ p t, tileAt result p = some t → 0 < t.distance →
        ∃ d q tq, t.isWall d = false ∧ neighborIn p d = some q ∧
          tileAt result q = some tq ∧ tq.distance = t.distance - 1) ∧
      (∀ p q d tp tq, tileAt result p = some tp → tileAt result q = some tq →
        neighborIn p d = some q → tp.isWall d = false →
        tp.distance ≠ -1 → tq.distance ≠ -1 →
        |tp.distance - tq.distance| ≤ 1) ∧
      (∀ p t, tileAt result p = some t → 0 ≤ t.distance →
        ∃ c, IsCenter result c ∧
          OpenPath (buildColumns 0 sampleBasicMaze) p c t.distance.toNat) :=
  ⟨by decide,
    setTileDistances_gradient sampleBasicMaze (by decide) (by decide) (by decide)
      (by decide)⟩

/-- C22: the one-wheel set `sampleForwardOnlyWheels` is not empty and its largest
forward-effect magnitude is `2`, yet `Mouse::getWheelSpeedAdjustmentFactors` returns no
factor for it: the largest turn-effect magnitude is zero, the division of the turn effect
by it is `0 / 0`, and the `ASSERT_LE` on the quotient stops the run. -/
theorem forward_only_wheels_no_factors :
    QMap.WF sampleForwardOnlyWheels ∧ sampleForwardOnlyWheels ≠ [] ∧
    LargestMagnitude
      (sampleForwardOnlyWheels.map (fun e => e.2.maximumEffect.forwardEffect)) 2 ∧
    (2 : ℚ) ≠ 0 ∧
    getWheelSpeedAdjustmentFactors sampleForwardOnlyWheels =
      Except.error MouseFault.divisionByZero ∧
    ¬ ∃ factors, getWheelSpeedAdjustmentFactors sampleForwardOnlyWheels =
      Except.ok factors := by
  have hrun : getWheelSpeedAdjustmentFactors sampleForwardOnlyWheels =
      Except.error MouseFault.divisionByZero := by
    simp [getWheelSpeedAdjustmentFactors, sampleForwardOnlyWheels, ratesOfChange,
      largestMagnitudes, normalizeContributions, QMap.insert, divide]
  refine ⟨by decide, by simp [sampleForwardOnlyWheels], ?_, by norm_num, hrun, ?_⟩
  · simp [LargestMagnitude, sampleForwardOnlyWheels]
  · rintro ⟨factors, h⟩
    rw [hrun] at h
    cases h

/-! ## Maze: rotation of a wall description -/

/-- Modifying the element that follows the first `pre.length` elements. -/
theorem modify_at_length {α : Type} (f : α → α) (pre : List α) (m : α) (mid : List α) :
    (pre ++ m :: mid).modify f pre.length = pre ++ f m :: mid := by
  induction pre with
  | nil => rfl
  | cons a pre ih =>
    simp only [List.cons_append, List.length_cons, List.modify_succ_cons, ih]

/-- The inner loop of `Maze::rotateCounterClockwise` on a description that already has a
column for every tile still to come: each tile is appended to its column. -/
theorem rotateColumn_append (column : List BasicTile) :
    ∀ (n : Nat) (pre mid : BasicMaze), n ≤ column.length →
      pre.length = column.length - n → mid.length = n →
      rotateColumn column n (pre ++ mid) = Except.ok
        (pre ++ List.zipWith (fun rotatedColumn t => rotatedColumn ++ [rotateTile t]) mid
          (column.take n).reverse) := by
  intro n
  induction n with
  | zero =>
    intro pre mid _ _ hmid
    have hnil := List.length_eq_zero.mp hmid
    subst hnil
    simp [rotateColumn]
  | succ n ih =>
    intro pre mid hn hpre hmid
    match mid, hmid with
    | m :: mid', hmid =>
      have hlt : n < column.length := hn
      have hget : column[n]? = some column[n] := List.getElem?_eq_getElem hlt
      have hx : column.length - 1 - n = pre.length := by omega
      have hnot : ¬ (pre ++ m :: mid').length ≤ pre.length := by simp
      simp only [rotateColumn, hget, hx, if_neg hnot, modify_at_length]
      have hrec := ih (pre ++ [m ++ [rotateTile column[n]]]) mid' (by omega)
        (by simp only [List.length_append, List.length_singleton]; omega)
        (by simpa using hmid)
      simp only [List.append_assoc, List.singleton_append] at hrec
      rw [hrec, List.take_succ, hget]
      simp only [Option.toList, List.reverse_append, List.reverse_singleton,
        List.singleton_append, List.zipWith_cons_cons]

/-- The inner loop of `Maze::rotateCounterClockwise` on a description that has no column
yet for the tiles still to come: each tile opens a new column. -/
theorem rotateColumn_fresh (column : List BasicTile) :
    ∀ (n : Nat) (rotated : BasicMaze), n ≤ column.length →
      rotated.length = column.length - n →
      rotateColumn column n rotated = Except.ok
        (rotated ++ (column.take n).reverse.map (fun t => [rotateTile t])) := by
  intro n
  induction n with
  | zero =>
    intro rotated _ _
    simp [rotateColumn]
  | succ n ih =>
    intro rotated hn hlen
    have hlt : n < column.length := hn
    have hget : column[n]? = some column[n] := List.getElem?_eq_getElem hlt
    have hx : column.length - 1 - n = rotated.length := by omega
    simp only [rotateColumn, hget, hx, le_refl, if_true]
    rw [ih _ (by omega) (by simp only [List.length_append, List.length_singleton]; omega),
      List.take_succ, hget]
    simp only [Option.toList, List.reverse_append, List.reverse_singleton,
      List.singleton_append, List.map_cons, List.append_assoc]

/-- Appending one rotated tile to each column: the column at place `i` gets the tile
made from the source tile at height `H - 1 - i`. -/
theorem getD_zipWith_rotate (column : List BasicTile) (rotated : BasicMaze) (i : Nat)
    (hi : i < column.length) (hlen : rotated.length = column.length) :
    (List.zipWith (fun rotatedColumn t => rotatedColumn ++ [rotateTile t]) rotated
        column.reverse).getD i [] =
      rotated.getD i [] ++
        [rotateTile (column.getD (column.length - 1 - i) (fun _ => false))] := by
  have h1 : rotated[i]? = some rotated[i] := List.getElem?_eq_getElem (by omega)
  have h2 : column.reverse[i]? = some column[column.length - 1 - i] := by
    rw [List.getElem?_reverse hi]
    exact List.getElem?_eq_getElem (by omega)
  have h3 : column[column.length - 1 - i]? = some column[column.length - 1 - i] :=
    List.getElem?_eq_getElem (by omega)
  simp only [List.getD_eq_getElem?_getD, List.getElem?_zipWith, h1, h2, h3, Option.getD_some]

/-- The outer loop of `Maze::rotateCounterClockwise` over columns of one height `H`, on a
description that already has `H` columns. -/
theorem rotateColumns_append (H : Nat) :
    ∀ (columns : BasicMaze) (rotated : BasicMaze),
      (∀ column ∈ columns, column.length = H) → rotated.length = H →
      rotateColumns columns rotated = Except.ok
        ((List.range H).map (fun i => rotated.getD i [] ++
          columns.map (fun column => rotateTile (column.getD (H - 1 - i) (fun _ => false))))) := by
  intro columns
  induction columns with
  | nil =>
    intro rotated _ hlen
    simp only [rotateColumns, List.map_nil, List.append_nil]
    congr 1
    apply List.ext_getElem
    · simp [hlen]
    · intro i h1 h2
      simp [List.getD_eq_getElem?_getD, List.getElem?_eq_getElem h1]
  | cons column rest ih =>
    intro rotated hcols hlen
    have hcol : column.length = H := hcols column (List.mem_cons_self _ _)
    have hstep := rotateColumn_append column column.length [] rotated (le_refl _)
      (by simp) (by rw [hlen, hcol])
    simp only [List.nil_append, List.take_length] at hstep
    simp only [rotateColumns, hstep]
    rw [ih _ (fun c hc => hcols c (List.mem_cons_of_mem _ hc))
      (by simp [List.length_zipWith, hlen, hcol])]
    congr 1
    apply List.map_congr_left
    intro i hi
    have hiH : i < column.length := by rw [hcol]; exact List.mem_range.mp hi
    rw [getD_zipWith_rotate column rotated i hiH (by rw [hlen, hcol]), hcol]
    simp only [List.map_cons, List.append_assoc, List.singleton_append]

/-- What `Maze::rotateCounterClockwise` returns for a description with at least one
column, all columns of one height `H`: column `i` lists, for each source column, the
tile made from its tile at height `H - 1 - i`. -/
theorem rotateCounterClockwise_eq (H : Nat) (basicMaze : BasicMaze)
    (hne : basicMaze ≠ []) (hcols : ∀ column ∈ basicMaze, column.length = H) :
    rotateCounterClockwise basicMaze = Except.ok
      ((List.range H).map (fun i =>
        basicMaze.map (fun column =>
          rotateTile (column.getD (H - 1 - i) (fun _ => false))))) := by
  match basicMaze, hne, hcols with
  | column :: rest, _, hcols =>
    have hcol : column.length = H := hcols column (List.mem_cons_self _ _)
    have hstep := rotateColumn_fresh column column.length [] (le_refl _) (by simp)
    simp only [List.nil_append, List.take_length] at hstep
    simp only [rotateCounterClockwise, rotateColumns, hstep]
    rw [rotateColumns_append H rest _ (fun c hc => hcols c (List.mem_cons_of_mem _ hc))
      (by simp [hcol])]
    congr 1
    apply List.map_congr_left
    intro i hi
    have hiH : i < column.length := by rw [hcol]; exact List.mem_range.mp hi
    have h2 : column.reverse[i]? = some column[column.length - 1 - i] := by
      rw [List.getElem?_reverse hiH]
      exact List.getElem?_eq_getElem (by omega)
    have h3 : column[column.length - 1 - i]? = some column[column.length - 1 - i] :=
      List.getElem?_eq_getElem (by omega)
    simp only [List.getD_eq_getElem?_getD, List.getElem?_map, h2, Option.map_some',
      Option.getD_some, List.map_cons, List.singleton_append, ← hcol, h3]

/-- Four relabellings of the walls of a tile give the tile back. -/
theorem rotateTile_four (t : BasicTile) :
    rotateTile (rotateTile (rotateTile (rotateTile t))) = t := by
  funext d
  cases d <;> rfl

/-- The tile of `basicMazeOf` at a place inside it. -/
theorem getD_basicMazeOf_column (H : Nat) (g : Nat → BasicTile) (y : Nat) (hy : y < H) :
    ((List.range H).map g).getD y (fun _ => false) = g y := by
  simp [List.getD_eq_getElem?_getD, List.getElem?_map, List.getElem?_range hy]

/-- Two tabulated descriptions are equal when their tiles agree inside the bounds. -/
theorem basicMazeOf_congr (W H : Nat) (f g : Nat → Nat → BasicTile)
    (h : ∀ x y, x < W → y < H → f x y = g x y) : basicMazeOf W H f = basicMazeOf W H g := by
  unfold basicMazeOf
  apply List.map_congr_left
  intro x hx
  apply List.map_congr_left
  intro y hy
  exact h x y (List.mem_range.mp hx) (List.mem_range.mp hy)

/-- A rectangular description is the tabulation of its tiles. -/
theorem eq_basicMazeOf (W H : Nat) (basicMaze : BasicMaze) (hw : basicMaze.length = W)
    (hcols : ∀ column ∈ basicMaze, column.length = H) :
    basicMaze = basicMazeOf W H
      (fun x y => (basicTileAt basicMaze (x, y)).getD (fun _ => false)) := by
  unfold basicMazeOf
  apply List.ext_getElem
  · simp [hw]
  · intro x h1 h2
    have hcol : basicMaze[x].length = H := hcols _ (List.getElem_mem h1)
    apply List.ext_getElem
    · simp [hcol]
    · intro y h3 h4
      simp [basicTileAt, List.getElem?_eq_getElem h1, List.getElem?_eq_getElem h3]

/-- `Maze::rotateCounterClockwise` on a tabulated description. -/
theorem rotateCounterClockwise_basicMazeOf (W H : Nat) (f : Nat → Nat → BasicTile)
    (hw : 1 ≤ W) :
    rotateCounterClockwise (basicMazeOf W H f) = Except.ok
      (basicMazeOf H W (fun i x => rotateTile (f x (H - 1 - i)))) := by
  have hne : basicMazeOf W H f ≠ [] := by
    intro h
    have := congrArg List.length h
    simp [basicMazeOf] at this
    omega
  have hcols : ∀ column ∈ basicMazeOf W H f, column.length = H := by
    intro column hc
    unfold basicMazeOf at hc
    obtain ⟨x, _, rfl⟩ := List.mem_map.mp hc
    simp
  rw [rotateCounterClockwise_eq H _ hne hcols]
  congr 1
  unfold basicMazeOf
  apply List.map_congr_left
  intro i hi
  rw [List.map_map]
  apply List.map_congr_left
  intro x _
  have hiH : i < H := List.mem_range.mp hi
  simp only [Function.comp]
  rw [getD_basicMazeOf_column H (fun y => f x y) (H - 1 - i) (by omega)]

/-- C23: for every rectangular wall description of width `W ≥ 1` and height `H ≥ 1`,
`Maze::rotateCounterClockwise` returns a description with `H` columns of `W` tiles each,
in which the tile at `(H - 1 - y, x)` carries the walls of the source tile at `(x, y)`
relabelled `NORTH ← EAST`, `EAST ← SOUTH`, `SOUTH ← WEST`, `WEST ← NORTH`; three further
applications return the source description. -/
theorem rotateCounterClockwise_spec (basicMaze : BasicMaze) (hw : 1 ≤ basicMaze.length)
    (hh : 1 ≤ basicHeight basicMaze)
    (hr : ∀ column ∈ basicMaze, column.length = basicHeight basicMaze) :
    ∃ rotated, rotateCounterClockwise basicMaze = Except.ok rotated ∧
      rotated.length = basicHeight basicMaze ∧
      (∀ column ∈ rotated, column.length = basicMaze.length) ∧
      (∀ x y source, basicTileAt basicMaze (x, y) = some source →
        ∃ tile, basicTileAt rotated (basicHeight basicMaze - 1 - y, x) = some tile ∧
          tile Direction.NORTH = source Direction.EAST ∧
          tile Direction.EAST = source Direction.SOUTH ∧
          tile Direction.SOUTH = source Direction.WEST ∧
          tile Direction.WEST = source Direction.NORTH) ∧
      ∃ twice thrice, rotateCounterClockwise rotated = Except.ok twice ∧
        rotateCounterClockwise twice = Except.ok thrice ∧
        rotateCounterClockwise thrice = Except.ok basicMaze := by
  have hne : basicMaze ≠ [] := by
    intro h
    rw [h] at hw
    simp at hw
  refine ⟨_, rotateCounterClockwise_eq (basicHeight basicMaze) basicMaze hne hr, ?_, ?_, ?_,
    ?_⟩
  · simp
  · intro column hc
    obtain ⟨i, _, rfl⟩ := List.mem_map.mp hc
    simp
  · intro x y source hsrc
    unfold basicTileAt at hsrc
    simp only at hsrc
    cases hcol : basicMaze[x]? with
    | none => rw [hcol] at hsrc; simp at hsrc
    | some column =>
      rw [hcol] at hsrc
      simp only at hsrc
      have hlen : column.length = basicHeight basicMaze := hr column (List.getElem?_mem hcol)
      have hy : y < column.length := by
        by_contra hge
        rw [List.getElem?_eq_none (by omega)] at hsrc
        cases hsrc
      have hidx : basicHeight basicMaze - 1 - (basicHeight basicMaze - 1 - y) = y := by
        omega
      refine ⟨rotateTile source, ?_, rfl, rfl, rfl, rfl⟩
      unfold basicTileAt
      simp only [List.getElem?_map,
        List.getElem?_range (show basicHeight basicMaze - 1 - y < basicHeight basicMaze by
          omega),
        Option.map_some', hcol, hidx, List.getD_eq_getElem?_getD, hsrc, Option.getD_some]
  · have htab := eq_basicMazeOf basicMaze.length (basicHeight basicMaze) basicMaze rfl hr
    generalize (fun x y => (basicTileAt basicMaze (x, y)).getD (fun _ => false)) = f at htab
    generalize basicHeight basicMaze = H at *
    generalize hW : basicMaze.length = W at *
    have h1 := rotateCounterClockwise_basicMazeOf W H f hw
    have h2 := rotateCounterClockwise_basicMazeOf H W
      (fun i x => rotateTile (f x (H - 1 - i))) hh
    have h3 := rotateCounterClockwise_basicMazeOf W H
      (fun i x => rotateTile (rotateTile (f (W - 1 - i) (H - 1 - x)))) hw
    have h4 := rotateCounterClockwise_basicMazeOf H W
      (fun i x => rotateTile (rotateTile (rotateTile (f (W - 1 - x) (H - 1 - (H - 1 - i))))))
      hh
    have hfirst := rotateCounterClockwise_eq H basicMaze hne hr
    have h1' : rotateCounterClockwise basicMaze = Except.ok
        (basicMazeOf H W (fun i x => rotateTile (f x (H - 1 - i)))) := by
      rw [htab]
      exact h1
    rw [Except.ok.inj (hfirst.symm.trans h1')]
    refine ⟨_, _, h2, h3, ?_⟩
    rw [h4]
    conv_rhs => rw [htab]
    congr 1
    apply basicMazeOf_congr
    intro x y hx hy
    have hx' : W - 1 - (W - 1 - x) = x := by omega
    have hy' : H - 1 - (H - 1 - y) = y := by omega
    simp only [hx', hy', rotateTile_four]

/-- The statement of C23 at the 2 by 3 sample wall description. -/
theorem rotateCounterClockwise_spec_witness :
    (1 ≤ sampleTallBasicMaze.length ∧ 1 ≤ basicHeight sampleTallBasicMaze ∧
      ∀ column ∈ sampleTallBasicMaze, column.length = basicHeight sampleTallBasicMaze) ∧
    ∃ rotated, rotateCounterClockwise sampleTallBasicMaze = Except.ok rotated ∧
      rotated.length = basicHeight sampleTallBasicMaze ∧
      (∀ column ∈ rotated, column.length = sampleTallBasicMaze.length) ∧
      (∀ x y source, basicTileAt sampleTallBasicMaze (x, y) = some source →
        ∃ tile, basicTileAt rotated (basicHeight sampleTallBasicMaze - 1 - y, x) =
            some tile ∧
          tile Direction.NORTH = source Direction.EAST ∧
          tile Direction.EAST = source Direction.SOUTH ∧
          tile Direction.SOUTH = source Direction.WEST ∧
          tile Direction.WEST = source Direction.NORTH) ∧
      ∃ twice thrice, rotateCounterClockwise rotated = Except.ok twice ∧
        rotateCounterClockwise twice = Except.ok thrice ∧
        rotateCounterClockwise thrice = Except.ok sampleTallBasicMaze :=
  ⟨⟨by decide, by decide, by simp [sampleTallBasicMaze, basicHeight]⟩,
    rotateCounterClockwise_spec sampleTallBasicMaze (by decide) (by decide)
      (by simp [sampleTallBasicMaze, basicHeight])⟩

end mms
